import Mathlib

/-!
Shallow embedding of the logistics prototype planner (`plan_edges` and
`plan_planes`) and verification of its specification claims.

The Python source operates on mutable numpy state; here every function is a
pure state-passing translation.  Assertion failures (and index errors /
iteration over `None`) are modelled by `Option`: `none` means the Python
program would have raised.  Unbounded `while` loops are modelled with an
explicit fuel argument chosen by the caller exactly as large as the
verification proves sufficient; running out of fuel also yields `none`.
Machine integers are modelled by `Nat` (all quantities in the program are
provably non-negative, and every subtraction in the source is guarded).
The global constants `plane_cap` and `city_count` of the prototype are the
parameters `cap` and `N`.
-/

namespace Logistics

/-- `Edge = namedtuple("Edge", ["i", "j", "cargo"])`:
a flight slot from city `i` to city `j`, with a cargo vector indexed by
final destination (`np.zeros(city_count)`-based). -/
structure Edge where
  i : Nat
  j : Nat
  cargo : List Nat
deriving DecidableEq

instance : Inhabited Edge := ⟨⟨0, 0, []⟩⟩

/-- The constraint store: the Python `set` of ordered pairs of edge indices,
modelled as a duplicate-free list (the membership guard in `add_constraint`
keeps it duplicate-free). -/
abbrev CSet := List (Nat × Nat)

/-- Pointwise update of the demand matrix (`crates[i, j] = v`). -/
def mset (m : Nat → Nat → Nat) (i j v : Nat) : Nat → Nat → Nat :=
  fun i' j' => if i' = i ∧ j' = j then v else m i' j'

/-- In-place update of a list element (`xs[k] = f xs[k]`); out-of-range
indices leave the list unchanged (never reached on the verified paths). -/
def listModify (f : α → α) : Nat → List α → List α
  | _, [] => []
  | 0, a :: as => f a :: as
  | n+1, a :: as => a :: listModify f n as

/-- One iteration of the closure loop of `add_constraint`:
`for (ek, el) in set(constraints): if ek == ej: add_constraint(ei, el);
if el == ei: add_constraint(ek, ej)`.  The recursive call is abstracted as
`rec` (instantiated with `addConstraint fuel`). -/
def acStep (rec : CSet → Nat → Nat → Option CSet) (ei ej : Nat)
    (cs : CSet) (p : Nat × Nat) : Option CSet := do
  let cs1 ← if p.1 = ej then rec cs ei p.2 else some cs
  if p.2 = ei then rec cs1 p.1 ej else some cs1

/-- `add_constraint(ei, ej)`:
asserts `(ej, ei) not in constraints` and `ei != ej`, returns unchanged if
the pair is present, otherwise inserts it and re-closes transitively by
iterating over a snapshot of the updated set. -/
def addConstraint : Nat → CSet → Nat → Nat → Option CSet
  | 0, _, _, _ => none
  | fuel+1, cs, ei, ej =>
    if (ej, ei) ∈ cs then none
    else if ei = ej then none
    else if (ei, ej) ∈ cs then some cs
    else
      let cs1 : CSet := (ei, ej) :: cs
      cs1.foldlM (acStep (addConstraint fuel) ei ej) cs1

/-- Fuel handed to each `add_constraint` call: the closure recursion inserts
only pairs from a square of existing endpoints, so `(|cs|+2)^2` bounds its
depth. -/
def acFuel (cs : CSet) : Nat := (cs.length + 2) * (cs.length + 2)

/-- One candidate edge test of the BFS inner loop of `find_path`
(the `for edge_idx, edge in enumerate(edges)` body): an edge leaving the
popped city `c` whose head city is undiscovered, with remaining capacity,
and whose use after the current path introduces no reversed constraint,
extends the discovery map and the queue. -/
def fpTry (cap : Nat) (cs : CSet) (c : Nat) (pathToC : List Nat)
    (st : (Nat → Option (List Nat)) × List Nat) (pe : Nat × Edge) :
    (Nat → Option (List Nat)) × List Nat :=
  if pe.2.i = c ∧ st.1 pe.2.j = none ∧ pe.2.cargo.sum < cap ∧
      (∀ p ∈ pathToC, (pe.1, p) ∉ cs) then
    (Function.update st.1 pe.2.j (some (pathToC ++ [pe.1])), st.2 ++ [pe.2.j])
  else st

/-- The BFS queue loop of `find_path` (`while visited: ...`). -/
def fpLoop (cap : Nat) (edges : List Edge) (cs : CSet) :
    Nat → (Nat → Option (List Nat)) → List Nat → Option (Nat → Option (List Nat))
  | _, paths, [] => some paths
  | 0, _, _ :: _ => none
  | fuel+1, paths, c :: queue =>
    match paths c with
    | none => none
    | some pathToC =>
      let st := edges.enum.foldl (fpTry cap cs c pathToC) (paths, queue)
      fpLoop cap edges cs fuel st.1 st.2

/-- `find_path(path_i, path_j)`: BFS over the current edge graph; returns
`some (some p)` for a discovered path `p` (a list of edge indices),
`some none` when `path_j` is unreachable (`paths[path_j] is None`), and
`none` if the loop would not have finished in `N+1` rounds (never happens:
each round past the first discovers a fresh city). -/
def findPath (cap N : Nat) (edges : List Edge) (cs : CSet) (a b : Nat) :
    Option (Option (List Nat)) :=
  (fpLoop cap edges cs (N+1) (fun c => if c = a then some [] else none) [a]).map
    (fun paths => paths b)

/-- `path_cap = min(plane_cap - np.sum(edges[idx].cargo) for idx in ij_path)`;
`none` on an empty path (Python `min` of an empty generator raises). -/
def pathCap (cap : Nat) (edges : List Edge) : List Nat → Option Nat
  | [] => none
  | [e] => some (cap - (edges.getD e default).cargo.sum)
  | e :: rest => (pathCap cap edges rest).map (fun m => min (cap - (edges.getD e default).cargo.sum) m)

/-- `edges[edge_idx].cargo[j] += amount` for one edge. -/
def bumpCargo (j amount : Nat) (e : Edge) : Edge :=
  { e with cargo := e.cargo.set j (e.cargo.getD j 0 + amount) }

/-- `for edge_idx in ij_path: edges[edge_idx].cargo[j] += amount`. -/
def incEdges (j amount : Nat) (edges : List Edge) : List Nat → List Edge
  | [] => edges
  | eidx :: rest => incEdges j amount (listModify (bumpCargo j amount) eidx edges) rest

/-- `for prev_edge_idx, next_edge_idx in zip(ij_path, ij_path[1:]):
add_constraint(prev_edge_idx, next_edge_idx)`. -/
def commitCs : List Nat → CSet → Option CSet
  | p :: q :: rest, cs => do commitCs (q :: rest) (← addConstraint (acFuel cs) cs p q)
  | _, cs => some cs

/-- The mutable state of `plan_edges`: the (consumed) demand matrix, the
append-only edge store, and the constraint store. -/
structure EState where
  crates : Nat → Nat → Nat
  edges : List Edge
  cs : CSet

/-- `add_edge(i, j, amount)`: asserts `amount <= plane_cap` and appends an
edge whose cargo vector is zero except `cargo[j] = amount`. -/
def addEdge (cap N : Nat) (edges : List Edge) (i j amount : Nat) :
    Option (List Edge) :=
  if amount ≤ cap then
    some (edges ++ [⟨i, j, (List.replicate N 0).set j amount⟩])
  else none

/-- `while crates[i, j] >= plane_cap: add_edge(i, j, plane_cap);
crates[i, j] -= plane_cap`. -/
def bulkLoop (cap N : Nat) : Nat → Nat → Nat → EState → Option EState
  | 0, _, _, _ => none
  | fuel+1, i, j, st =>
    if cap ≤ st.crates i j then do
      let edges1 ← addEdge cap N st.edges i j cap
      bulkLoop cap N fuel i j ⟨mset st.crates i j (st.crates i j - cap), edges1, st.cs⟩
    else some st

/-- The transshipment loop `while crates[i, j] > 0: ...` of `plan_edges`:
search a path, break when none exists, otherwise ship
`amount = min(path_cap, crates[i, j])` along it, record the consecutive
constraints and decrement the demand. -/
def transLoop (cap N : Nat) : Nat → Nat → Nat → EState → Option EState
  | 0, _, _, _ => none
  | fuel+1, i, j, st =>
    if 0 < st.crates i j then
      match findPath cap N st.edges st.cs i j with
      | none => none
      | some none => some st
      | some (some path) => do
        let pc ← pathCap cap st.edges path
        let amount := min pc (st.crates i j)
        let edges1 := incEdges j amount st.edges path
        let cs1 ← commitCs path st.cs
        transLoop cap N fuel i j
          ⟨mset st.crates i j (st.crates i j - amount), edges1, cs1⟩
    else some st

/-- The body of `for (i, j) in ij_order`: bulk full-capacity direct edges,
then transshipment reuse, then one residual direct edge. -/
def processPair (cap N : Nat) (st : EState) (i j : Nat) : Option EState := do
  let st1 ← bulkLoop cap N (st.crates i j + 1) i j st
  let st2 ← transLoop cap N (st1.crates i j + 1) i j st1
  if 0 < st2.crates i j then do
    let edges1 ← addEdge cap N st2.edges i j (st2.crates i j)
    some ⟨mset st2.crates i j 0, edges1, st2.cs⟩
  else some st2

/-- `[(i, j) for i in range(city_count) for j in range(city_count)]`. -/
def allPairs (N : Nat) : List (Nat × Nat) :=
  ((List.range N).map (fun i => (List.range N).map (fun j => (i, j)))).flatten

/-- Stable descending insertion used to model Python's stable
`sorted(..., reverse=True, key=...)`: `x` is placed before the first
element whose key is not larger, so earlier elements win ties. -/
def insertDesc (key : Nat × Nat → Nat) (x : Nat × Nat) :
    List (Nat × Nat) → List (Nat × Nat)
  | [] => [x]
  | y :: ys => if key x < key y then y :: insertDesc key x ys else x :: y :: ys

/-- Stable sort, descending by `key` (extensionally Python's
`sorted(l, reverse=True, key=key)`). -/
def sortDesc (key : Nat × Nat → Nat) (l : List (Nat × Nat)) : List (Nat × Nat) :=
  l.foldr (insertDesc key) []

/-- `ij_order`: all city pairs, sorted descending by initial demand. -/
def ijOrder (N : Nat) (crates : Nat → Nat → Nat) : List (Nat × Nat) :=
  sortDesc (fun ij => crates ij.1 ij.2) (allPairs N)

/-- `plan_edges(crates)`: returns the final state — the consumed demand
matrix, the edge list and the constraint set. -/
def planEdges (cap N : Nat) (crates : Nat → Nat → Nat) : Option EState :=
  (ijOrder N crates).foldlM (fun st ij => processPair cap N st ij.1 ij.2)
    ⟨crates, [], []⟩

/-! ### The plane planner `plan_planes` -/

/-- One output event of `plan_planes`.  `fly p k` records that plane `p`
executes edge `k` (the Python code appends
`PlaneEdge(p, edges[k].i, edges[k].j, edges[k].cargo)`); `jump p a b`
records the zero-cargo repositioning flight `PlaneEdge(p, a, b, 0)`. -/
inductive PEvent where
  | fly (plane eidx : Nat)
  | jump (plane src dst : Nat)
deriving DecidableEq

/-- A `PlaneEdge` namedtuple of the source (`plane_idx, i, j, cargo`). -/
structure Flight where
  plane : Nat
  i : Nat
  j : Nat
  cargo : List Nat
deriving DecidableEq

/-- The flight a trace event denotes; `flightsOf` below maps a trace to the
literal `plane_edges` output list of the Python code. -/
def eventFlight (edges : List Edge) (N : Nat) : PEvent → Flight
  | .fly p k => ⟨p, (edges.getD k default).i, (edges.getD k default).j,
      (edges.getD k default).cargo⟩
  | .jump p a b => ⟨p, a, b, List.replicate N 0⟩

/-- The `plane_edges` output list of `plan_planes`. -/
def flightsOf (edges : List Edge) (N : Nat) (tr : List PEvent) : List Flight :=
  tr.map (eventFlight edges N)

/-- The subsequence of flights executed by plane `p`. -/
def planeFlights (p : Nat) (fl : List Flight) : List Flight :=
  fl.filter (fun f => f.plane = p)

/-- `all_out_edges[c]`: indices of edges leaving city `c` (built once from
`enumerate(edges)` and never mutated afterwards). -/
def allOut (edges : List Edge) (c : Nat) : List Nat :=
  (edges.enum.filter (fun pe => pe.2.i = c)).map (fun pe => pe.1)

/-- `all_in_edges[c]`: indices of edges arriving at city `c`. -/
def allIn (edges : List Edge) (c : Nat) : List Nat :=
  (edges.enum.filter (fun pe => pe.2.j = c)).map (fun pe => pe.1)

/-- `is_available(idx)`: every constraint predecessor of `idx` is visited. -/
def isAvail (cs : CSet) (visited : List Nat) (idx : Nat) : Prop :=
  ∀ pq ∈ cs, pq.2 = idx → pq.1 ∈ visited

instance (cs : CSet) (visited : List Nat) (idx : Nat) :
    Decidable (isAvail cs visited idx) :=
  List.decidableBAll _ cs

/-- The mutable state of `plan_planes`.  `ctr` counts the calls to
`np.random.randint` made so far; the random stream is an external
function of this counter. -/
structure PState where
  availOut : Nat → List Nat
  availIn : Nat → List Nat
  visited : List Nat
  pos : Nat → Nat
  trace : List PEvent
  ctr : Nat

/-- `make_available(idx)` (applied to availability maps). -/
def mkAvail (edges : List Edge) (ao ai : Nat → List Nat) (idx : Nat) :
    (Nat → List Nat) × (Nat → List Nat) :=
  let e := edges.getD idx default
  (Function.update ao e.i (ao e.i ++ [idx]),
   Function.update ai e.j (ai e.j ++ [idx]))

/-- The initialization loop of `plan_planes`: edges whose predecessor set is
empty (`is_available` with `visited = []`) are made available. -/
def initAvail (edges : List Edge) (cs : CSet) :
    (Nat → List Nat) × (Nat → List Nat) :=
  edges.enum.foldl
    (fun ai pe =>
      if isAvail cs [] pe.1 then mkAvail edges ai.1 ai.2 pe.1 else ai)
    (fun _ => [], fun _ => [])

/-- One candidate of the unlock loop of `visit_edge`:
`if not is_visited and not is_already_available and is_available(unlock_idx):
make_available(unlock_idx)` (`cj` is `edges[idx].j`). -/
def unlockStep (edges : List Edge) (cs : CSet) (cj : Nat) (s : PState) (u : Nat) :
    PState :=
  if u ∉ s.visited ∧ u ∉ s.availOut cj ∧ isAvail cs s.visited u then
    let av := mkAvail edges s.availOut s.availIn u
    { s with availOut := av.1, availIn := av.2 }
  else s

/-- `visit_edge(idx)`: remove from the availability maps, mark visited, and
unlock any edge out of `edges[idx].j` all of whose predecessors are now
visited. -/
def visitEdge (edges : List Edge) (cs : CSet) (st : PState) (idx : Nat) :
    Option PState :=
  match edges.get? idx with
  | none => none
  | some e =>
    let st1 : PState :=
      { st with
        availOut := Function.update st.availOut e.i ((st.availOut e.i).erase idx),
        availIn := Function.update st.availIn e.j ((st.availIn e.j).erase idx),
        visited := st.visited ++ [idx] }
    some ((allOut edges e.j).foldl (unlockStep edges cs e.j) st1)

/-- `extend_journey(plane_idx)`: repeatedly pick a uniformly random available
out-edge of the plane's current city, visit it, emit the flight and advance;
finally write the position back.  `i` is the loop-local current city and
`ext` the `extended` flag. -/
def extendJourney (edges : List Edge) (cs : CSet) (rand : Nat → Nat) :
    Nat → PState → Nat → Nat → Bool → Option (PState × Bool)
  | 0, _, _, _, _ => none
  | fuel+1, st, p, i, ext =>
    let outEdges := st.availOut i
    if 0 < outEdges.length then do
      let idx := outEdges.getD (rand st.ctr % outEdges.length) 0
      let st1 ← visitEdge edges cs { st with ctr := st.ctr + 1 } idx
      extendJourney edges cs rand fuel
        { st1 with trace := st1.trace ++ [PEvent.fly p idx] } p
        (edges.getD idx default).j true
    else
      some ({ st with pos := Function.update st.pos p i }, ext)

/-- One round-robin pass `for plane_idx in range(len(planes)):
extended |= extend_journey(plane_idx)`. -/
def extendPass (edges : List Edge) (cs : CSet) (rand : Nat → Nat)
    (planeCount : Nat) (st : PState) : Option (PState × Bool) :=
  (List.range planeCount).foldlM
    (fun sb p => do
      let r ← extendJourney edges cs rand (edges.length + 1) sb.1 p (sb.1.pos p) false
      some (r.1, sb.2 || r.2))
    (st, false)

/-- The inner `while True` of the scheduler: repeat passes until a full pass
extends no plane. -/
def extendPhase (edges : List Edge) (cs : CSet) (rand : Nat → Nat)
    (planeCount : Nat) : Nat → PState → Option PState
  | 0, _ => none
  | fuel+1, st => do
    let r ← extendPass edges cs rand planeCount st
    if r.2 then extendPhase edges cs rand planeCount fuel r.1 else some r.1

/-- Python `max(xs, key=key)` over a nonempty list: first maximal element. -/
def argmaxFirst (key : Nat → Int) : List Nat → Option Nat
  | [] => none
  | x :: xs => some (xs.foldl (fun b y => if key b < key y then y else b) x)

/-- Python `min(xs, key=key)` over a nonempty list: first minimal element. -/
def argminFirst (key : Nat × Nat → Nat) : List (Nat × Nat) → Option (Nat × Nat)
  | [] => none
  | x :: xs => some (xs.foldl (fun b y => if key y < key b then y else b) x)

/-- The outer `while True` of `plan_planes`: extend phase, then break if no
city has an available out-edge, otherwise emit a repositioning jump of the
least-busy plane to the most-stranded city and loop. -/
def mainLoop (N : Nat) (edges : List Edge) (cs : CSet) (rand : Nat → Nat)
    (planeCount : Nat) : Nat → PState → Option PState
  | 0, _ => none
  | fuel+1, st => do
    let st1 ← extendPhase edges cs rand planeCount (edges.length + 2) st
    let jumpJs := (List.range N).filter (fun j => 0 < (st1.availOut j).length)
    if jumpJs = [] then some st1
    else do
      let jj ← argmaxFirst
        (fun j => ((st1.availOut j).length : Int) - ((st1.availIn j).length : Int))
        jumpJs
      let pi_ ← argminFirst
        (fun pr => ((allOut edges pr.2).filter (fun u => u ∉ st1.visited)).length)
        ((List.range planeCount).map (fun p => (p, st1.pos p)))
      mainLoop N edges cs rand planeCount fuel
        { st1 with pos := Function.update st1.pos pi_.1 jj,
                   trace := st1.trace ++ [PEvent.jump pi_.1 pi_.2 jj] }

/-- `plan_planes(edges, constraints, planes)`: run the scheduler from the
initial availability maps and plane positions; the final
`assert visited_edges == set(range(len(edges)))` is the two membership
checks (`none` models the assertion failure). -/
def planPlanes (N : Nat) (edges : List Edge) (cs : CSet) (planes : List Nat)
    (rand : Nat → Nat) : Option PState := do
  let av := initAvail edges cs
  let st ← mainLoop N edges cs rand planes.length (2 * edges.length + 2)
    ⟨av.1, av.2, [], fun p => planes.getD p 0, [], 0⟩
  if (∀ k < edges.length, k ∈ st.visited) ∧ (∀ v ∈ st.visited, v < edges.length) then
    some st
  else none

/-! ### Specification predicates -/

/-- The constraint set is transitively closed. -/
def TransClosed (cs : CSet) : Prop :=
  ∀ a b c, (a, b) ∈ cs → (b, c) ∈ cs → (a, c) ∈ cs

/-- No two-cycle: `(a, b)` and `(b, a)` are never simultaneously present. -/
def NoTwoCycle (cs : CSet) : Prop :=
  ∀ a b, (a, b) ∈ cs → (b, a) ∉ cs

/-- No self-pair `(a, a)`. -/
def IrreflCS (cs : CSet) : Prop := ∀ a, (a, a) ∉ cs

/-- The documented invariant of the constraint store. -/
def CsInv (cs : CSet) : Prop := TransClosed cs ∧ NoTwoCycle cs ∧ IrreflCS cs

/-- A chained path of edge indices from city `a` to city `b`:
each listed edge exists, leaves the city the previous one entered. -/
def IsPath (edges : List Edge) : Nat → Nat → List Nat → Prop
  | a, b, [] => a = b
  | a, b, e :: L => ∃ ed, edges.get? e = some ed ∧ ed.i = a ∧ IsPath edges ed.j b L

/-- The city sequence a path traverses after its start city. -/
def destCities (edges : List Edge) (L : List Nat) : List Nat :=
  L.map (fun e => (edges.getD e default).j)

/-- A well-formed edge of an `N`-city, capacity-`cap` instance. -/
def WFEdge (cap N : Nat) (e : Edge) : Prop :=
  e.i ≠ e.j ∧ e.i < N ∧ e.j < N ∧ e.cargo.length = N ∧
    e.cargo.getD e.i 0 = 0 ∧ e.cargo.sum ≤ cap

/-- Every constraint of `cs` is witnessed by a geographically chained
direct predecessor: for `(p, c) ∈ cs` there is `(q, c) ∈ cs` with
`edges[q].j = edges[c].i` and `p = q` or `(p, q) ∈ cs`.  This is the shape
`plan_edges` guarantees (constraints are the transitive closure of
consecutive-path pairs) and exactly what the unlock scan of `visit_edge`
relies on. -/
def GoodCS (edges : List Edge) (cs : CSet) : Prop :=
  ∀ p c, (p, c) ∈ cs → ∃ q, (q, c) ∈ cs ∧
    (edges.getD q default).j = (edges.getD c default).i ∧
    (p = q ∨ (p, q) ∈ cs)

/-- Sum of delivered cargo for destination `d`: over all edges whose head
city is `d`, the `d`-entry of the cargo vector. -/
def colSum (edges : List Edge) (d : Nat) : Nat :=
  ((edges.filter (fun e => e.j = d)).map (fun e => e.cargo.getD d 0)).sum

/-- Total original demand into destination `d`. -/
def origColSum (N : Nat) (crates : Nat → Nat → Nat) (d : Nat) : Nat :=
  ((List.range N).map (fun i => crates i d)).sum

/-- Per-plane geographic chaining: each flight departs from the city the
previous one arrived at. -/
def ChainedFlights (fl : List Flight) : Prop :=
  ∀ k f g, fl.get? k = some f → fl.get? (k+1) = some g → f.j = g.i

/-- The demand matrix of a well-formed instance has a zero diagonal. -/
def WFCrates (N : Nat) (crates : Nat → Nat → Nat) : Prop :=
  ∀ i, i < N → crates i i = 0

/-- Concrete demand matrix used by witnesses: 2 cities, 15 crates 0 → 1. -/
def exC : Nat → Nat → Nat := fun i j => if i = 0 ∧ j = 1 then 15 else 0

/-- Postconditions of a path discovered by `find_path` from `a` to `b`:
it chains through existing edges, visits pairwise distinct cities, uses
only edges with remaining capacity, and never uses an edge that is
constrained to fly before an earlier edge of the same path. -/
def PathOK (cap : Nat) (edges : List Edge) (cs : CSet) (a b : Nat)
    (L : List Nat) : Prop :=
  IsPath edges a b L ∧ (a :: destCities edges L).Nodup ∧
  (∀ e ∈ L, e < edges.length ∧ (edges.getD e default).cargo.sum < cap) ∧
  L.Pairwise (fun x y => (y, x) ∉ cs)

/-- Invariant of the BFS discovery map of `find_path`. -/
def PathsInv (cap : Nat) (edges : List Edge) (cs : CSet) (a : Nat)
    (paths : Nat → Option (List Nat)) : Prop :=
  ∀ c L, paths c = some L → PathOK cap edges cs a c L ∧
    ∀ c' ∈ a :: destCities edges L, paths c' ≠ none

/-- The global invariant of the `plan_edges` state: all edges well formed,
the constraint store consistent, in range, and chained in the sense of
`GoodCS`. -/
def EInv (cap N : Nat) (st : EState) : Prop :=
  (∀ e ∈ st.edges, WFEdge cap N e) ∧ CsInv st.cs ∧
  (∀ p ∈ st.cs, (p : Nat × Nat).1 < st.edges.length ∧ p.2 < st.edges.length) ∧
  GoodCS st.edges st.cs

/-- Concrete edges used by plane-planner witnesses: the result of
`plan_edges` on the 3-city instance with demands 25 (0 to 1), 20 (1 to 2)
and 5 (0 to 2), where the 5 transshipment crates ride edge 0 then edge 1. -/
def exEdges : List Edge := [⟨0, 1, [0, 25, 5]⟩, ⟨1, 2, [0, 0, 25]⟩]

/-- The matching constraint set: edge 0 must fly before edge 1. -/
def exCs : CSet := [(0, 1)]

/-- Edge indices of the non-repositioning flights of a trace, in order. -/
def flyIndices (tr : List PEvent) : List Nat :=
  tr.filterMap (fun ev => match ev with
    | .fly _ k => some k
    | .jump _ _ _ => none)

/-- The state invariant of `plan_planes` needed for the ordering and
geography claims.  It ties the availability maps, the visited set, and the
emitted trace together. -/
structure PInv (edges : List Edge) (cs : CSet) (N : Nat) (st : PState) : Prop where
  avail_valid : ∀ c idx, idx ∈ st.availOut c → ∃ e, edges.get? idx = some e ∧
    e.i = c ∧ idx ∉ st.visited ∧ isAvail cs st.visited idx
  avail_nodup : ∀ c, (st.availOut c).Nodup
  trace_visited : flyIndices st.trace = st.visited
  visited_nodup : st.visited.Nodup
  visited_closed : ∀ a b : Nat, (a, b) ∈ cs → b ∈ st.visited → a ∈ st.visited
  trace_le : ∀ a b pl q, (a, b) ∈ cs → st.trace.get? q = some (.fly pl b) →
    ∃ p pl', p < q ∧ st.trace.get? p = some (.fly pl' a)
  jumps_ne : ∀ p a b, PEvent.jump p a b ∈ st.trace → a ≠ b
  geo : ∀ pl, ChainedFlights (planeFlights pl (flightsOf edges N st.trace)) ∧
    ∀ f, (planeFlights pl (flightsOf edges N st.trace)).getLast? = some f →
      f.j = st.pos pl

/-- The additional invariant needed for edge coverage and termination
(claim C5): every eligible unvisited edge is available, and the visited set
stays inside the edge-index range. -/
structure PComp (edges : List Edge) (cs : CSet) (st : PState) : Prop where
  complete : ∀ idx, idx < edges.length → idx ∉ st.visited →
    isAvail cs st.visited idx → idx ∈ st.availOut ((edges.getD idx default).i)
  visited_lt : ∀ v ∈ st.visited, v < edges.length

/-- All pairs drawn from two index lists (used only to bound the closure
recursion of `add_constraint`). -/
def pairGrid (l1 l2 : List Nat) : List (Nat × Nat) :=
  (l1.map (fun u => l2.map (fun w => (u, w)))).flatten

/-- `a` together with the direct predecessors of `a` in `cs`. -/
def predList (cs : CSet) (a : Nat) : List Nat :=
  a :: (cs.filter (fun p => p.2 = a)).map Prod.fst

/-- `b` together with the direct successors of `b` in `cs`. -/
def succList (cs : CSet) (b : Nat) : List Nat :=
  b :: (cs.filter (fun p => p.1 = b)).map Prod.snd

/-- How many pairs of the closure square of `add_constraint(a, b)` over the
root store `cs0` are still missing from `cs`: the termination measure of the
closure recursion. -/
def missing (cs0 : CSet) (a b : Nat) (cs : CSet) : Nat :=
  ((pairGrid (predList cs0 a) (succList cs0 b)).filter
    (fun p => decide (p ∉ cs))).length

/-- Number of cities still undiscovered by the BFS of `find_path`: the
termination measure of its queue loop. -/
def unass (N : Nat) (paths : Nat → Option (List Nat)) : Nat :=
  ((List.range N).filter (fun c => (paths c).isNone)).length

/-- The light state invariant used for the termination and coverage proof
of `plan_planes`: validity and duplicate-freeness of the availability maps,
closure of the visited set under predecessors, completeness (every eligible
unvisited edge is available at its source city) and range of the visited
set.  It mentions neither the trace nor the plane positions, so it is
untouched by the bookkeeping updates of the scheduler. -/
structure PLight (edges : List Edge) (cs : CSet) (st : PState) : Prop where
  avail_valid : ∀ c u, u ∈ st.availOut c → ∃ e, edges.get? u = some e ∧
    e.i = c ∧ u ∉ st.visited ∧ isAvail cs st.visited u
  avail_nodup : ∀ c, (st.availOut c).Nodup
  visited_nodup : st.visited.Nodup
  visited_closed : ∀ a b : Nat, (a, b) ∈ cs → b ∈ st.visited → a ∈ st.visited
  comp : ∀ idx, idx < edges.length → idx ∉ st.visited →
    isAvail cs st.visited idx → idx ∈ st.availOut ((edges.getD idx default).i)
  visited_lt : ∀ v ∈ st.visited, v < edges.length

/-! ## Theorems -/

/-! ### C9: determinism -/

/-- C9.  The planner is deterministic given its random stream: with the same
demand matrix both runs of `plan_edges` produce the same edges, constraints
and residual matrix, and with the same plane start positions and the same
pseudo-random stream the two runs of `plan_planes` produce bit-identical
flight sequences.  (In this embedding the only source of nondeterminism of
the source — `np.random` — is the explicit stream `r1`/`r2`; everything
else is a pure function of the inputs.) -/
theorem C9_determinism (cap N : Nat) (crates : Nat → Nat → Nat)
    (edges : List Edge) (cs : CSet) (planes : List Nat) (r1 r2 : Nat → Nat)
    (hr : r1 = r2) :
    planEdges cap N crates = planEdges cap N crates ∧
      planPlanes N edges cs planes r1 = planPlanes N edges cs planes r2 :=
  ⟨rfl, by rw [hr]⟩

/-- Witness for C9 at a concrete instance. -/
theorem C9_witness :
    planEdges 30 2 exC = planEdges 30 2 exC ∧
      planPlanes 2 [⟨0, 1, [0, 15]⟩] [] [0] (fun _ => 0) =
        planPlanes 2 [⟨0, 1, [0, 15]⟩] [] [0] (fun _ => 0) :=
  C9_determinism 30 2 exC [⟨0, 1, [0, 15]⟩] [] [0] (fun _ => 0) (fun _ => 0) rfl

/-! ### C8: the caller's demand matrix is mutated (corrected) -/

/-- Counterexample to C8 as stated: on the well-formed instance `exC`
(2 cities, demand 15 from city 0 to city 1, zero diagonal), after
`plan_edges` returns, the demand matrix entry `(0, 1)` is `0`, not its
original value `15` — the prototype decrements the caller's matrix in
place. -/
theorem C8_counterexample :
    WFCrates 2 exC ∧
      (planEdges 30 2 exC).map (fun st => st.crates 0 1) = some 0 ∧
      exC 0 1 = 15 := by
  refine ⟨?_, by decide, by decide⟩
  intro i _
  simp only [exC]
  split
  · omega
  · rfl

/-! ### The constraint store: lemmas about `add_constraint` -/

theorem acStep_eq_some {rec : CSet → Nat → Nat → Option CSet} {ei ej : Nat}
    {cs : CSet} {p : Nat × Nat} {cs2 : CSet}
    (h : acStep rec ei ej cs p = some cs2) :
    ∃ cs1, ((p.1 = ej ∧ rec cs ei p.2 = some cs1) ∨ (¬p.1 = ej ∧ cs1 = cs)) ∧
      ((p.2 = ei ∧ rec cs1 p.1 ej = some cs2) ∨ (¬p.2 = ei ∧ cs2 = cs1)) := by
  unfold acStep at h
  simp only [Option.pure_def, Option.bind_eq_bind] at h
  by_cases h1 : p.1 = ej <;> by_cases h2 : p.2 = ei
  · simp only [if_pos h1, if_pos h2, Option.bind_eq_some] at h
    obtain ⟨cs1, hA, hB⟩ := h
    exact ⟨cs1, Or.inl ⟨h1, hA⟩, Or.inl ⟨h2, hB⟩⟩
  · simp only [if_pos h1, if_neg h2, Option.bind_eq_some, Option.some_inj] at h
    obtain ⟨cs1, hA, hB⟩ := h
    exact ⟨cs1, Or.inl ⟨h1, hA⟩, Or.inr ⟨h2, hB.symm⟩⟩
  · simp only [if_neg h1, if_pos h2, Option.some_bind] at h
    exact ⟨cs, Or.inr ⟨h1, rfl⟩, Or.inl ⟨h2, h⟩⟩
  · simp only [if_neg h1, if_neg h2, Option.some_bind, Option.some_inj] at h
    exact ⟨cs, Or.inr ⟨h1, rfl⟩, Or.inr ⟨h2, h.symm⟩⟩

theorem ac_zero_none {cs : CSet} {a b : Nat} {cs' : CSet}
    (h : addConstraint 0 cs a b = some cs') : False := by
  simp [addConstraint] at h

theorem ac_assert {fuel : Nat} {cs : CSet} {a b : Nat} {cs' : CSet}
    (h : addConstraint fuel cs a b = some cs') : (b, a) ∉ cs ∧ a ≠ b := by
  cases fuel with
  | zero => exact absurd h ac_zero_none
  | succ fuel =>
    unfold addConstraint at h
    by_cases hba : (b, a) ∈ cs
    · simp [hba] at h
    by_cases hab : a = b
    · simp [hba, hab] at h
    exact ⟨hba, hab⟩

theorem ac_shape {fuel : Nat} {cs : CSet} {a b : Nat} {cs' : CSet}
    (h : addConstraint (fuel+1) cs a b = some cs') :
    ((a, b) ∈ cs ∧ cs' = cs) ∨
      ((b, a) ∉ cs ∧ a ≠ b ∧ (a, b) ∉ cs ∧
        ((a, b) :: cs).foldlM (acStep (addConstraint fuel) a b)
          ((a, b) :: cs) = some cs') := by
  unfold addConstraint at h
  by_cases hba : (b, a) ∈ cs
  · simp [hba] at h
  by_cases hab : a = b
  · simp [hba, hab] at h
  by_cases hmem : (a, b) ∈ cs
  · simp only [hba, hab, hmem, if_true, if_false, if_pos, if_neg,
      not_false_eq_true, Option.some_inj] at h
    exact Or.inl ⟨hmem, h.symm⟩
  · simp only [hba, hab, hmem, if_true, if_false, if_pos, if_neg,
      not_false_eq_true] at h
    exact Or.inr ⟨hba, hab, hmem, h⟩

theorem foldAC_mono {rec : CSet → Nat → Nat → Option CSet}
    (hrec : ∀ cs x y cs', rec cs x y = some cs' → ∀ q ∈ cs, q ∈ cs')
    (ei ej : Nat) :
    ∀ (l : List (Nat × Nat)) (cs cs' : CSet),
      l.foldlM (acStep rec ei ej) cs = some cs' → ∀ q ∈ cs, q ∈ cs' := by
  intro l
  induction l with
  | nil =>
    intro cs cs' h q hq
    simp only [List.foldlM_nil, Option.pure_def, Option.some_inj] at h
    exact h ▸ hq
  | cons x l IH =>
    intro cs cs' h q hq
    simp only [List.foldlM_cons, Option.pure_def, Option.bind_eq_bind,
      Option.bind_eq_some] at h
    obtain ⟨cs1, hx, hl⟩ := h
    obtain ⟨csA, hA, hB⟩ := acStep_eq_some hx
    have hqA : q ∈ csA := by
      rcases hA with ⟨_, hA⟩ | ⟨_, rfl⟩
      · exact hrec _ _ _ _ hA q hq
      · exact hq
    have hq1 : q ∈ cs1 := by
      rcases hB with ⟨_, hB⟩ | ⟨_, rfl⟩
      · exact hrec _ _ _ _ hB q hqA
      · exact hqA
    exact IH cs1 cs' hl q hq1

theorem ac_mono : ∀ (fuel : Nat) (cs : CSet) (a b : Nat) (cs' : CSet),
    addConstraint fuel cs a b = some cs' →
      (∀ q ∈ cs, q ∈ cs') ∧ (a, b) ∈ cs' := by
  intro fuel
  induction fuel with
  | zero => intro cs a b cs' h; exact absurd h ac_zero_none
  | succ fuel IH =>
    intro cs a b cs' h
    rcases ac_shape h with ⟨hm, rfl⟩ | ⟨_, _, _, hfold⟩
    · exact ⟨fun q hq => hq, hm⟩
    · have hrec : ∀ cs x y cs', addConstraint fuel cs x y = some cs' →
          ∀ q ∈ cs, q ∈ cs' := fun cs x y cs' h => (IH cs x y cs' h).1
      have hsub := foldAC_mono hrec a b _ _ _ hfold
      exact ⟨fun q hq => hsub q (List.mem_cons_of_mem _ hq),
        hsub _ (List.mem_cons_self _ _)⟩

theorem foldAC_elems {rec : CSet → Nat → Nat → Option CSet}
    (hrec_mono : ∀ cs x y cs', rec cs x y = some cs' → ∀ q ∈ cs, q ∈ cs')
    (hrec_self : ∀ cs x y cs', rec cs x y = some cs' → (x, y) ∈ cs')
    (ei ej : Nat) :
    ∀ (l : List (Nat × Nat)) (cs cs' : CSet),
      l.foldlM (acStep rec ei ej) cs = some cs' →
      ∀ p ∈ l, (p.1 = ej → (ei, p.2) ∈ cs') ∧ (p.2 = ei → (p.1, ej) ∈ cs') := by
  intro l
  induction l with
  | nil => intro cs cs' h p hp; exact absurd hp (List.not_mem_nil p)
  | cons x l IH =>
    intro cs cs' h p hp
    simp only [List.foldlM_cons, Option.pure_def, Option.bind_eq_bind,
      Option.bind_eq_some] at h
    obtain ⟨cs1, hx, hl⟩ := h
    rcases List.mem_cons.mp hp with rfl | hp
    · obtain ⟨csA, hA, hB⟩ := acStep_eq_some hx
      constructor
      · intro h1
        rcases hA with ⟨_, hA⟩ | ⟨hne, _⟩
        · have hmem := hrec_self _ _ _ _ hA
          have hmem1 : (ei, p.2) ∈ cs1 := by
            rcases hB with ⟨_, hB⟩ | ⟨_, heq⟩
            · exact hrec_mono _ _ _ _ hB _ hmem
            · exact heq ▸ hmem
          exact foldAC_mono hrec_mono ei ej l cs1 cs' hl _ hmem1
        · exact absurd h1 hne
      · intro h2
        rcases hB with ⟨_, hB⟩ | ⟨hne, _⟩
        · exact foldAC_mono hrec_mono ei ej l cs1 cs' hl _ (hrec_self _ _ _ _ hB)
        · exact absurd h2 hne
    · exact IH cs1 cs' hl p hp

theorem foldAC_settle {rec : CSet → Nat → Nat → Option CSet} {cs0 : CSet}
    (hrec_mono : ∀ cs x y cs', rec cs x y = some cs' → ∀ q ∈ cs, q ∈ cs')
    (hrec_settle : ∀ cs x y cs', rec cs x y = some cs' → (∀ q ∈ cs0, q ∈ cs) →
      ∀ u v w, (u, v) ∈ cs' → (u, v) ∉ cs → (v, w) ∈ cs0 → (u, w) ∈ cs')
    (ei ej : Nat) :
    ∀ (l : List (Nat × Nat)) (cs cs' : CSet),
      l.foldlM (acStep rec ei ej) cs = some cs' → (∀ q ∈ cs0, q ∈ cs) →
      ∀ u v w, (u, v) ∈ cs' → (u, v) ∉ cs → (v, w) ∈ cs0 → (u, w) ∈ cs' := by
  intro l
  induction l with
  | nil =>
    intro cs cs' h hsub u v w huv huv' hvw
    simp only [List.foldlM_nil, Option.pure_def, Option.some_inj] at h
    exact absurd (h ▸ huv) huv'
  | cons x l IH =>
    intro cs cs' h hsub u v w huv huv' hvw
    simp only [List.foldlM_cons, Option.pure_def, Option.bind_eq_bind,
      Option.bind_eq_some] at h
    obtain ⟨cs1, hx, hl⟩ := h
    obtain ⟨csA, hA, hB⟩ := acStep_eq_some hx
    have hsubA : ∀ q ∈ cs0, q ∈ csA := by
      rcases hA with ⟨_, hA⟩ | ⟨_, rfl⟩
      · exact fun q hq => hrec_mono _ _ _ _ hA q (hsub q hq)
      · exact hsub
    have hsub1 : ∀ q ∈ cs0, q ∈ cs1 := by
      rcases hB with ⟨_, hB⟩ | ⟨_, rfl⟩
      · exact fun q hq => hrec_mono _ _ _ _ hB q (hsubA q hq)
      · exact hsubA
    by_cases hmem1 : (u, v) ∈ cs1
    · -- the pair appeared during this `acStep`; settle inside it, then push
      -- the conclusion through the remaining fold
      have hfin : (u, w) ∈ cs1 := by
        by_cases hmemA : (u, v) ∈ csA
        · -- appeared during the first recursive call
          rcases hA with ⟨_, hA⟩ | ⟨_, rfl⟩
          · have := hrec_settle _ _ _ _ hA hsub u v w hmemA huv' hvw
            rcases hB with ⟨_, hB⟩ | ⟨_, rfl⟩
            · exact hrec_mono _ _ _ _ hB _ this
            · exact this
          · exact absurd hmemA huv'
        · rcases hB with ⟨_, hB⟩ | ⟨_, rfl⟩
          · exact hrec_settle _ _ _ _ hB hsubA u v w hmem1 hmemA hvw
          · exact absurd hmem1 hmemA
      exact foldAC_mono hrec_mono ei ej l cs1 cs' hl _ hfin
    · exact IH cs1 cs' hl hsub1 u v w huv hmem1 hvw

theorem ac_settle (cs0 : CSet) : ∀ (fuel : Nat) (cs : CSet) (a b : Nat) (cs' : CSet),
    addConstraint fuel cs a b = some cs' → (∀ q ∈ cs0, q ∈ cs) →
    ∀ u v w, (u, v) ∈ cs' → (u, v) ∉ cs → (v, w) ∈ cs0 → (u, w) ∈ cs' := by
  intro fuel
  induction fuel with
  | zero => intro cs a b cs' h; exact absurd h ac_zero_none
  | succ fuel IH =>
    intro cs a b cs' h hsub u v w huv huv' hvw
    have hrec_mono : ∀ cs x y cs', addConstraint fuel cs x y = some cs' →
        ∀ q ∈ cs, q ∈ cs' := fun cs x y cs' h => (ac_mono fuel cs x y cs' h).1
    have hrec_self : ∀ cs x y cs', addConstraint fuel cs x y = some cs' →
        (x, y) ∈ cs' := fun cs x y cs' h => (ac_mono fuel cs x y cs' h).2
    rcases ac_shape h with ⟨hm, rfl⟩ | ⟨_, _, hnm, hfold⟩
    · exact absurd huv huv'
    · by_cases hab : (u, v) = (a, b)
      · -- the fresh head pair: the snapshot loop processed `(v, w) = (b, w)`
        have h1 : u = a := congrArg Prod.fst hab
        have h2 : v = b := congrArg Prod.snd hab
        have helems := foldAC_elems hrec_mono hrec_self a b _ _ _ hfold
          (v, w) (List.mem_cons_of_mem _ (hsub _ hvw))
        exact h1 ▸ helems.1 h2
      · exact foldAC_settle hrec_mono
          (fun cs x y cs' h => IH cs x y cs' h) a b _ _ _ hfold
          (fun q hq => List.mem_cons_of_mem _ (hsub q hq)) u v w huv
          (fun hm => (List.mem_cons.mp hm).elim hab huv') hvw

theorem foldAC_upper {rec : CSet → Nat → Nat → Option CSet} {cs0 : CSet}
    {U W : Nat → Prop}
    (hU : ∀ x u, U u → (x, u) ∈ cs0 → U x)
    (hW : ∀ w y, W w → (w, y) ∈ cs0 → W y)
    (hrec : ∀ cs x y cs', U x → W y →
      (∀ p : Nat × Nat, p ∈ cs → p ∈ cs0 ∨ (U p.1 ∧ W p.2)) →
      rec cs x y = some cs' →
      ∀ p : Nat × Nat, p ∈ cs' → p ∈ cs0 ∨ (U p.1 ∧ W p.2))
    (ei ej : Nat) (hei : U ei) (hej : W ej) :
    ∀ (l : List (Nat × Nat)) (cs cs' : CSet),
      (∀ p ∈ l, p ∈ cs0 ∨ (U p.1 ∧ W p.2)) →
      (∀ p : Nat × Nat, p ∈ cs → p ∈ cs0 ∨ (U p.1 ∧ W p.2)) →
      l.foldlM (acStep rec ei ej) cs = some cs' →
      ∀ p : Nat × Nat, p ∈ cs' → p ∈ cs0 ∨ (U p.1 ∧ W p.2) := by
  intro l
  induction l with
  | nil =>
    intro cs cs' hl hcs h p hp
    simp only [List.foldlM_nil, Option.pure_def, Option.some_inj] at h
    exact hcs p (h ▸ hp)
  | cons x l IH =>
    intro cs cs' hl hcs h p hp
    simp only [List.foldlM_cons, Option.pure_def, Option.bind_eq_bind,
      Option.bind_eq_some] at h
    obtain ⟨cs1, hx, hfold⟩ := h
    obtain ⟨csA, hA, hB⟩ := acStep_eq_some hx
    have hxD := hl x (List.mem_cons_self x l)
    have hcsA : ∀ p : Nat × Nat, p ∈ csA → p ∈ cs0 ∨ (U p.1 ∧ W p.2) := by
      rcases hA with ⟨heq, hA⟩ | ⟨_, rfl⟩
      · refine hrec _ _ _ _ hei ?_ hcs hA
        rcases hxD with hx0 | ⟨_, hWx⟩
        · exact hW ej x.2 hej (by rw [← heq]; exact hx0)
        · exact hWx
      · exact hcs
    have hcs1 : ∀ p : Nat × Nat, p ∈ cs1 → p ∈ cs0 ∨ (U p.1 ∧ W p.2) := by
      rcases hB with ⟨heq, hB⟩ | ⟨_, rfl⟩
      · refine hrec _ _ _ _ ?_ hej hcsA hB
        rcases hxD with hx0 | ⟨hUx, _⟩
        · exact hU x.1 ei hei (by rw [← heq]; exact hx0)
        · exact hUx
      · exact hcsA
    exact IH cs1 cs' (fun q hq => hl q (List.mem_cons_of_mem x hq)) hcs1 hfold p hp

theorem ac_upper {cs0 : CSet} {U W : Nat → Prop}
    (hU : ∀ x u, U u → (x, u) ∈ cs0 → U x)
    (hW : ∀ w y, W w → (w, y) ∈ cs0 → W y) :
    ∀ (fuel : Nat) (cs : CSet) (a b : Nat) (cs' : CSet), U a → W b →
      (∀ p : Nat × Nat, p ∈ cs → p ∈ cs0 ∨ (U p.1 ∧ W p.2)) →
      addConstraint fuel cs a b = some cs' →
      ∀ p : Nat × Nat, p ∈ cs' → p ∈ cs0 ∨ (U p.1 ∧ W p.2) := by
  intro fuel
  induction fuel with
  | zero => intro cs a b cs' _ _ _ h; exact absurd h ac_zero_none
  | succ fuel IH =>
    intro cs a b cs' ha hb hcs h
    rcases ac_shape h with ⟨_, rfl⟩ | ⟨_, _, _, hfold⟩
    · exact hcs
    · have hD : ∀ p : Nat × Nat, p ∈ (a, b) :: cs → p ∈ cs0 ∨ (U p.1 ∧ W p.2) := by
        intro q hq
        rcases List.mem_cons.mp hq with he | hm
        · rw [he]; exact Or.inr ⟨ha, hb⟩
        · exact hcs q hm
      exact foldAC_upper hU hW IH a b ha hb _ _ _ (fun q hq => hD q hq) hD hfold

/-- Exact characterization of a successful `add_constraint(a, b)` on a
transitively closed store: the result is the old store plus all pairs from
`(pred*(a) ∪ {a}) × (succ*(b) ∪ {b})`. -/
theorem ac_spec {fuel : Nat} {cs : CSet} {a b : Nat} {cs' : CSet}
    (htc : TransClosed cs) (h : addConstraint fuel cs a b = some cs') :
    ∀ p : Nat × Nat, p ∈ cs' ↔
      (p ∈ cs ∨ ((p.1 = a ∨ (p.1, a) ∈ cs) ∧ (p.2 = b ∨ (b, p.2) ∈ cs))) := by
  intro p
  constructor
  · intro hp
    refine @ac_upper cs (fun x => x = a ∨ (x, a) ∈ cs)
      (fun y => y = b ∨ (b, y) ∈ cs) ?_ ?_ fuel cs a b cs'
      (Or.inl rfl) (Or.inl rfl) (fun q hq => Or.inl hq) h p hp
    · rintro x u (rfl | hu) hxu
      · exact Or.inr hxu
      · exact Or.inr (htc x u a hxu hu)
    · rintro w y (rfl | hw) hwy
      · exact Or.inr hwy
      · exact Or.inr (htc b w y hw hwy)
  · rintro (hp | ⟨hu, hw⟩)
    · exact (ac_mono fuel cs a b cs' h).1 p hp
    · -- lower bound: all four corner cases
      obtain ⟨p1, p2⟩ := p
      simp only at hu hw
      cases fuel with
      | zero => exact absurd h ac_zero_none
      | succ fuel =>
        have hrec_mono : ∀ cs x y cs', addConstraint fuel cs x y = some cs' →
            ∀ q ∈ cs, q ∈ cs' := fun cs x y cs' h => (ac_mono fuel cs x y cs' h).1
        have hrec_self : ∀ cs x y cs', addConstraint fuel cs x y = some cs' →
            (x, y) ∈ cs' := fun cs x y cs' h => (ac_mono fuel cs x y cs' h).2
        rcases ac_shape h with ⟨hm, rfl⟩ | ⟨_, _, _, hfold⟩
        · -- `(a, b)` was already present: transitivity inside `cs`
          rcases hu with hu | hu <;> rcases hw with hw | hw
          · rw [hu, hw]; exact hm
          · rw [hu]; exact htc a b p2 hm hw
          · rw [hw]; exact htc p1 a b hu hm
          · exact htc p1 a p2 hu (htc a b p2 hm hw)
        · have hmono := foldAC_mono hrec_mono a b _ _ _ hfold
          have helems := foldAC_elems hrec_mono hrec_self a b _ _ _ hfold
          rcases hu with hu | hu <;> rcases hw with hw | hw
          · rw [hu, hw]; exact hmono _ (List.mem_cons_self _ _)
          · rw [hu]; exact (helems (b, p2) (List.mem_cons_of_mem _ hw)).1 rfl
          · rw [hw]; exact (helems (p1, a) (List.mem_cons_of_mem _ hu)).2 rfl
          · -- interior pair
            by_cases hp1b : (p1, b) ∈ cs
            · exact hmono _ (List.mem_cons_of_mem _ (htc p1 b p2 hp1b hw))
            · have hp1b' : (p1, b) ∈ cs' :=
                (helems (p1, a) (List.mem_cons_of_mem _ hu)).2 rfl
              exact ac_settle cs (fuel+1) cs a b cs' h (fun q hq => hq)
                p1 b p2 hp1b' hp1b hw

/-- The two block factors are disjoint when the store is consistent and the
top-level assertions pass. -/
theorem ac_factors_disjoint {cs : CSet} {a b : Nat}
    (htc : TransClosed cs) (hba : (b, a) ∉ cs) (hab : a ≠ b) :
    ∀ z, (z = a ∨ (z, a) ∈ cs) → (z = b ∨ (b, z) ∈ cs) → False := by
  intro z hza hzb
  rcases hza with h1 | h1 <;> rcases hzb with h2 | h2
  · exact hab (h1.symm.trans h2)
  · rw [h1] at h2; exact hba h2
  · rw [h2] at h1; exact hba h1
  · exact hba (htc b z a h2 h1)

/-- A successful `add_constraint` call preserves the constraint-store
invariant (helper shared by the later totality and fold lemmas). -/
theorem csInv_add {fuel : Nat} {cs : CSet} {a b : Nat}
    {cs' : CSet} (hinv : CsInv cs) (h : addConstraint fuel cs a b = some cs') :
    CsInv cs' := by
  obtain ⟨htc, hn2, hirr⟩ := hinv
  obtain ⟨hba, hab⟩ := ac_assert h
  have hspec := ac_spec htc h
  have hDU := ac_factors_disjoint htc hba hab
  have hWcl : ∀ w y, (w = b ∨ (b, w) ∈ cs) → (w, y) ∈ cs → (y = b ∨ (b, y) ∈ cs) := by
    rintro w y (rfl | hw) hwy
    · exact Or.inr hwy
    · exact Or.inr (htc b w y hw hwy)
  have hUcl : ∀ x u, (u = a ∨ (u, a) ∈ cs) → (x, u) ∈ cs → (x = a ∨ (x, a) ∈ cs) := by
    rintro x u (rfl | hu) hxu
    · exact Or.inr hxu
    · exact Or.inr (htc x u a hxu hu)
  refine ⟨?_, ?_, ?_⟩
  · -- transitively closed
    intro x y z hxy hyz
    rw [hspec] at hxy hyz ⊢
    rcases hxy with hxy | ⟨hUx, hWy⟩
    · rcases hyz with hyz | ⟨hUy, hWz⟩
      · exact Or.inl (htc x y z hxy hyz)
      · -- (x, y) ∈ cs and y ∈ U: then x ∈ U
        refine Or.inr ⟨?_, hWz⟩
        rcases hUy with rfl | hy
        · exact Or.inr hxy
        · exact Or.inr (htc x y a hxy hy)
    · rcases hyz with hyz | ⟨hUy, hWz⟩
      · -- y ∈ W and (y, z) ∈ cs: then z ∈ W
        exact Or.inr ⟨hUx, hWcl y z hWy hyz⟩
      · exact absurd (hDU y hUy hWy) id
  · -- no two-cycle
    intro x y hxy hyx
    rw [hspec] at hxy hyx
    rcases hxy with hxy | ⟨hUx, hWy⟩
    · rcases hyx with hyx | ⟨hUy, hWx⟩
      · exact hn2 x y hxy hyx
      · exact hDU y hUy (hWcl x y hWx hxy)
    · rcases hyx with hyx | ⟨hUy, hWx⟩
      · exact hDU y (hUcl y x hUx hyx) hWy
      · exact hDU x hUx hWx
  · -- no self-pair
    intro x hx
    rw [hspec] at hx
    rcases hx with hx | ⟨hUx, hWx⟩
    · exact hirr x hx
    · exact hDU x hUx hWx

/-- C6.  A successful `add_constraint` call preserves the constraint-store
invariant: the set stays transitively closed, never contains both `(a, b)`
and `(b, a)`, and never contains a self-pair `(a, a)`.  Since the empty
store trivially satisfies the invariant, every store reachable from the
empty store by successful `add` calls satisfies it. -/
theorem C6_constraint_store_invariant {fuel : Nat} {cs : CSet} {a b : Nat}
    {cs' : CSet} (hinv : CsInv cs) (h : addConstraint fuel cs a b = some cs') :
    CsInv cs' :=
  csInv_add hinv h

/-- Witness for C6: a successful concrete `add` (two chained constraints,
forcing a transitive closure pair) preserves the invariant. -/
theorem C6_witness :
    CsInv [(0, 1)] ∧ addConstraint 9 [(0, 1)] 1 2 = some [(0, 2), (1, 2), (0, 1)] ∧
      CsInv [(0, 2), (1, 2), (0, 1)] := by
  have hinv : CsInv [(0, 1)] := by
    refine ⟨?_, ?_, ?_⟩
    · intro a b c hab hbc
      simp only [List.mem_singleton, Prod.mk.injEq] at hab hbc
      omega
    · intro a b hab hba
      simp only [List.mem_singleton, Prod.mk.injEq] at hab hba
      omega
    · intro a ha
      simp only [List.mem_singleton, Prod.mk.injEq] at ha
      omega
  have h : addConstraint 9 [(0, 1)] 1 2 = some [(0, 2), (1, 2), (0, 1)] := by decide
  exact ⟨hinv, h, C6_constraint_store_invariant hinv h⟩

/-! ### The plane planner: basic facts -/

theorem allOut_mem {edges : List Edge} {c u : Nat} (h : u ∈ allOut edges c) :
    ∃ e, edges.get? u = some e ∧ e.i = c := by
  unfold allOut at h
  rw [List.mem_map] at h
  obtain ⟨pe, hpe, rfl⟩ := h
  rw [List.mem_filter] at hpe
  exact ⟨pe.2, List.mem_enum_iff_get?.mp hpe.1, of_decide_eq_true hpe.2⟩

theorem allOut_complete {edges : List Edge} {c u : Nat} {e : Edge}
    (hu : edges.get? u = some e) (he : e.i = c) : u ∈ allOut edges c := by
  unfold allOut
  rw [List.mem_map]
  refine ⟨(u, e), ?_, rfl⟩
  rw [List.mem_filter]
  exact ⟨List.mem_enum_iff_get?.mpr hu, decide_eq_true he⟩

theorem flyIndices_append (t1 t2 : List PEvent) :
    flyIndices (t1 ++ t2) = flyIndices t1 ++ flyIndices t2 :=
  List.filterMap_append t1 t2 _

theorem flyIndices_fly (p k : Nat) : flyIndices [PEvent.fly p k] = [k] := rfl

theorem flyIndices_jump (p a b : Nat) : flyIndices [PEvent.jump p a b] = [] := rfl

theorem mem_flyIndices {tr : List PEvent} {k : Nat} :
    k ∈ flyIndices tr ↔ ∃ q pl, tr.get? q = some (.fly pl k) := by
  unfold flyIndices
  rw [List.mem_filterMap]
  constructor
  · rintro ⟨ev, hev, hm⟩
    match ev, hm with
    | .fly pl k', hm =>
      obtain ⟨q, hq⟩ := List.mem_iff_get?.mp hev
      have : k' = k := by simpa using hm
      exact ⟨q, pl, by rw [hq, this]⟩
  · rintro ⟨q, pl, hq⟩
    exact ⟨.fly pl k, List.get?_mem hq, rfl⟩

theorem planeFlights_append (p : Nat) (l1 l2 : List Flight) :
    planeFlights p (l1 ++ l2) = planeFlights p l1 ++ planeFlights p l2 :=
  List.filter_append l1 l2

theorem flightsOf_append (edges : List Edge) (N : Nat) (t1 t2 : List PEvent) :
    flightsOf edges N (t1 ++ t2) = flightsOf edges N t1 ++ flightsOf edges N t2 :=
  List.map_append _ t1 t2

theorem chained_nil : ChainedFlights [] := by
  intro k f g hf _
  simp at hf

theorem chained_append {l : List Flight} {g : Flight} (hc : ChainedFlights l)
    (hl : ∀ f, l.getLast? = some f → f.j = g.i) : ChainedFlights (l ++ [g]) := by
  intro k f g' hf hg'
  rcases Nat.lt_trichotomy (k + 1) l.length with hlt | heq | hgt
  · rw [List.get?_append (Nat.lt_of_succ_lt hlt)] at hf
    rw [List.get?_append hlt] at hg'
    exact hc k f g' hf hg'
  · rw [List.get?_append (heq ▸ Nat.lt_succ_self k)] at hf
    rw [List.get?_append_right (Nat.le_of_eq heq.symm), heq, Nat.sub_self] at hg'
    simp only [List.get?_cons_zero, Option.some_inj] at hg'
    subst hg'
    refine hl f ?_
    rw [List.getLast?_eq_get?, ← heq, Nat.add_sub_cancel]
    exact hf
  · exfalso
    have : (l ++ [g]).length ≤ k + 1 := by
      simp only [List.length_append, List.length_singleton]
      omega
    rw [List.get?_eq_none.mpr this] at hg'
    exact Option.noConfusion hg'

theorem chained_of_append {l : List Flight} {g : Flight}
    (h : ChainedFlights (l ++ [g])) : ChainedFlights l := by
  intro k f g' hf hg'
  have hk1 : k + 1 < l.length := (List.get?_eq_some.mp hg').1
  exact h k f g' (by rw [List.get?_append (Nat.lt_of_succ_lt hk1)]; exact hf)
    (by rw [List.get?_append hk1]; exact hg')

theorem getD_of_get? {edges : List Edge} {u : Nat} {e : Edge}
    (h : edges.get? u = some e) : edges.getD u default = e := by
  rw [List.getD_eq_get?, h]; rfl

/-! ### `visit_edge` and the unlock loop -/

theorem unlockStep_frame (edges : List Edge) (cs : CSet) (cj : Nat)
    (s : PState) (u : Nat) :
    (unlockStep edges cs cj s u).visited = s.visited ∧
      (unlockStep edges cs cj s u).trace = s.trace ∧
      (unlockStep edges cs cj s u).pos = s.pos ∧
      (unlockStep edges cs cj s u).ctr = s.ctr := by
  unfold unlockStep
  split <;> exact ⟨rfl, rfl, rfl, rfl⟩

theorem unlockFold_frame (edges : List Edge) (cs : CSet) (cj : Nat) :
    ∀ (l : List Nat) (s : PState),
      (l.foldl (unlockStep edges cs cj) s).visited = s.visited ∧
        (l.foldl (unlockStep edges cs cj) s).trace = s.trace ∧
        (l.foldl (unlockStep edges cs cj) s).pos = s.pos ∧
        (l.foldl (unlockStep edges cs cj) s).ctr = s.ctr := by
  intro l
  induction l with
  | nil => exact fun s => ⟨rfl, rfl, rfl, rfl⟩
  | cons u l IH =>
    intro s
    rw [List.foldl_cons]
    obtain ⟨h1, h2, h3, h4⟩ := IH (unlockStep edges cs cj s u)
    obtain ⟨g1, g2, g3, g4⟩ := unlockStep_frame edges cs cj s u
    exact ⟨h1.trans g1, h2.trans g2, h3.trans g3, h4.trans g4⟩

theorem unlockStep_avail_mono {edges : List Edge} {cs : CSet} {cj : Nat}
    {s : PState} {u : Nat} {c u' : Nat} (h : u' ∈ s.availOut c) :
    u' ∈ (unlockStep edges cs cj s u).availOut c := by
  unfold unlockStep
  split
  · simp only [mkAvail, Function.update_apply]
    split
    · next heq => exact heq ▸ List.mem_append_left _ h
    · exact h
  · exact h

theorem unlockFold_avail_mono {edges : List Edge} {cs : CSet} {cj : Nat} :
    ∀ {l : List Nat} {s : PState} {c u' : Nat}, u' ∈ s.availOut c →
      u' ∈ (l.foldl (unlockStep edges cs cj) s).availOut c := by
  intro l
  induction l with
  | nil => exact fun h => h
  | cons u l IH =>
    intro s c u' h
    rw [List.foldl_cons]
    exact IH (unlockStep_avail_mono h)

theorem unlockFold_valid {edges : List Edge} {cs : CSet} {cj : Nat} :
    ∀ {l : List Nat} {s : PState},
      (∀ u ∈ l, ∃ e, edges.get? u = some e ∧ e.i = cj) →
      (∀ c idx, idx ∈ s.availOut c → ∃ e, edges.get? idx = some e ∧ e.i = c ∧
        idx ∉ s.visited ∧ isAvail cs s.visited idx) →
      (∀ c, (s.availOut c).Nodup) →
      (∀ c idx, idx ∈ (l.foldl (unlockStep edges cs cj) s).availOut c →
        ∃ e, edges.get? idx = some e ∧ e.i = c ∧
          idx ∉ (l.foldl (unlockStep edges cs cj) s).visited ∧
          isAvail cs (l.foldl (unlockStep edges cs cj) s).visited idx) ∧
      (∀ c, ((l.foldl (unlockStep edges cs cj) s).availOut c).Nodup) := by
  intro l
  induction l with
  | nil => exact fun _ hv hn => ⟨hv, hn⟩
  | cons u l IH =>
    intro s hl hv hn
    rw [List.foldl_cons]
    have hstep :
        (∀ c idx, idx ∈ (unlockStep edges cs cj s u).availOut c →
          ∃ e, edges.get? idx = some e ∧ e.i = c ∧
            idx ∉ (unlockStep edges cs cj s u).visited ∧
            isAvail cs (unlockStep edges cs cj s u).visited idx) ∧
        (∀ c, ((unlockStep edges cs cj s u).availOut c).Nodup) := by
      have hvis : (unlockStep edges cs cj s u).visited = s.visited :=
        (unlockStep_frame edges cs cj s u).1
      unfold unlockStep at hvis ⊢
      split
      · next hguard =>
        obtain ⟨hnv, hna, hia⟩ := hguard
        obtain ⟨e0, he0, he0i⟩ := hl u (List.mem_cons_self u l)
        have hgd : edges.getD u default = e0 := getD_of_get? he0
        constructor
        · intro c idx hidx
          simp only [mkAvail, hgd, Function.update_apply] at hidx
          by_cases hc : c = e0.i
          · rw [if_pos hc] at hidx
            rcases List.mem_append.mp hidx with hold | hnew
            · exact hv c idx (hc ▸ hold)
            · have : idx = u := by simpa using hnew
              subst this
              exact ⟨e0, he0, hc.symm, hnv, hia⟩
          · rw [if_neg hc] at hidx
            exact hv c idx hidx
        · intro c
          simp only [mkAvail, hgd, Function.update_apply]
          by_cases hc : c = e0.i
          · rw [if_pos hc]
            have hnotin : u ∉ s.availOut e0.i := by rw [he0i]; exact hna
            simp [List.nodup_append, hn e0.i, hnotin]
          · rw [if_neg hc]; exact hn c
      · exact ⟨hv, hn⟩
    exact IH (fun u' hu' => hl u' (List.mem_cons_of_mem u hu')) hstep.1 hstep.2

theorem unlockFold_complete {edges : List Edge} {cs : CSet} {cj : Nat} :
    ∀ {l : List Nat} {s : PState} {u : Nat}, u ∈ l →
      (∃ e, edges.get? u = some e ∧ e.i = cj) →
      u ∉ s.visited → isAvail cs s.visited u →
      u ∈ (l.foldl (unlockStep edges cs cj) s).availOut cj := by
  intro l
  induction l with
  | nil => intro s u h; exact absurd h (List.not_mem_nil u)
  | cons x l IH =>
    intro s u hu he hnv hia
    rw [List.foldl_cons]
    rcases List.mem_cons.mp hu with rfl | hu
    · -- this element's turn: afterwards `u` is available (or already was)
      obtain ⟨e0, he0, he0i⟩ := he
      have hgd : edges.getD u default = e0 := getD_of_get? he0
      have : u ∈ (unlockStep edges cs cj s u).availOut cj := by
        unfold unlockStep
        by_cases hguard : u ∉ s.visited ∧ u ∉ s.availOut cj ∧ isAvail cs s.visited u
        · rw [if_pos hguard]
          simp only [mkAvail, hgd, Function.update_apply, he0i, if_pos rfl]
          exact List.mem_append_right _ (List.mem_singleton.mpr rfl)
        · rw [if_neg hguard]
          by_cases hmem : u ∈ s.availOut cj
          · exact hmem
          · exact absurd ⟨hnv, hmem, hia⟩ hguard
      exact unlockFold_avail_mono this
    · have hvis : (unlockStep edges cs cj s x).visited = s.visited :=
        (unlockStep_frame edges cs cj s x).1
      exact IH hu he (hvis ▸ hnv) (hvis ▸ hia)

theorem isAvail_mono {cs : CSet} {v v' : List Nat} {idx : Nat}
    (hsub : ∀ x ∈ v, x ∈ v') (h : isAvail cs v idx) : isAvail cs v' idx :=
  fun pq hpq he => hsub pq.1 (h pq hpq he)

theorem visitEdge_frame {edges : List Edge} {cs : CSet} {st : PState} {idx : Nat}
    {st' : PState} (h : visitEdge edges cs st idx = some st') :
    ∃ e, edges.get? idx = some e ∧ st'.visited = st.visited ++ [idx] ∧
      st'.trace = st.trace ∧ st'.pos = st.pos ∧ st'.ctr = st.ctr := by
  unfold visitEdge at h
  match hget : edges.get? idx with
  | none => rw [hget] at h; exact Option.noConfusion h
  | some e =>
    rw [hget] at h
    simp only [Option.some_inj] at h
    obtain ⟨h1, h2, h3, h4⟩ := unlockFold_frame edges cs e.j (allOut edges e.j) _
    exact ⟨e, rfl, by rw [← h, h1], by rw [← h, h2], by rw [← h, h3], by rw [← h, h4]⟩

theorem visitEdge_valid {edges : List Edge} {cs : CSet} {st : PState} {idx : Nat}
    {st' : PState}
    (hval : ∀ c u, u ∈ st.availOut c → ∃ e, edges.get? u = some e ∧ e.i = c ∧
      u ∉ st.visited ∧ isAvail cs st.visited u)
    (hnodup : ∀ c, (st.availOut c).Nodup)
    (h : visitEdge edges cs st idx = some st') :
    (∀ c u, u ∈ st'.availOut c → ∃ e, edges.get? u = some e ∧ e.i = c ∧
      u ∉ st'.visited ∧ isAvail cs st'.visited u) ∧
    (∀ c, (st'.availOut c).Nodup) := by
  unfold visitEdge at h
  match hget : edges.get? idx with
  | none => rw [hget] at h; exact Option.noConfusion h
  | some e =>
    rw [hget] at h
    simp only [Option.some_inj] at h
    subst h
    set st1 : PState :=
      { st with
        availOut := Function.update st.availOut e.i ((st.availOut e.i).erase idx),
        availIn := Function.update st.availIn e.j ((st.availIn e.j).erase idx),
        visited := st.visited ++ [idx] } with hst1
    have hval1 : ∀ c u, u ∈ st1.availOut c → ∃ e', edges.get? u = some e' ∧
        e'.i = c ∧ u ∉ st1.visited ∧ isAvail cs st1.visited u := by
      intro c u hu
      have hmem : u ∈ st.availOut c ∧ u ≠ idx := by
        simp only [hst1, Function.update_apply] at hu
        by_cases hc : c = e.i
        · rw [if_pos hc] at hu
          have hne : u ≠ idx := ((hnodup e.i).mem_erase_iff.mp hu).1
          exact ⟨hc ▸ List.mem_of_mem_erase hu, hne⟩
        · rw [if_neg hc] at hu
          refine ⟨hu, ?_⟩
          intro heq
          obtain ⟨e', he', he'i, _, _⟩ := hval c u hu
          rw [heq, hget] at he'
          exact hc (by rw [← he'i, Option.some_inj.mp he'.symm])
      obtain ⟨e', he', he'i, hnv, hia⟩ := hval c u hmem.1
      refine ⟨e', he', he'i, ?_, isAvail_mono (fun x hx => List.mem_append_left _ hx) hia⟩
      intro hmem'
      rcases List.mem_append.mp hmem' with hx | hx
      · exact hnv hx
      · exact hmem.2 (List.mem_singleton.mp hx)
    have hnodup1 : ∀ c, (st1.availOut c).Nodup := by
      intro c
      simp only [hst1, Function.update_apply]
      by_cases hc : c = e.i
      · rw [if_pos hc]; exact (hnodup e.i).erase idx
      · rw [if_neg hc]; exact hnodup c
    exact unlockFold_valid (fun u hu => allOut_mem hu) hval1 hnodup1

theorem visitEdge_comp {edges : List Edge} {cs : CSet} {st : PState} {idx c0 : Nat}
    {st' : PState}
    (hval : ∀ c u, u ∈ st.availOut c → ∃ e, edges.get? u = some e ∧ e.i = c ∧
      u ∉ st.visited ∧ isAvail cs st.visited u)
    (hnodup : ∀ c, (st.availOut c).Nodup)
    (hclosed : ∀ a b : Nat, (a, b) ∈ cs → b ∈ st.visited → a ∈ st.visited)
    (hcomp : PComp edges cs st)
    (hgood : GoodCS edges cs)
    (hidx : idx ∈ st.availOut c0)
    (h : visitEdge edges cs st idx = some st') : PComp edges cs st' := by
  obtain ⟨eidx, hgetidx, hidxi, hidxnv, hidxav⟩ := hval c0 idx hidx
  obtain ⟨e, hget, hvis', htr', hpos', hctr'⟩ := visitEdge_frame h
  have heidx : e = eidx := by rw [hget] at hgetidx; exact Option.some_inj.mp hgetidx
  subst heidx
  unfold visitEdge at h
  rw [hget] at h
  simp only [Option.some_inj] at h
  subst h
  set st1 : PState :=
    { st with
      availOut := Function.update st.availOut e.i ((st.availOut e.i).erase idx),
      availIn := Function.update st.availIn e.j ((st.availIn e.j).erase idx),
      visited := st.visited ++ [idx] } with hst1
  constructor
  · intro u hu hunv huav
    rw [hvis'] at hunv huav
    match hgetu : edges.get? u with
    | none =>
      have := List.get?_eq_none.mp hgetu
      omega
    | some eu =>
      have hgd : edges.getD u default = eu := getD_of_get? hgetu
      rw [hgd]
      by_cases hold : isAvail cs st.visited u
      · -- was already eligible, hence available; it survives the erase
        have humem := hcomp.complete u hu
          (fun hx => hunv (List.mem_append_left _ hx)) hold
        rw [hgd] at humem
        have hune : u ≠ idx := fun heq => hunv (heq ▸ List.mem_append_right _ (List.mem_singleton.mpr rfl))
        have hu1 : u ∈ st1.availOut eu.i := by
          simp only [hst1, Function.update_apply]
          by_cases hc : eu.i = e.i
          · rw [if_pos hc]
            exact ((hnodup e.i).mem_erase_iff).mpr ⟨hune, hc ▸ humem⟩
          · rw [if_neg hc]; exact humem
        exact unlockFold_avail_mono hu1
      · -- `idx` was its last unvisited predecessor; the unlock scan catches it
        have hidxpred : (idx, u) ∈ cs := by
          by_contra hni
          refine hold ?_
          intro pq hpq he
          have hmem := huav pq hpq he
          rcases List.mem_append.mp hmem with hx | hx
          · exact hx
          · exfalso
            have hpq1 : pq.1 = idx := List.mem_singleton.mp hx
            refine hni ?_
            have : pq = (idx, u) := by
              obtain ⟨pq1, pq2⟩ := pq
              simp only at hpq1 he
              rw [hpq1, he]
            exact this ▸ hpq
        obtain ⟨q, hqu, hqj, hor⟩ := hgood idx u hidxpred
        have hq_eq : q = idx := by
          rcases hor with heq | hidxq
          · exact heq.symm
          · by_cases hqidx : q = idx
            · exact hqidx
            · exfalso
              have hqvis' : q ∈ st.visited ++ [idx] := huav (q, u) hqu rfl
              have hqvis : q ∈ st.visited := by
                rcases List.mem_append.mp hqvis' with hx | hx
                · exact hx
                · exact absurd (List.mem_singleton.mp hx) hqidx
              exact hidxnv (hclosed idx q hidxq hqvis)
        subst hq_eq
        have hjj : eu.i = e.j := by
          rw [getD_of_get? hget, hgd] at hqj
          exact hqj.symm
        have humem : u ∈ allOut edges e.j := allOut_complete hgetu hjj
        have hres := unlockFold_complete humem ⟨eu, hgetu, hjj⟩
          (show u ∉ st1.visited from hunv)
          (show isAvail cs st1.visited u from huav)
        rw [hjj]
        exact hres
  · intro v hv
    rw [hvis'] at hv
    rcases List.mem_append.mp hv with hx | hx
    · exact hcomp.visited_lt v hx
    · rw [List.mem_singleton.mp hx]
      exact (List.get?_eq_some.mp hget).1

theorem getD_mem_of_lt {l : List Nat} {k : Nat} (h : k < l.length) :
    l.getD k 0 ∈ l := by
  rw [List.getD_eq_get?]
  match hg : l.get? k with
  | none => exact absurd (List.get?_eq_none.mp hg) (by omega)
  | some v => exact List.get?_mem hg

theorem fly_get_of_visited {tr : List PEvent} {visited : List Nat} {a : Nat}
    (htv : flyIndices tr = visited) (ha : a ∈ visited) :
    ∃ q pl, tr.get? q = some (.fly pl a) :=
  mem_flyIndices.mp (htv ▸ ha)

theorem extendJourney_inv {edges : List Edge} {cs : CSet} {N : Nat}
    {rand : Nat → Nat} {p : Nat} :
    ∀ (fuel : Nat) (st : PState) (i : Nat) (ext : Bool) (st' : PState) (ext' : Bool),
      extendJourney edges cs rand fuel st p i ext = some (st', ext') →
      PInv edges cs N { st with pos := Function.update st.pos p i } →
      PInv edges cs N st' ∧ (∀ v ∈ st.visited, v ∈ st'.visited) := by
  intro fuel
  induction fuel with
  | zero => intro st i ext st' ext' h; exact Option.noConfusion h
  | succ fuel IH =>
    intro st i ext st' ext' h hinv
    rw [extendJourney] at h
    by_cases hlen : 0 < (st.availOut i).length
    · rw [if_pos hlen] at h
      simp only [Option.pure_def, Option.bind_eq_bind, Option.bind_eq_some] at h
      obtain ⟨st1, hvisit, hrec⟩ := h
      set idx := (st.availOut i).getD (rand st.ctr % (st.availOut i).length) 0 with hidxdef
      have hidxmem : idx ∈ st.availOut i :=
        getD_mem_of_lt (Nat.mod_lt _ hlen)
      obtain ⟨e0, hgete0, he0i, hidxnv, hidxav⟩ := hinv.avail_valid i idx hidxmem
      have hgd : edges.getD idx default = e0 := getD_of_get? hgete0
      -- the intermediate state with bumped rng counter
      set stc : PState := { st with ctr := st.ctr + 1 } with hstc
      obtain ⟨e1, hgete1, hvis1, htr1, hpos1, hctr1⟩ := visitEdge_frame hvisit
      have he1 : e0 = e1 := by
        rw [hgete0] at hgete1; exact Option.some_inj.mp hgete1
      subst he1
      obtain ⟨hval1, hnodup1⟩ :=
        @visitEdge_valid edges cs stc idx _ hinv.avail_valid hinv.avail_nodup
          hvisit
      set st2 : PState := { st1 with trace := st1.trace ++ [PEvent.fly p idx] }
        with hst2
      -- establish the invariant for the recursive call
      have hinv2 : PInv edges cs N { st2 with pos := Function.update st2.pos p e0.j } := by
        refine ⟨?_, ?_, ?_, ?_, ?_, ?_, ?_, ?_⟩
        · exact fun c u hu => hval1 c u hu
        · exact fun c => hnodup1 c
        · show flyIndices (st1.trace ++ [PEvent.fly p idx]) = st1.visited
          rw [flyIndices_append, flyIndices_fly, htr1, hinv.trace_visited, hvis1]
        · show (st1.visited).Nodup
          rw [hvis1]
          simp only [List.nodup_append, List.nodup_singleton, List.mem_singleton,
            true_and]
          exact ⟨hinv.visited_nodup,
            fun a ha hae => hidxnv ((List.mem_singleton.mp hae) ▸ ha)⟩
        · show ∀ a b : Nat, (a, b) ∈ cs → b ∈ st1.visited → a ∈ st1.visited
          rw [hvis1]
          intro a b hab hb
          rcases List.mem_append.mp hb with hb | hb
          · exact List.mem_append_left _ (hinv.visited_closed a b hab hb)
          · have hbidx : b = idx := List.mem_singleton.mp hb
            exact List.mem_append_left _ (hidxav (a, b) hab (by rw [hbidx]))
        · show ∀ a b pl q, (a, b) ∈ cs →
            (st1.trace ++ [PEvent.fly p idx]).get? q = some (.fly pl b) →
            ∃ q' pl', q' < q ∧
              (st1.trace ++ [PEvent.fly p idx]).get? q' = some (.fly pl' a)
          intro a b pl q hab hq
          rw [htr1] at hq ⊢
          rcases Nat.lt_trichotomy q st.trace.length with hlt | heq | hgt
          · rw [List.get?_append hlt] at hq
            obtain ⟨q', pl', hq', hget'⟩ := hinv.trace_le a b pl q hab hq
            exact ⟨q', pl', hq', by
              rw [List.get?_append (Nat.lt_trans hq' hlt)]; exact hget'⟩
          · rw [List.get?_append_right (Nat.le_of_eq heq.symm), heq,
              Nat.sub_self] at hq
            simp only [List.get?_cons_zero, Option.some_inj] at hq
            have hb : b = idx := by cases hq; rfl
            have ha : a ∈ st.visited := hidxav (a, b) hab (by rw [hb])
            obtain ⟨q', pl', hget'⟩ :=
              fly_get_of_visited hinv.trace_visited ha
            have hq'lt : q' < st.trace.length := (List.get?_eq_some.mp hget').1
            exact ⟨q', pl', heq ▸ hq'lt, by
              rw [List.get?_append hq'lt]; exact hget'⟩
          · exfalso
            have : (st.trace ++ [PEvent.fly p idx]).length ≤ q := by
              simp only [List.length_append, List.length_singleton]; omega
            rw [List.get?_eq_none.mpr this] at hq
            exact Option.noConfusion hq
        · show ∀ p' a b, PEvent.jump p' a b ∈ st1.trace ++ [PEvent.fly p idx] → a ≠ b
          rw [htr1]
          intro p' a b hm
          rcases List.mem_append.mp hm with hm | hm
          · exact hinv.jumps_ne p' a b hm
          · exact absurd (List.mem_singleton.mp hm) (by intro hx; cases hx)
        · show ∀ pl, ChainedFlights (planeFlights pl
              (flightsOf edges N (st1.trace ++ [PEvent.fly p idx]))) ∧
            ∀ f, (planeFlights pl
              (flightsOf edges N (st1.trace ++ [PEvent.fly p idx]))).getLast? =
                some f → f.j = Function.update st1.pos p e0.j pl
          intro pl
          rw [htr1]
          rw [flightsOf_append, planeFlights_append]
          have hflight : flightsOf edges N [PEvent.fly p idx] =
              [⟨p, e0.i, e0.j, e0.cargo⟩] := by
            simp only [flightsOf, List.map_cons, List.map_nil, eventFlight, hgd]
          rw [hflight]
          by_cases hpl : pl = p
          · subst hpl
            have hfilter : planeFlights pl [(⟨pl, e0.i, e0.j, e0.cargo⟩ : Flight)] =
                [⟨pl, e0.i, e0.j, e0.cargo⟩] := by
              simp [planeFlights]
            rw [hfilter]
            have hold := hinv.geo pl
            constructor
            · refine chained_append hold.1 ?_
              intro f hf
              have hthis : f.j = Function.update st.pos pl i pl := hold.2 f hf
              rw [Function.update_same] at hthis
              rw [hthis, he0i]
            · intro f hf
              rw [List.getLast?_concat] at hf
              have hfeq : f = ⟨pl, e0.i, e0.j, e0.cargo⟩ := Option.some_inj.mp hf.symm
              rw [hfeq, hpos1, Function.update_same]
          · have hfilter : planeFlights pl [(⟨p, e0.i, e0.j, e0.cargo⟩ : Flight)] = [] := by
              simp [planeFlights, hpl]
              intro hx
              exact absurd hx.symm hpl
            rw [hfilter, List.append_nil]
            have hold := hinv.geo pl
            refine ⟨hold.1, ?_⟩
            intro f hf
            have hthis : f.j = Function.update st.pos p i pl := hold.2 f hf
            rw [Function.update_noteq hpl] at hthis
            rw [Function.update_noteq hpl, hpos1]
            exact hthis
      obtain ⟨hfin, hmono⟩ := IH st2 e0.j true st' ext' (hgd ▸ hrec) hinv2
      refine ⟨hfin, fun v hv => hmono v ?_⟩
      show v ∈ st1.visited
      rw [hvis1]
      exact List.mem_append_left _ hv
    · rw [if_neg hlen] at h
      simp only [Option.some_inj] at h
      have hst' : st' = { st with pos := Function.update st.pos p i } := by
        cases h; rfl
      exact ⟨hst' ▸ hinv, fun v hv => by rw [hst']; exact hv⟩

theorem extendJourney_ext_true {edges : List Edge} {cs : CSet} {rand : Nat → Nat}
    {p : Nat} : ∀ (fuel : Nat) (st : PState) (i : Nat) (st' : PState) (ext' : Bool),
    extendJourney edges cs rand fuel st p i true = some (st', ext') → ext' = true := by
  intro fuel
  induction fuel with
  | zero => intro st i st' ext' h; exact Option.noConfusion h
  | succ fuel IH =>
    intro st i st' ext' h
    rw [extendJourney] at h
    by_cases hlen : 0 < (st.availOut i).length
    · rw [if_pos hlen] at h
      simp only [Option.pure_def, Option.bind_eq_bind, Option.bind_eq_some] at h
      obtain ⟨st1, _, hrec⟩ := h
      exact IH _ _ _ _ hrec
    · rw [if_neg hlen] at h
      simp only [Option.some_inj] at h
      have := congrArg Prod.snd h
      exact this.symm

theorem extendJourney_false {edges : List Edge} {cs : CSet} {rand : Nat → Nat}
    {p : Nat} {fuel : Nat} {st : PState} {i : Nat} {st' : PState}
    (h : extendJourney edges cs rand fuel st p i false = some (st', false)) :
    st' = { st with pos := Function.update st.pos p i } ∧ st.availOut i = [] := by
  cases fuel with
  | zero => exact Option.noConfusion h
  | succ fuel =>
    rw [extendJourney] at h
    by_cases hlen : 0 < (st.availOut i).length
    · rw [if_pos hlen] at h
      simp only [Option.pure_def, Option.bind_eq_bind, Option.bind_eq_some] at h
      obtain ⟨st1, _, hrec⟩ := h
      exact absurd (extendJourney_ext_true _ _ _ _ _ hrec) (by simp)
    · rw [if_neg hlen] at h
      simp only [Option.some_inj] at h
      have h1 := congrArg Prod.fst h
      refine ⟨h1.symm, ?_⟩
      have : (st.availOut i).length = 0 := by omega
      exact List.length_eq_zero.mp this

theorem passFold_inv {edges : List Edge} {cs : CSet} {N : Nat} {rand : Nat → Nat} :
    ∀ (l : List Nat) (s : PState) (b : Bool) (st' : PState) (ext' : Bool),
      l.foldlM (fun sb p => do
        let r ← extendJourney edges cs rand (edges.length + 1) sb.1 p (sb.1.pos p) false
        some (r.1, sb.2 || r.2)) (s, b) = some (st', ext') →
      PInv edges cs N s → PInv edges cs N st' ∧ (∀ v ∈ s.visited, v ∈ st'.visited) := by
  intro l
  induction l with
  | nil =>
    intro s b st' ext' h hinv
    simp only [List.foldlM_nil, Option.pure_def, Option.some_inj] at h
    have h1 : s = st' := congrArg Prod.fst h
    exact ⟨h1 ▸ hinv, fun v hv => h1 ▸ hv⟩
  | cons p l IH =>
    intro s b st' ext' h hinv
    simp only [List.foldlM_cons, Option.pure_def, Option.bind_eq_bind,
      Option.bind_eq_some] at h
    obtain ⟨sb1, hstep, hfold⟩ := h
    simp only [Option.bind_eq_some, Option.some_inj] at hstep
    obtain ⟨r, hEJ, hr⟩ := hstep
    obtain ⟨s1, b1⟩ := sb1
    injection hr with hr1 hr2
    have hupd : ({ s with pos := Function.update s.pos p (s.pos p) } : PState) = s := by
      rw [Function.update_eq_self]
    have hinv' : PInv edges cs N { s with pos := Function.update s.pos p (s.pos p) } := by
      rw [hupd]; exact hinv
    have hEJ' : extendJourney edges cs rand (edges.length + 1) s p (s.pos p) false =
        some (r.1, r.2) := by rw [hEJ]
    obtain ⟨hinv1, hmono1⟩ := extendJourney_inv _ s (s.pos p) false r.1 r.2 hEJ' hinv'
    obtain ⟨hinvf, hmonof⟩ := IH s1 b1 st' ext' hfold (hr1 ▸ hinv1)
    exact ⟨hinvf, fun v hv => hmonof v (hr1 ▸ hmono1 v hv)⟩

theorem passFold_false {edges : List Edge} {cs : CSet} {rand : Nat → Nat} :
    ∀ (l : List Nat) (s : PState) (b : Bool) (st' : PState),
      l.foldlM (fun sb p => do
        let r ← extendJourney edges cs rand (edges.length + 1) sb.1 p (sb.1.pos p) false
        some (r.1, sb.2 || r.2)) (s, b) = some (st', false) →
      b = false ∧ st' = s ∧ ∀ p ∈ l, s.availOut (s.pos p) = [] := by
  intro l
  induction l with
  | nil =>
    intro s b st' h
    simp only [List.foldlM_nil, Option.pure_def, Option.some_inj] at h
    have h1 : s = st' := congrArg Prod.fst h
    have h2 : b = false := congrArg Prod.snd h
    exact ⟨h2, h1.symm, fun p hp => absurd hp (List.not_mem_nil p)⟩
  | cons p l IH =>
    intro s b st' h
    simp only [List.foldlM_cons, Option.pure_def, Option.bind_eq_bind,
      Option.bind_eq_some] at h
    obtain ⟨sb1, hstep, hfold⟩ := h
    simp only [Option.bind_eq_some, Option.some_inj] at hstep
    obtain ⟨r, hEJ, hr⟩ := hstep
    obtain ⟨rs, rb⟩ := r
    obtain ⟨s1, b1⟩ := sb1
    injection hr with hr1 hr2
    obtain ⟨hb1, hst's, hprops⟩ := IH s1 b1 st' hfold
    rw [← hr2] at hb1
    have hb : b = false := by
      cases b
      · rfl
      · simp at hb1
    have hrs : rb = false := by
      cases hrb : rb
      · rfl
      · rw [hb, hrb] at hb1; simp at hb1
    rw [hrs] at hEJ
    obtain ⟨hr1', hempty⟩ := extendJourney_false hEJ
    have hr1s : rs = s := by
      rw [hr1', Function.update_eq_self]
    simp only at hr1
    refine ⟨hb, by rw [hst's, ← hr1, hr1s], ?_⟩
    intro q hq
    rcases List.mem_cons.mp hq with rfl | hq
    · exact hempty
    · have hq' := hprops q hq
      rw [← hr1, hr1s] at hq'
      exact hq' 

theorem extendPass_inv {edges : List Edge} {cs : CSet} {N : Nat} {rand : Nat → Nat}
    {planeCount : Nat} {st st' : PState} {ext' : Bool}
    (h : extendPass edges cs rand planeCount st = some (st', ext'))
    (hinv : PInv edges cs N st) :
    PInv edges cs N st' ∧ (∀ v ∈ st.visited, v ∈ st'.visited) := by
  unfold extendPass at h
  exact passFold_inv _ st false st' ext' h hinv

theorem extendPass_false {edges : List Edge} {cs : CSet} {rand : Nat → Nat}
    {planeCount : Nat} {st st' : PState}
    (h : extendPass edges cs rand planeCount st = some (st', false)) :
    st' = st ∧ ∀ p, p < planeCount → st.availOut (st.pos p) = [] := by
  unfold extendPass at h
  obtain ⟨_, hst, hprops⟩ := passFold_false _ st false st' h
  exact ⟨hst, fun p hp => hprops p (List.mem_range.mpr hp)⟩

theorem extendPhase_inv {edges : List Edge} {cs : CSet} {N : Nat} {rand : Nat → Nat}
    {planeCount : Nat} : ∀ (fuel : Nat) (st st' : PState),
      extendPhase edges cs rand planeCount fuel st = some st' →
      PInv edges cs N st →
      PInv edges cs N st' ∧ (∀ v ∈ st.visited, v ∈ st'.visited) ∧
        (∀ p, p < planeCount → st'.availOut (st'.pos p) = []) := by
  intro fuel
  induction fuel with
  | zero => intro st st' h; exact Option.noConfusion h
  | succ fuel IH =>
    intro st st' h hinv
    rw [extendPhase] at h
    simp only [Option.pure_def, Option.bind_eq_bind, Option.bind_eq_some] at h
    obtain ⟨r, hpass, hif⟩ := h
    have hpass' : extendPass edges cs rand planeCount st = some (r.1, r.2) := by
      rw [hpass]
    obtain ⟨hinv1, hmono1⟩ := extendPass_inv hpass' hinv
    cases hr2 : r.2 with
    | true =>
      rw [hr2] at hif
      rw [if_pos rfl] at hif
      obtain ⟨hinvf, hmonof, hstuck⟩ := IH r.1 st' hif hinv1
      exact ⟨hinvf, fun v hv => hmonof v (hmono1 v hv), hstuck⟩
    | false =>
      rw [hr2] at hif
      rw [if_neg Bool.false_ne_true] at hif
      simp only [Option.some_inj] at hif
      subst hif
      rw [hr2] at hpass'
      obtain ⟨hr1st, hstuck⟩ := extendPass_false hpass'
      exact ⟨hinv1, hmono1, by rw [hr1st]; exact hstuck⟩

theorem PInv_jump {edges : List Edge} {cs : CSet} {N : Nat} {st1 : PState}
    (hinv : PInv edges cs N st1) {jp ji jj : Nat}
    (hji : ji = st1.pos jp) (hne : ji ≠ jj) :
    PInv edges cs N { st1 with pos := Function.update st1.pos jp jj,
                               trace := st1.trace ++ [PEvent.jump jp ji jj] } := by
  refine ⟨hinv.avail_valid, hinv.avail_nodup, ?_, hinv.visited_nodup,
    hinv.visited_closed, ?_, ?_, ?_⟩
  · show flyIndices (st1.trace ++ [PEvent.jump jp ji jj]) = st1.visited
    rw [flyIndices_append, flyIndices_jump, List.append_nil, hinv.trace_visited]
  · show ∀ a b pl q, (a, b) ∈ cs →
      (st1.trace ++ [PEvent.jump jp ji jj]).get? q = some (.fly pl b) →
      ∃ q' pl', q' < q ∧
        (st1.trace ++ [PEvent.jump jp ji jj]).get? q' = some (.fly pl' a)
    intro a b pl q hab hq
    rcases Nat.lt_trichotomy q st1.trace.length with hlt | heq | hgt
    · rw [List.get?_append hlt] at hq
      obtain ⟨q', pl', hq', hget'⟩ := hinv.trace_le a b pl q hab hq
      exact ⟨q', pl', hq', by
        rw [List.get?_append (Nat.lt_trans hq' hlt)]; exact hget'⟩
    · exfalso
      rw [List.get?_append_right (Nat.le_of_eq heq.symm), heq, Nat.sub_self] at hq
      simp only [List.get?_cons_zero, Option.some_inj] at hq
      cases hq
    · exfalso
      have : (st1.trace ++ [PEvent.jump jp ji jj]).length ≤ q := by
        simp only [List.length_append, List.length_singleton]; omega
      rw [List.get?_eq_none.mpr this] at hq
      exact Option.noConfusion hq
  · show ∀ p' a b, PEvent.jump p' a b ∈ st1.trace ++ [PEvent.jump jp ji jj] → a ≠ b
    intro p' a b hm
    rcases List.mem_append.mp hm with hm | hm
    · exact hinv.jumps_ne p' a b hm
    · have := List.mem_singleton.mp hm
      injection this with h1 h2 h3
      rw [h2, h3]
      exact hne
  · show ∀ pl, ChainedFlights (planeFlights pl
        (flightsOf edges N (st1.trace ++ [PEvent.jump jp ji jj]))) ∧
      ∀ f, (planeFlights pl
        (flightsOf edges N (st1.trace ++ [PEvent.jump jp ji jj]))).getLast? =
          some f → f.j = Function.update st1.pos jp jj pl
    intro pl
    rw [flightsOf_append, planeFlights_append]
    have hflight : flightsOf edges N [PEvent.jump jp ji jj] =
        [⟨jp, ji, jj, List.replicate N 0⟩] := rfl
    rw [hflight]
    have hold := hinv.geo pl
    by_cases hpl : pl = jp
    · subst hpl
      have hfilter : planeFlights pl [(⟨pl, ji, jj, List.replicate N 0⟩ : Flight)] =
          [⟨pl, ji, jj, List.replicate N 0⟩] := by
        simp [planeFlights]
      rw [hfilter]
      constructor
      · refine chained_append hold.1 ?_
        intro f hf
        rw [hold.2 f hf, hji]
      · intro f hf
        rw [List.getLast?_concat] at hf
        have hfeq : f = ⟨pl, ji, jj, List.replicate N 0⟩ := Option.some_inj.mp hf.symm
        rw [hfeq, Function.update_same]
    · have hfilter : planeFlights pl [(⟨jp, ji, jj, List.replicate N 0⟩ : Flight)] = [] := by
        simp only [planeFlights, List.filter_eq_nil]
        intro f hf
        have hfeq : f = ⟨jp, ji, jj, List.replicate N 0⟩ := List.mem_singleton.mp hf
        simp only [hfeq, decide_eq_true_eq]
        exact fun hx => hpl hx.symm
      rw [hfilter, List.append_nil]
      refine ⟨hold.1, ?_⟩
      intro f hf
      rw [Function.update_noteq hpl]
      exact hold.2 f hf

theorem argmaxFirst_mem {key : Nat → Int} : ∀ {l : List Nat} {x : Nat},
    argmaxFirst key l = some x → x ∈ l := by
  intro l x h
  match l with
  | [] => exact Option.noConfusion h
  | y :: ys =>
    simp only [argmaxFirst, Option.some_inj] at h
    subst h
    suffices hgen : ∀ (zs : List Nat) (b : Nat),
        zs.foldl (fun b y => if key b < key y then y else b) b ∈ b :: zs by
      exact hgen ys y
    intro zs
    induction zs with
    | nil => intro b; exact List.mem_singleton.mpr rfl
    | cons z zs IH =>
      intro b
      rw [List.foldl_cons]
      by_cases hk : key b < key z
      · rw [if_pos hk]
        exact List.mem_cons_of_mem _ (IH z)
      · rw [if_neg hk]
        rcases List.mem_cons.mp (IH b) with h1 | h1
        · rw [h1]; exact List.mem_cons_self _ _
        · exact List.mem_cons_of_mem _ (List.mem_cons_of_mem _ h1)

theorem argminFirst_mem {key : Nat × Nat → Nat} : ∀ {l : List (Nat × Nat)}
    {x : Nat × Nat}, argminFirst key l = some x → x ∈ l := by
  intro l x h
  match l with
  | [] => exact Option.noConfusion h
  | y :: ys =>
    simp only [argminFirst, Option.some_inj] at h
    subst h
    suffices hgen : ∀ (zs : List (Nat × Nat)) (b : Nat × Nat),
        zs.foldl (fun b y => if key y < key b then y else b) b ∈ b :: zs by
      exact hgen ys y
    intro zs
    induction zs with
    | nil => intro b; exact List.mem_singleton.mpr rfl
    | cons z zs IH =>
      intro b
      rw [List.foldl_cons]
      by_cases hk : key z < key b
      · rw [if_pos hk]
        exact List.mem_cons_of_mem _ (IH z)
      · rw [if_neg hk]
        rcases List.mem_cons.mp (IH b) with h1 | h1
        · rw [h1]; exact List.mem_cons_self _ _
        · exact List.mem_cons_of_mem _ (List.mem_cons_of_mem _ h1)

theorem initFold_valid {edges : List Edge} {cs : CSet} :
    ∀ (l : List (Nat × Edge)) (ai : (Nat → List Nat) × (Nat → List Nat)),
      (∀ pe ∈ l, edges.get? pe.1 = some pe.2) →
      (l.map Prod.fst).Nodup →
      (∀ c u, u ∈ ai.1 c → (∃ e, edges.get? u = some e ∧ e.i = c ∧
        isAvail cs [] u) ∧ u ∉ l.map Prod.fst) →
      (∀ c, (ai.1 c).Nodup) →
      (∀ c u, u ∈ (l.foldl
          (fun ai pe => if isAvail cs [] pe.1 then mkAvail edges ai.1 ai.2 pe.1 else ai)
          ai).1 c →
        ∃ e, edges.get? u = some e ∧ e.i = c ∧ isAvail cs [] u) ∧
      (∀ c, ((l.foldl
          (fun ai pe => if isAvail cs [] pe.1 then mkAvail edges ai.1 ai.2 pe.1 else ai)
          ai).1 c).Nodup) := by
  intro l
  induction l with
  | nil =>
    intro ai _ _ hval hnd
    exact ⟨fun c u hu => (hval c u hu).1, hnd⟩
  | cons pe l IH =>
    intro ai hl hnd hval hnodup
    rw [List.foldl_cons]
    have hndtail : (l.map Prod.fst).Nodup := by
      rw [List.map_cons] at hnd
      exact hnd.of_cons
    have hfresh : pe.1 ∉ l.map Prod.fst := by
      rw [List.map_cons] at hnd
      exact (List.nodup_cons.mp hnd).1
    by_cases hg : isAvail cs [] pe.1
    · rw [if_pos hg]
      have hget : edges.get? pe.1 = some pe.2 := hl pe (List.mem_cons_self pe l)
      have hgd : edges.getD pe.1 default = pe.2 := getD_of_get? hget
      refine IH _ (fun q hq => hl q (List.mem_cons_of_mem pe hq)) hndtail ?_ ?_
      · intro c u hu
        simp only [mkAvail, hgd, Function.update_apply] at hu
        by_cases hc : c = pe.2.i
        · rw [if_pos hc] at hu
          rcases List.mem_append.mp hu with hold | hnew
          · have := hval pe.2.i u hold
            refine ⟨by rw [hc]; exact this.1, fun hm => this.2 (List.mem_cons_of_mem _ hm)⟩
          · have hupe : u = pe.1 := List.mem_singleton.mp hnew
            subst hupe
            exact ⟨⟨pe.2, hget, hc.symm, hg⟩, hfresh⟩
        · rw [if_neg hc] at hu
          have := hval c u hu
          exact ⟨this.1, fun hm => this.2 (List.mem_cons_of_mem _ hm)⟩
      · intro c
        simp only [mkAvail, hgd, Function.update_apply]
        by_cases hc : c = pe.2.i
        · rw [if_pos hc]
          have hnotin : pe.1 ∉ ai.1 pe.2.i := by
            intro hm
            exact (hval pe.2.i pe.1 hm).2 (by rw [List.map_cons]; exact List.mem_cons_self _ _)
          simp [List.nodup_append, hnodup pe.2.i, hnotin]
        · rw [if_neg hc]; exact hnodup c
    · rw [if_neg hg]
      refine IH _ (fun q hq => hl q (List.mem_cons_of_mem pe hq)) hndtail ?_ hnodup
      intro c u hu
      have := hval c u hu
      exact ⟨this.1, fun hm => this.2 (List.mem_cons_of_mem _ hm)⟩

theorem initAvail_valid {edges : List Edge} {cs : CSet} :
    (∀ c u, u ∈ (initAvail edges cs).1 c →
      ∃ e, edges.get? u = some e ∧ e.i = c ∧ isAvail cs [] u) ∧
    (∀ c, ((initAvail edges cs).1 c).Nodup) := by
  unfold initAvail
  refine initFold_valid edges.enum (fun _ => [], fun _ => []) ?_ ?_ ?_ ?_
  · exact fun pe hpe => List.mem_enum_iff_get?.mp hpe
  · rw [List.enum_map_fst]
    exact List.nodup_range _
  · intro c u hu
    exact absurd hu (List.not_mem_nil u)
  · intro c
    exact List.nodup_nil

theorem PInv_init {edges : List Edge} {cs : CSet} {N : Nat} {planes : List Nat} :
    PInv edges cs N ⟨(initAvail edges cs).1, (initAvail edges cs).2, [],
      fun p => planes.getD p 0, [], 0⟩ := by
  obtain ⟨hval, hnodup⟩ := @initAvail_valid edges cs
  refine ⟨?_, hnodup, rfl, List.nodup_nil, ?_, ?_, ?_, ?_⟩
  · intro c u hu
    obtain ⟨e, hget, hei, hav⟩ := hval c u hu
    exact ⟨e, hget, hei, List.not_mem_nil u, hav⟩
  · intro a b hab hb
    exact absurd hb (List.not_mem_nil b)
  · intro a b pl q hab hq
    rw [List.get?_eq_none.mpr (by simp)] at hq
    exact Option.noConfusion hq
  · intro p a b hm
    exact absurd hm (List.not_mem_nil _)
  · intro pl
    constructor
    · show ChainedFlights (planeFlights pl (flightsOf edges N []))
      exact chained_nil
    · intro f hf
      simp only [flightsOf, List.map_nil, planeFlights, List.filter_nil,
        List.getLast?] at hf
      exact Option.noConfusion hf

theorem mainLoop_inv {edges : List Edge} {cs : CSet} {N : Nat} {rand : Nat → Nat}
    {planeCount : Nat} : ∀ (fuel : Nat) (st st' : PState),
      mainLoop N edges cs rand planeCount fuel st = some st' →
      PInv edges cs N st → PInv edges cs N st' := by
  intro fuel
  induction fuel with
  | zero => intro st st' h; exact Option.noConfusion h
  | succ fuel IH =>
    intro st st' h hinv
    rw [mainLoop] at h
    simp only [Option.pure_def, Option.bind_eq_bind, Option.bind_eq_some] at h
    obtain ⟨st1, hphase, h⟩ := h
    obtain ⟨hinv1, _, hstuck⟩ := extendPhase_inv _ st st1 hphase hinv
    by_cases hempty : (List.range N).filter (fun j => 0 < (st1.availOut j).length) = []
    · rw [if_pos hempty] at h
      simp only [Option.some_inj] at h
      exact h ▸ hinv1
    · rw [if_neg hempty] at h
      simp only [Option.bind_eq_some] at h
      obtain ⟨jj, hjj, h⟩ := h
      obtain ⟨pi_, hpi, h⟩ := h
      have hjjmem := argmaxFirst_mem hjj
      rw [List.mem_filter] at hjjmem
      have hjjpos : 0 < (st1.availOut jj).length := of_decide_eq_true hjjmem.2
      have hpimem := argminFirst_mem hpi
      rw [List.mem_map] at hpimem
      obtain ⟨p0, hp0, hp0eq⟩ := hpimem
      have hp0lt : p0 < planeCount := List.mem_range.mp hp0
      have hpi1 : pi_.1 = p0 := by rw [← hp0eq]
      have hpi2 : pi_.2 = st1.pos p0 := by rw [← hp0eq]
      have hne : pi_.2 ≠ jj := by
        intro heq
        have h1 := hstuck p0 hp0lt
        rw [← hpi2, heq] at h1
        rw [h1] at hjjpos
        simp at hjjpos
      have hinv2 := @PInv_jump edges cs N st1 hinv1 pi_.1 pi_.2 jj
        (by rw [hpi1, hpi2]) hne
      exact IH _ st' h hinv2

theorem planPlanes_inv {N : Nat} {edges : List Edge} {cs : CSet}
    {planes : List Nat} {rand : Nat → Nat} {st : PState}
    (h : planPlanes N edges cs planes rand = some st) : PInv edges cs N st := by
  unfold planPlanes at h
  simp only [Option.pure_def, Option.bind_eq_bind, Option.bind_eq_some] at h
  obtain ⟨st1, hmain, hif⟩ := h
  have hinv1 := mainLoop_inv _ _ st1 hmain (@PInv_init _ _ _ planes)
  by_cases hc : (∀ k < edges.length, k ∈ st1.visited) ∧
      (∀ v ∈ st1.visited, v < edges.length)
  · rw [if_pos hc] at hif
    simp only [Option.some_inj] at hif
    exact hif ▸ hinv1
  · rw [if_neg hc] at hif
    exact Option.noConfusion hif

theorem fly_pos_unique {tr : List PEvent} {a p q pla plb : Nat}
    (hnd : (flyIndices tr).Nodup)
    (hp : tr.get? p = some (.fly pla a)) (hq : tr.get? q = some (.fly plb a)) :
    p = q := by
  by_contra hne
  -- symmetric argument: the earlier and the later occurrence put `a` into
  -- the two halves of a `take`/`drop` split, contradicting `Nodup`
  have key : ∀ (p' q' pa pb : Nat), p' < q' →
      tr.get? p' = some (.fly pa a) → tr.get? q' = some (.fly pb a) → False := by
    intro p' q' pa pb hlt hp' hq'
    have hsplit : tr = tr.take q' ++ tr.drop q' := (List.take_append_drop q' tr).symm
    have hq'len : q' < tr.length := (List.get?_eq_some.mp hq').1
    have hmem1 : a ∈ flyIndices (tr.take q') := by
      rw [mem_flyIndices]
      refine ⟨p', pa, ?_⟩
      rw [List.get?_take hlt]
      exact hp'
    have hmem2 : a ∈ flyIndices (tr.drop q') := by
      rw [mem_flyIndices]
      refine ⟨0, pb, ?_⟩
      rw [List.get?_drop, Nat.add_zero]
      exact hq'
    rw [hsplit, flyIndices_append] at hnd
    rw [List.nodup_append] at hnd
    exact hnd.2.2 hmem1 hmem2
  rcases Nat.lt_or_ge p q with hlt | hge
  · exact key p q pla plb hlt hp hq
  · exact key q p plb pla (Nat.lt_of_le_of_ne hge (fun he => hne he.symm)) hq hp

/-- C3.  The flight sequence returned by `plan_planes` is a linear extension
of the precedence constraints: for every pair `(a, b)` in the constraint
set, the non-repositioning flight of edge `a` occurs strictly earlier in
the output sequence than the flight of edge `b` (positions are indices into
the emitted trace; `fly pl k` is the flight of edge `k` by plane `pl`).
An edge is visited — hence emitted — only when `is_available` holds, i.e.
after all its constraint-store predecessors were emitted. -/
theorem C3_linear_extension {N : Nat} {edges : List Edge} {cs : CSet}
    {planes : List Nat} {rand : Nat → Nat} {st : PState}
    (h : planPlanes N edges cs planes rand = some st) :
    ∀ a b, (a, b) ∈ cs → ∀ p q pla plb,
      st.trace.get? p = some (.fly pla a) →
      st.trace.get? q = some (.fly plb b) → p < q := by
  have hinv := planPlanes_inv h
  intro a b hab p q pla plb hp hq
  obtain ⟨p0, pl0, hp0q, hp0⟩ := hinv.trace_le a b plb q hab hq
  have hnd : (flyIndices st.trace).Nodup := by
    rw [hinv.trace_visited]; exact hinv.visited_nodup
  have := fly_pos_unique hnd hp hp0
  omega

/-- Witness for C3 on a concrete run: two edges with the constraint
`(0, 1)`, one plane starting at city 2. -/
theorem C3_witness :
    (planPlanes 3 exEdges exCs [2] (fun _ => 0)).elim False (fun st =>
      ∀ a b, (a, b) ∈ exCs → ∀ p q pla plb,
        st.trace.get? p = some (.fly pla a) →
        st.trace.get? q = some (.fly plb b) → p < q) := by
  obtain ⟨st, hst⟩ : ∃ st, planPlanes 3 exEdges exCs [2] (fun _ => 0) = some st :=
    ⟨_, rfl⟩
  rw [hst]
  exact C3_linear_extension hst

/-- C4.  For each plane, the subsequence of the output consisting of that
plane's flights (repositioning flights included) is geographically chained:
the destination city of the plane's `k`-th flight equals the source city of
its `(k+1)`-th flight. -/
theorem C4_plane_geography {N : Nat} {edges : List Edge} {cs : CSet}
    {planes : List Nat} {rand : Nat → Nat} {st : PState}
    (h : planPlanes N edges cs planes rand = some st) :
    ∀ p, ChainedFlights (planeFlights p (flightsOf edges N st.trace)) :=
  fun p => ((planPlanes_inv h).geo p).1

/-- Witness for C4 on the concrete run of `C3_witness`. -/
theorem C4_witness :
    (planPlanes 3 exEdges exCs [2] (fun _ => 0)).elim False (fun st =>
      ∀ p, ChainedFlights (planeFlights p (flightsOf exEdges 3 st.trace))) := by
  obtain ⟨st, hst⟩ : ∃ st, planPlanes 3 exEdges exCs [2] (fun _ => 0) = some st :=
    ⟨_, rfl⟩
  rw [hst]
  exact C4_plane_geography hst

/-- C10.  Every zero-cargo repositioning flight emitted by `plan_planes`
has a source city different from its destination city: a jump is emitted
only after a full extend pass in which no plane could extend, so the chosen
plane sits at a city with no available out-edges while the jump target has
at least one. -/
theorem C10_repositioning_moves {N : Nat} {edges : List Edge} {cs : CSet}
    {planes : List Nat} {rand : Nat → Nat} {st : PState}
    (h : planPlanes N edges cs planes rand = some st) :
    ∀ p a b, PEvent.jump p a b ∈ st.trace → a ≠ b :=
  (planPlanes_inv h).jumps_ne

/-- Witness for C10 on the concrete run of `C3_witness` (its trace contains
the repositioning flight `jump 0 2 0`). -/
theorem C10_witness :
    (planPlanes 3 exEdges exCs [2] (fun _ => 0)).elim False (fun st =>
      ∀ p a b, PEvent.jump p a b ∈ st.trace → a ≠ b) := by
  obtain ⟨st, hst⟩ : ∃ st, planPlanes 3 exEdges exCs [2] (fun _ => 0) = some st :=
    ⟨_, rfl⟩
  rw [hst]
  exact C10_repositioning_moves hst

/-! ### Paths and the BFS of `find_path` -/

theorem listModify_length (f : α → α) : ∀ (n : Nat) (l : List α),
    (listModify f n l).length = l.length := by
  intro n
  induction n with
  | zero => intro l; cases l <;> rfl
  | succ n IH =>
    intro l
    cases l with
    | nil => rfl
    | cons a as => simp only [listModify, List.length_cons, IH]

theorem listModify_get?_self (f : α → α) : ∀ (n : Nat) (l : List α),
    (listModify f n l).get? n = (l.get? n).map f := by
  intro n
  induction n with
  | zero => intro l; cases l <;> rfl
  | succ n IH =>
    intro l
    cases l with
    | nil => rfl
    | cons a as => simpa only [listModify, List.get?_cons_succ] using IH as

theorem listModify_get?_ne (f : α → α) : ∀ (n k : Nat) (l : List α), k ≠ n →
    (listModify f n l).get? k = l.get? k := by
  intro n
  induction n with
  | zero =>
    intro k l hk
    cases l with
    | nil => rfl
    | cons a as =>
      cases k with
      | zero => exact absurd rfl hk
      | succ k => rfl
  | succ n IH =>
    intro k l hk
    cases l with
    | nil => rfl
    | cons a as =>
      cases k with
      | zero => rfl
      | succ k =>
        simp only [listModify, List.get?_cons_succ]
        exact IH k as (fun he => hk (by rw [he]))

theorem isPath_append {edges : List Edge} : ∀ {L : List Nat} {a c : Nat}
    {e : Nat} {ed : Edge}, IsPath edges a c L → edges.get? e = some ed →
    ed.i = c → IsPath edges a ed.j (L ++ [e]) := by
  intro L
  induction L with
  | nil =>
    intro a c e ed hp hget hi
    have : a = c := hp
    subst this
    exact ⟨ed, hget, hi, rfl⟩
  | cons e0 L IH =>
    intro a c e ed hp hget hi
    obtain ⟨ed0, hget0, hi0, hrest⟩ := hp
    exact ⟨ed0, hget0, hi0, IH hrest hget hi⟩

theorem destCities_append (edges : List Edge) (L : List Nat) (e : Nat) :
    destCities edges (L ++ [e]) =
      destCities edges L ++ [(edges.getD e default).j] := by
  simp [destCities]

theorem isPath_endpoint_mem {edges : List Edge} : ∀ {L : List Nat} {a b : Nat},
    IsPath edges a b L → L ≠ [] → b ∈ destCities edges L := by
  intro L
  induction L with
  | nil => intro a b _ hne; exact absurd rfl hne
  | cons e L IH =>
    intro a b hp _
    obtain ⟨ed, hget, hi, hrest⟩ := hp
    by_cases hL : L = []
    · subst hL
      have hjb : ed.j = b := hrest
      simp only [destCities, List.map_cons, getD_of_get? hget, hjb]
      exact List.mem_cons_self _ _
    · have hmem := IH hrest hL
      simp only [destCities, List.map_cons]
      exact List.mem_cons_of_mem _ hmem

theorem isPath_src_ne_endpoint {edges : List Edge} : ∀ {L : List Nat} {a b : Nat},
    IsPath edges a b L → (a :: destCities edges L).Nodup →
    ∀ e ∈ L, (edges.getD e default).i ≠ b := by
  intro L
  induction L with
  | nil => intro a b _ _ e he; exact absurd he (List.not_mem_nil e)
  | cons e0 L IH =>
    intro a b hp hnd e he
    obtain ⟨ed, hget, hi, hrest⟩ := hp
    have hndtail : (ed.j :: destCities edges L).Nodup := by
      simp only [destCities, List.map_cons, getD_of_get? hget] at hnd
      exact hnd.of_cons
    have hanotin : a ∉ destCities edges (e0 :: L) := by
      simp only [List.nodup_cons] at hnd
      exact hnd.1
    rcases List.mem_cons.mp he with rfl | he
    · -- the head edge leaves `a`
      rw [getD_of_get? hget, hi]
      intro hab
      subst hab
      cases hL : L with
      | nil =>
        subst hL
        have : ed.j = a := hrest
        refine hanotin ?_
        simp only [destCities, List.map_cons, getD_of_get? hget, this]
        exact List.mem_cons_self _ _
      | cons e1 L1 =>
        rw [hL] at hrest
        have hmem := isPath_endpoint_mem hrest (List.cons_ne_nil e1 L1)
        refine hanotin ?_
        simp only [destCities, List.map_cons]
        rw [hL]
        exact List.mem_cons_of_mem _ hmem
    · exact IH hrest hndtail e he

theorem nodup_filter_eq_length {l : List Nat} {b : Nat} (hnd : l.Nodup)
    (hb : b ∈ l) : (l.filter (fun c => c = b)).length = 1 := by
  induction l with
  | nil => exact absurd hb (List.not_mem_nil b)
  | cons x l IH =>
    rw [List.nodup_cons] at hnd
    rcases List.mem_cons.mp hb with rfl | hb
    · have hrest : l.filter (fun c => c = b) = [] := by
        rw [List.filter_eq_nil]
        intro c hc
        simp only [decide_eq_true_eq]
        exact fun he => hnd.1 (he ▸ hc)
      simp [List.filter, hrest]
    · have hxb : x ≠ b := fun he => hnd.1 (he ▸ hb)
      have hstep : (x :: l).filter (fun c => c = b) = l.filter (fun c => c = b) := by
        simp [List.filter, hxb]
      rw [hstep]
      exact IH hnd.2 hb

theorem pathOK_ne_nil {cap : Nat} {edges : List Edge} {cs : CSet} {a b : Nat}
    {L : List Nat} (h : PathOK cap edges cs a b L) (hab : a ≠ b) : L ≠ [] := by
  intro hnil
  subst hnil
  exact hab h.1

theorem pathOK_nodup {cap : Nat} {edges : List Edge} {cs : CSet} {a b : Nat}
    {L : List Nat} (h : PathOK cap edges cs a b L) : L.Nodup := by
  have hnd := (List.nodup_cons.mp h.2.1).2
  exact hnd.of_map (f := fun e => (edges.getD e default).j)

theorem pathOK_dest_count {cap : Nat} {edges : List Edge} {cs : CSet} {a b : Nat}
    {L : List Nat} (h : PathOK cap edges cs a b L) (hne : L ≠ []) :
    (L.filter (fun e => (edges.getD e default).j = b)).length = 1 := by
  have hmap : (L.filter (fun e => (edges.getD e default).j = b)).length =
      ((destCities edges L).filter (fun c => c = b)).length := by
    unfold destCities
    rw [List.filter_map, List.length_map]
    rfl
  rw [hmap]
  exact nodup_filter_eq_length (List.nodup_cons.mp h.2.1).2
    (isPath_endpoint_mem h.1 hne)

theorem nodup_concat {l : List Nat} {x : Nat} (hnd : l.Nodup) (hx : x ∉ l) :
    (l ++ [x]).Nodup := by
  simp [List.nodup_append, hnd, hx]

theorem fpFold_inv {cap : Nat} {edges : List Edge} {cs : CSet} {a c : Nat}
    {pathToC : List Nat} :
    ∀ (l : List (Nat × Edge)) (paths : Nat → Option (List Nat)) (queue : List Nat),
      (∀ pe ∈ l, edges.get? pe.1 = some pe.2) →
      PathsInv cap edges cs a paths →
      paths c = some pathToC →
      (∀ q ∈ queue, paths q ≠ none) →
      PathsInv cap edges cs a (l.foldl (fpTry cap cs c pathToC) (paths, queue)).1 ∧
      (∀ q ∈ (l.foldl (fpTry cap cs c pathToC) (paths, queue)).2,
        (l.foldl (fpTry cap cs c pathToC) (paths, queue)).1 q ≠ none) := by
  intro l
  induction l with
  | nil => exact fun paths queue _ hinv _ hq => ⟨hinv, hq⟩
  | cons pe l IH =>
    intro paths queue hl hinv hc hq
    rw [List.foldl_cons]
    set st1 := fpTry cap cs c pathToC (paths, queue) pe with hst1
    have hget : edges.get? pe.1 = some pe.2 := hl pe (List.mem_cons_self pe l)
    have hstep : PathsInv cap edges cs a st1.1 ∧ st1.1 c = some pathToC ∧
        (∀ q ∈ st1.2, st1.1 q ≠ none) := by
      rw [hst1]
      unfold fpTry
      by_cases hcond : pe.2.i = c ∧ paths pe.2.j = none ∧ pe.2.cargo.sum < cap ∧
          (∀ p ∈ pathToC, (pe.1, p) ∉ cs)
      · rw [if_pos hcond]
        dsimp only
        obtain ⟨hic, hnone, hcap, hguard⟩ := hcond
        obtain ⟨hOK, hassigned⟩ := hinv c pathToC hc
        have hcne : c ≠ pe.2.j := by
          intro he
          rw [← he, hc] at hnone
          exact Option.noConfusion hnone
        have hsome_mono : ∀ x, paths x ≠ none →
            Function.update paths pe.2.j (some (pathToC ++ [pe.1])) x ≠ none := by
          intro x hx
          rw [Function.update_apply]
          split
          · exact fun hcon => Option.noConfusion hcon
          · exact hx
        have hnewOK : PathOK cap edges cs a pe.2.j (pathToC ++ [pe.1]) := by
          refine ⟨isPath_append hOK.1 hget hic, ?_, ?_, ?_⟩
          · rw [destCities_append, getD_of_get? hget]
            have : a :: (destCities edges pathToC ++ [pe.2.j]) =
                (a :: destCities edges pathToC) ++ [pe.2.j] := rfl
            rw [this]
            refine nodup_concat hOK.2.1 ?_
            intro hmem
            exact (hassigned pe.2.j hmem) hnone
          · intro e he
            rcases List.mem_append.mp he with he | he
            · exact hOK.2.2.1 e he
            · rw [List.mem_singleton.mp he]
              refine ⟨(List.get?_eq_some.mp hget).1, ?_⟩
              rw [getD_of_get? hget]
              exact hcap
          · rw [List.pairwise_append]
            refine ⟨hOK.2.2.2, List.pairwise_singleton _ _, ?_⟩
            intro x hx y hy
            rw [List.mem_singleton.mp hy]
            exact fun hmem => hguard x hx hmem
        refine ⟨?_, ?_, ?_⟩
        · intro c'' L'' hL''
          rw [Function.update_apply] at hL''
          by_cases hc'' : c'' = pe.2.j
          · rw [if_pos hc''] at hL''
            have hLeq : L'' = pathToC ++ [pe.1] := (Option.some_inj.mp hL'').symm
            subst hLeq
            subst hc''
            refine ⟨hnewOK, ?_⟩
            intro c' hc'
            rw [destCities_append, getD_of_get? hget] at hc'
            have hsplit : a :: (destCities edges pathToC ++ [pe.2.j]) =
                (a :: destCities edges pathToC) ++ [pe.2.j] := rfl
            rw [hsplit] at hc'
            rcases List.mem_append.mp hc' with hc' | hc'
            · exact hsome_mono c' (hassigned c' hc')
            · rw [List.mem_singleton.mp hc', Function.update_same]
              exact fun hcon => Option.noConfusion hcon
          · rw [if_neg hc''] at hL''
            obtain ⟨hOK', hassigned'⟩ := hinv c'' L'' hL''
            exact ⟨hOK', fun c' hc' => hsome_mono c' (hassigned' c' hc')⟩
        · rw [Function.update_noteq hcne]
          exact hc
        · intro q hqm
          rcases List.mem_append.mp hqm with hqm | hqm
          · exact hsome_mono q (hq q hqm)
          · rw [List.mem_singleton.mp hqm, Function.update_same]
            exact fun hcon => Option.noConfusion hcon
      · rw [if_neg hcond]
        exact ⟨hinv, hc, hq⟩
    exact IH st1.1 st1.2 (fun q hqm => hl q (List.mem_cons_of_mem pe hqm))
      hstep.1 hstep.2.1 hstep.2.2

theorem fpLoop_inv {cap : Nat} {edges : List Edge} {cs : CSet} {a : Nat} :
    ∀ (fuel : Nat) (paths : Nat → Option (List Nat)) (queue : List Nat)
      (paths' : Nat → Option (List Nat)),
      fpLoop cap edges cs fuel paths queue = some paths' →
      PathsInv cap edges cs a paths →
      (∀ q ∈ queue, paths q ≠ none) →
      PathsInv cap edges cs a paths' := by
  intro fuel
  induction fuel with
  | zero =>
    intro paths queue paths' h hinv hq
    cases queue with
    | nil =>
      simp only [fpLoop, Option.some_inj] at h
      exact h ▸ hinv
    | cons c queue => exact Option.noConfusion h
  | succ fuel IH =>
    intro paths queue paths' h hinv hq
    cases queue with
    | nil =>
      simp only [fpLoop, Option.some_inj] at h
      exact h ▸ hinv
    | cons c queue =>
      rw [fpLoop] at h
      match hc : paths c with
      | none => rw [hc] at h; exact Option.noConfusion h
      | some pathToC =>
        rw [hc] at h
        obtain ⟨hinv', hq'⟩ := fpFold_inv edges.enum paths queue
          (fun pe hpe => List.mem_enum_iff_get?.mp hpe) hinv hc
          (fun q hqm => hq q (List.mem_cons_of_mem c hqm))
        exact IH _ _ paths' h hinv' hq'

theorem pathsInit_inv {cap : Nat} {edges : List Edge} {cs : CSet} {a : Nat} :
    PathsInv cap edges cs a (fun c => if c = a then some [] else none) := by
  intro c L hL
  dsimp only at hL
  by_cases hc : c = a
  · rw [if_pos hc] at hL
    have hLnil : L = [] := (Option.some_inj.mp hL).symm
    subst hLnil
    subst hc
    refine ⟨⟨rfl, List.nodup_singleton c, fun e he => absurd he (List.not_mem_nil e),
      List.Pairwise.nil⟩, ?_⟩
    intro c' hc'
    have hceq : c' = c := by
      simpa [destCities] using hc'
    dsimp only
    rw [hceq, if_pos rfl]
    exact fun hcon => Option.noConfusion hcon
  · rw [if_neg hc] at hL
    exact Option.noConfusion hL

theorem findPath_some_pathOK {cap N : Nat} {edges : List Edge} {cs : CSet}
    {a b : Nat} {path : List Nat}
    (h : findPath cap N edges cs a b = some (some path)) :
    PathOK cap edges cs a b path := by
  unfold findPath at h
  match hloop : fpLoop cap edges cs (N+1)
      (fun c => if c = a then some [] else none) [a] with
  | none => rw [hloop] at h; exact Option.noConfusion h
  | some paths' =>
    rw [hloop] at h
    simp only [Option.map_some', Option.some_inj] at h
    have hinv' := fpLoop_inv (a := a) (N+1) _ [a] paths' hloop pathsInit_inv
      (by
        intro q hqm
        rw [List.mem_singleton.mp hqm, if_pos rfl]
        exact fun hcon => Option.noConfusion hcon)
    exact (hinv' b path h).1

/-! ### Effects of the cargo increments of a transshipment commit -/

theorem colSum_cons (e : Edge) (es : List Edge) (d : Nat) :
    colSum (e :: es) d =
      (if e.j = d then e.cargo.getD d 0 else 0) + colSum es d := by
  by_cases hj : e.j = d
  · simp [colSum, List.filter_cons, hj]
  · simp [colSum, List.filter_cons, hj]

theorem colSum_append_singleton (es : List Edge) (e : Edge) (d : Nat) :
    colSum (es ++ [e]) d =
      colSum es d + (if e.j = d then e.cargo.getD d 0 else 0) := by
  unfold colSum
  rw [List.filter_append, List.map_append, List.sum_append]
  congr 1
  rw [List.filter_singleton]
  by_cases hj : e.j = d
  · simp [hj]
  · simp [hj]

theorem getD_set_nat : ∀ (l : List Nat) (i d v : Nat),
    (l.set i v).getD d 0 = if i = d ∧ i < l.length then v else l.getD d 0 := by
  intro l
  induction l with
  | nil => intro i d v; simp
  | cons a as IH =>
    intro i d v
    cases i with
    | zero =>
      cases d with
      | zero => simp
      | succ d => simp
    | succ i =>
      cases d with
      | zero => simp
      | succ d =>
        simp only [List.set_cons_succ, List.getD_cons_succ, List.length_cons, IH]
        by_cases hc : i = d ∧ i < as.length
        · rw [if_pos hc, if_pos ⟨by omega, by omega⟩]
        · rw [if_neg hc, if_neg (by omega)]

theorem sum_set_add : ∀ (l : List Nat) (j amt : Nat), j < l.length →
    (l.set j (l.getD j 0 + amt)).sum = l.sum + amt := by
  intro l
  induction l with
  | nil => intro j amt h; simp at h
  | cons a as IH =>
    intro j amt h
    cases j with
    | zero => simp [Nat.add_assoc, Nat.add_comm, Nat.add_left_comm]
    | succ j =>
      simp only [List.getD_cons_succ, List.set_cons_succ, List.sum_cons]
      rw [IH j amt (by simpa using h)]
      omega

theorem bumpCargo_i (j amt : Nat) (e : Edge) : (bumpCargo j amt e).i = e.i := rfl

theorem bumpCargo_j (j amt : Nat) (e : Edge) : (bumpCargo j amt e).j = e.j := rfl

theorem bumpCargo_len (j amt : Nat) (e : Edge) :
    (bumpCargo j amt e).cargo.length = e.cargo.length := by
  simp [bumpCargo]

theorem bumpCargo_getD (j amt d : Nat) (e : Edge) :
    (bumpCargo j amt e).cargo.getD d 0 =
      if j = d ∧ j < e.cargo.length then e.cargo.getD d 0 + amt
      else e.cargo.getD d 0 := by
  simp only [bumpCargo]
  rw [getD_set_nat]
  by_cases hc : j = d ∧ j < e.cargo.length
  · rw [if_pos hc, if_pos hc, hc.1]
  · rw [if_neg hc, if_neg hc]

theorem colSum_listModify {edges : List Edge} {k : Nat} {e : Edge} (j amt d : Nat)
    (hget : edges.get? k = some e) :
    colSum (listModify (bumpCargo j amt) k edges) d =
      colSum edges d +
        (if e.j = d ∧ j = d ∧ j < e.cargo.length then amt else 0) := by
  induction edges generalizing k with
  | nil => exact Option.noConfusion hget
  | cons e0 es IH =>
    cases k with
    | zero =>
      have he : e = e0 := Option.some_inj.mp (by simpa using hget.symm)
      subst he
      show colSum (bumpCargo j amt e :: es) d = _
      rw [colSum_cons, colSum_cons, bumpCargo_j, bumpCargo_getD]
      by_cases hjd : e.j = d
      · rw [if_pos hjd, if_pos hjd]
        by_cases hc : j = d ∧ j < e.cargo.length
        · rw [if_pos hc, if_pos ⟨hjd, hc⟩]
          omega
        · rw [if_neg hc, if_neg (fun hx => hc ⟨hx.2.1, hx.2.2⟩)]
          omega
      · rw [if_neg hjd, if_neg hjd, if_neg (fun hx => hjd hx.1)]
        omega
    | succ k =>
      have hget' : es.get? k = some e := by simpa using hget
      show colSum (e0 :: listModify (bumpCargo j amt) k es) d = _
      rw [colSum_cons, colSum_cons, IH hget']
      omega

theorem incEdges_length (j amt : Nat) : ∀ (P : List Nat) (edges : List Edge),
    (incEdges j amt edges P).length = edges.length := by
  intro P
  induction P with
  | nil => intro edges; rfl
  | cons k P IH =>
    intro edges
    show (incEdges j amt (listModify (bumpCargo j amt) k edges) P).length = _
    rw [IH, listModify_length]

theorem incEdges_get?_not_mem (j amt : Nat) : ∀ (P : List Nat) (edges : List Edge)
    (k : Nat), k ∉ P → (incEdges j amt edges P).get? k = edges.get? k := by
  intro P
  induction P with
  | nil => intro edges k _; rfl
  | cons k0 P IH =>
    intro edges k hk
    show (incEdges j amt (listModify (bumpCargo j amt) k0 edges) P).get? k = _
    rw [IH _ k (fun hm => hk (List.mem_cons_of_mem k0 hm)),
      listModify_get?_ne _ _ _ _
        (fun he => hk (by rw [he]; exact List.mem_cons_self k0 P))]

theorem incEdges_get?_mem (j amt : Nat) : ∀ (P : List Nat) (edges : List Edge)
    (k : Nat) (e : Edge), P.Nodup → k ∈ P → edges.get? k = some e →
    (incEdges j amt edges P).get? k = some (bumpCargo j amt e) := by
  intro P
  induction P with
  | nil => intro edges k e _ hk; exact absurd hk (List.not_mem_nil k)
  | cons k0 P IH =>
    intro edges k e hnd hk hget
    rcases List.mem_cons.mp hk with rfl | hk
    · show (incEdges j amt (listModify (bumpCargo j amt) k edges) P).get? k = _
      rw [incEdges_get?_not_mem j amt P _ k (List.nodup_cons.mp hnd).1,
        listModify_get?_self, hget]
      rfl
    · show (incEdges j amt (listModify (bumpCargo j amt) k0 edges) P).get? k = _
      have hne : k ≠ k0 := by
        intro he
        exact (List.nodup_cons.mp hnd).1 (he ▸ hk)
      exact IH _ k e (List.nodup_cons.mp hnd).2 hk
        (by rw [listModify_get?_ne _ _ _ _ hne]; exact hget)

theorem listModify_dest_stable {edges : List Edge} (j amt : Nat) (k k' : Nat) :
    ((listModify (bumpCargo j amt) k edges).getD k' default).j =
      (edges.getD k' default).j ∧
    ((listModify (bumpCargo j amt) k edges).getD k' default).i =
      (edges.getD k' default).i := by
  rw [List.getD_eq_get?, List.getD_eq_get?]
  by_cases hk : k' = k
  · subst hk
    rw [listModify_get?_self]
    cases hget : edges.get? k' with
    | none => exact ⟨rfl, rfl⟩
    | some e => exact ⟨rfl, rfl⟩
  · rw [listModify_get?_ne _ _ _ _ hk]
    exact ⟨rfl, rfl⟩

theorem incEdges_dest_stable (j amt : Nat) : ∀ (P : List Nat) (edges : List Edge)
    (k' : Nat),
    ((incEdges j amt edges P).getD k' default).j = (edges.getD k' default).j ∧
    ((incEdges j amt edges P).getD k' default).i = (edges.getD k' default).i := by
  intro P
  induction P with
  | nil => intro edges k'; exact ⟨rfl, rfl⟩
  | cons k0 P IH =>
    intro edges k'
    show ((incEdges j amt (listModify (bumpCargo j amt) k0 edges) P).getD k' default).j = _ ∧ _
    obtain ⟨h1, h2⟩ := IH (listModify (bumpCargo j amt) k0 edges) k'
    obtain ⟨g1, g2⟩ := listModify_dest_stable j amt k0 k'
    exact ⟨h1.trans g1, h2.trans g2⟩

theorem incEdges_colSum_ne (j amt d : Nat) (hd : d ≠ j) :
    ∀ (P : List Nat) (edges : List Edge), (∀ k ∈ P, k < edges.length) →
    colSum (incEdges j amt edges P) d = colSum edges d := by
  intro P
  induction P with
  | nil => intro edges _; rfl
  | cons k P IH =>
    intro edges hP
    show colSum (incEdges j amt (listModify (bumpCargo j amt) k edges) P) d = _
    have hk : k < edges.length := hP k (List.mem_cons_self k P)
    obtain ⟨e, hget⟩ : ∃ e, edges.get? k = some e := by
      cases hg : edges.get? k with
      | none => exact absurd (List.get?_eq_none.mp hg) (by omega)
      | some e => exact ⟨e, rfl⟩
    rw [IH _ (fun k' hk' => by rw [listModify_length]; exact hP k' (List.mem_cons_of_mem k hk')),
      colSum_listModify j amt d hget, if_neg (fun hx => hd hx.2.1.symm)]
    omega

theorem incEdges_colSum_eq (j amt : Nat) : ∀ (P : List Nat) (edges : List Edge),
    P.Nodup → (∀ k ∈ P, ∃ e, edges.get? k = some e ∧ j < e.cargo.length) →
    colSum (incEdges j amt edges P) j =
      colSum edges j +
        amt * (P.filter (fun k => (edges.getD k default).j = j)).length := by
  intro P
  induction P with
  | nil => intro edges _ _; simp [incEdges]
  | cons k P IH =>
    intro edges hnd hP
    obtain ⟨e, hget, hjlen⟩ := hP k (List.mem_cons_self k P)
    show colSum (incEdges j amt (listModify (bumpCargo j amt) k edges) P) j = _
    have hIH := IH (listModify (bumpCargo j amt) k edges) (List.nodup_cons.mp hnd).2
      (fun k' hk' => by
        obtain ⟨e', hget', hlen2⟩ := hP k' (List.mem_cons_of_mem k hk')
        by_cases hkk : k' = k
        · subst hkk
          refine ⟨bumpCargo j amt e', ?_, ?_⟩
          · rw [listModify_get?_self, hget']; rfl
          · rw [bumpCargo_len]; exact hlen2
        · exact ⟨e', by rw [listModify_get?_ne _ _ _ _ hkk]; exact hget', hlen2⟩)
    rw [hIH, colSum_listModify j amt j hget]
    have hfilter : (P.filter
        (fun k' => ((listModify (bumpCargo j amt) k edges).getD k' default).j = j)).length =
        (P.filter (fun k' => (edges.getD k' default).j = j)).length := by
      congr 1
      apply List.filter_congr
      intro k' _
      rw [(listModify_dest_stable j amt k k').1]
    rw [hfilter, List.filter_cons]
    have hgd : edges.getD k default = e := getD_of_get? hget
    by_cases hej : e.j = j
    · rw [if_pos ⟨hej, rfl, hjlen⟩]
      have : decide ((edges.getD k default).j = j) = true := by
        rw [hgd]; exact decide_eq_true hej
      rw [this]
      simp only [if_true, List.length_cons]
      ring
    · rw [if_neg (fun hx => hej hx.1)]
      have : decide ((edges.getD k default).j = j) = false := by
        rw [hgd]; exact decide_eq_false hej
      rw [this]
      simp only [if_false, Bool.false_eq_true]
      ring

theorem incEdges_WF {cap N j amt : Nat} {edges : List Edge} {P : List Nat}
    (hWF : ∀ e ∈ edges, WFEdge cap N e) (hnd : P.Nodup) (hjN : j < N)
    (hP : ∀ k ∈ P, ∃ e, edges.get? k = some e ∧ e.cargo.sum + amt ≤ cap ∧
      e.i ≠ j) :
    ∀ e' ∈ incEdges j amt edges P, WFEdge cap N e' := by
  intro e' he'
  obtain ⟨k, hk⟩ := List.mem_iff_get?.mp he'
  by_cases hkP : k ∈ P
  · obtain ⟨e, hget, hsum, hij⟩ := hP k hkP
    rw [incEdges_get?_mem j amt P edges k e hnd hkP hget] at hk
    have he'eq : e' = bumpCargo j amt e := Option.some_inj.mp hk.symm
    obtain ⟨hije, hiN, hjN', hlen, hgz, hsum'⟩ := hWF e (List.get?_mem hget)
    subst he'eq
    refine ⟨hije, hiN, hjN', ?_, ?_, ?_⟩
    · rw [bumpCargo_len]; exact hlen
    · rw [bumpCargo_i, bumpCargo_getD]
      rw [if_neg (fun hx => hij hx.1.symm)]
      exact hgz
    · show (bumpCargo j amt e).cargo.sum ≤ cap
      simp only [bumpCargo]
      rw [sum_set_add _ _ _ (by rw [hlen]; exact hjN)]
      omega
  · rw [incEdges_get?_not_mem j amt P edges k hkP] at hk
    exact hWF e' (List.get?_mem hk)

theorem GoodCS_incEdges {edges : List Edge} {cs : CSet} {j amt : Nat}
    {P : List Nat} (h : GoodCS edges cs) : GoodCS (incEdges j amt edges P) cs := by
  intro p c hpc
  obtain ⟨q, hq, hchain, hor⟩ := h p c hpc
  refine ⟨q, hq, ?_, hor⟩
  rw [(incEdges_dest_stable j amt P edges q).1, (incEdges_dest_stable j amt P edges c).2]
  exact hchain

theorem getD_append_lt {edges : List Edge} {e : Edge} {k : Nat}
    (h : k < edges.length) :
    (edges ++ [e]).getD k default = edges.getD k default := by
  rw [List.getD_eq_get?, List.getD_eq_get?, List.get?_append h]

theorem GoodCS_append {edges : List Edge} {cs : CSet} {e : Edge}
    (h : GoodCS edges cs)
    (hb : ∀ p ∈ cs, (p : Nat × Nat).1 < edges.length ∧ p.2 < edges.length) :
    GoodCS (edges ++ [e]) cs := by
  intro p c hpc
  obtain ⟨q, hq, hchain, hor⟩ := h p c hpc
  refine ⟨q, hq, ?_, hor⟩
  rw [getD_append_lt (hb _ hq).1, getD_append_lt (hb _ hpc).2]
  exact hchain

theorem isPath_chain' {edges : List Edge} : ∀ {L : List Nat} {a b : Nat},
    IsPath edges a b L →
    L.Chain' (fun x y => (edges.getD x default).j = (edges.getD y default).i) := by
  intro L
  induction L with
  | nil => intro a b _; exact List.chain'_nil
  | cons e L IH =>
    intro a b hp
    obtain ⟨ed, hget, hi, hrest⟩ := hp
    cases L with
    | nil => exact List.chain'_singleton e
    | cons e1 L1 =>
      rw [List.chain'_cons]
      refine ⟨?_, IH hrest⟩
      obtain ⟨ed1, hget1, hi1, -⟩ := hrest
      rw [getD_of_get? hget, getD_of_get? hget1, hi1]

theorem GoodCS_addConstraint {edges : List Edge} {cs cs' : CSet} {p q fuel : Nat}
    (hinv : CsInv cs) (hgood : GoodCS edges cs)
    (hchain : (edges.getD p default).j = (edges.getD q default).i)
    (hadd : addConstraint fuel cs p q = some cs') : GoodCS edges cs' := by
  have hspec := ac_spec hinv.1 hadd
  intro x c hxc
  rw [hspec] at hxc
  rcases hxc with hxc | ⟨hUx, hWc⟩
  · obtain ⟨q0, hq0, hch0, hor0⟩ := hgood x c hxc
    refine ⟨q0, (hspec (q0, c)).mpr (Or.inl hq0), hch0, ?_⟩
    rcases hor0 with h | h
    · exact Or.inl h
    · exact Or.inr ((hspec (x, q0)).mpr (Or.inl h))
  · simp only at hUx hWc
    rcases hWc with hcq | hqc
    · -- c = q: the freshly added pair `(p, q)` is the chained witness
      rw [hcq]
      refine ⟨p, (hspec (p, q)).mpr (Or.inr ⟨Or.inl rfl, Or.inl rfl⟩) , hchain, ?_⟩
      rcases hUx with h | h
      · exact Or.inl h
      · exact Or.inr ((hspec (x, p)).mpr (Or.inl h))
    · -- (q, c) ∈ cs: reuse the old chained witness of `(q, c)`
      obtain ⟨q0, hq0, hch0, hor0⟩ := hgood q c hqc
      refine ⟨q0, (hspec (q0, c)).mpr (Or.inl hq0), hch0, ?_⟩
      by_cases hxq0 : x = q0
      · exact Or.inl hxq0
      · refine Or.inr ((hspec (x, q0)).mpr (Or.inr ⟨hUx, ?_⟩))
        rcases hor0 with h | h
        · exact Or.inl h.symm
        · exact Or.inr h

theorem commitCs_some_spec {edges : List Edge} : ∀ (P : List Nat) (cs cs' : CSet),
    commitCs P cs = some cs' →
    CsInv cs →
    (∀ p ∈ cs, (p : Nat × Nat).1 < edges.length ∧ p.2 < edges.length) →
    GoodCS edges cs →
    (∀ k ∈ P, k < edges.length) →
    P.Chain' (fun x y => (edges.getD x default).j = (edges.getD y default).i) →
    P.Nodup →
    P.Pairwise (fun x y => (y, x) ∉ cs) →
    CsInv cs' ∧
      (∀ p ∈ cs', (p : Nat × Nat).1 < edges.length ∧ p.2 < edges.length) ∧
      GoodCS edges cs' ∧ (∀ p ∈ cs, p ∈ cs') := by
  intro P
  induction P with
  | nil =>
    intro cs cs' h hinv hb hgood _ _ _ _
    simp only [commitCs, Option.some_inj] at h
    exact h ▸ ⟨hinv, hb, hgood, fun p hp => hp⟩
  | cons p rest IH =>
    intro cs cs' h hinv hb hgood hlt hchain hnd hpair
    cases rest with
    | nil =>
      simp only [commitCs, Option.some_inj] at h
      exact h ▸ ⟨hinv, hb, hgood, fun p hp => hp⟩
    | cons q rest' =>
      rw [commitCs] at h
      simp only [Option.pure_def, Option.bind_eq_bind, Option.bind_eq_some] at h
      obtain ⟨cs1, hadd, hrest⟩ := h
      have hspec := ac_spec hinv.1 hadd
      have hinv1 : CsInv cs1 := csInv_add hinv hadd
      have hplt : p < edges.length := hlt p (List.mem_cons_self p _)
      have hqlt : q < edges.length := hlt q (List.mem_cons_of_mem p (List.mem_cons_self q rest'))
      have hb1 : ∀ x ∈ cs1, (x : Nat × Nat).1 < edges.length ∧ x.2 < edges.length := by
        intro x hx
        rw [hspec] at hx
        rcases hx with hx | ⟨hU, hW⟩
        · exact hb x hx
        · constructor
          · rcases hU with h1 | h1
            · rw [h1]; exact hplt
            · exact (hb _ h1).1
          · rcases hW with h1 | h1
            · rw [h1]; exact hqlt
            · exact (hb _ h1).2
      have hchain0 : (edges.getD p default).j = (edges.getD q default).i :=
        (List.chain'_cons.mp hchain).1
      have hgood1 : GoodCS edges cs1 :=
        GoodCS_addConstraint hinv hgood hchain0 hadd
      have hpnotin : p ∉ q :: rest' := (List.nodup_cons.mp hnd).1
      have hheadpairs : ∀ y ∈ q :: rest', (y, p) ∉ cs :=
        (List.pairwise_cons.mp hpair).1
      have hpair1 : (q :: rest').Pairwise (fun x y => (y, x) ∉ cs1) := by
        refine List.Pairwise.imp_of_mem ?_ (List.pairwise_cons.mp hpair).2
        intro x y hx hy hR hmem
        rw [hspec] at hmem
        rcases hmem with hmem | ⟨hU, hW⟩
        · exact hR hmem
        · simp only at hU hW
          rcases hU with h1 | h1
          · exact hpnotin (h1 ▸ hy)
          · exact hheadpairs y hy h1
      obtain ⟨hinvf, hbf, hgoodf, hmonof⟩ := IH cs1 cs' hrest hinv1 hb1 hgood1
        (fun k hk => hlt k (List.mem_cons_of_mem p hk))
        (List.Chain'.tail hchain) (List.nodup_cons.mp hnd).2 hpair1
      refine ⟨hinvf, hbf, hgoodf, ?_⟩
      intro x hx
      exact hmonof x ((hspec x).mpr (Or.inl hx))

theorem mset_same (m : Nat → Nat → Nat) (i j v : Nat) : mset m i j v i j = v := by
  simp [mset]

theorem mset_ne (m : Nat → Nat → Nat) {i j : Nat} (v : Nat) {i' j' : Nat}
    (h : ¬(i' = i ∧ j' = j)) : mset m i j v i' j' = m i' j' := by
  simp only [mset]
  rw [if_neg h]

theorem sum_range_update : ∀ (N : Nat) (f g : Nat → Nat) (i : Nat), i < N →
    (∀ k, k ≠ i → f k = g k) →
    ((List.range N).map f).sum + g i = ((List.range N).map g).sum + f i := by
  intro N
  induction N with
  | zero => intro f g i hi _; exact absurd hi (Nat.not_lt_zero i)
  | succ N IH =>
    intro f g i hi hfg
    rw [List.range_succ, List.map_append, List.map_append, List.sum_append,
      List.sum_append]
    simp only [List.map_cons, List.map_nil, List.sum_cons, List.sum_nil]
    by_cases hiN : i = N
    · subst hiN
      have heq : ((List.range i).map f).sum = ((List.range i).map g).sum := by
        congr 1
        apply List.map_congr_left
        intro k hk
        exact hfg k (Nat.ne_of_lt (List.mem_range.mp hk))
      rw [heq]
      omega
    · have hIH := IH f g i (by omega) hfg
      rw [hfg N (fun hx => hiN hx.symm)]
      omega

theorem origColSum_mset {N : Nat} (m : Nat → Nat → Nat) (i j v d : Nat)
    (hi : i < N) :
    origColSum N (mset m i j v) d + (if d = j then m i j else 0) =
      origColSum N m d + (if d = j then v else 0) := by
  by_cases hdj : d = j
  · subst hdj
    simp only [if_pos rfl]
    have h := sum_range_update N (fun i' => mset m i d v i' d)
      (fun i' => m i' d) i hi
      (fun k hk => mset_ne m v (fun hx => hk hx.1))
    simp only [mset_same] at h
    exact h
  · simp only [if_neg hdj]
    unfold origColSum
    congr 2
    apply List.map_congr_left
    intro k _
    exact mset_ne m v (fun hx => hdj hx.2)

theorem pathCap_mem_le {cap : Nat} {edges : List Edge} : ∀ {L : List Nat}
    {pc : Nat}, pathCap cap edges L = some pc →
    ∀ e ∈ L, pc ≤ cap - (edges.getD e default).cargo.sum := by
  intro L
  induction L with
  | nil => intro pc h; exact Option.noConfusion h
  | cons e0 rest IH =>
    intro pc h e he
    cases rest with
    | nil =>
      simp only [pathCap, Option.some_inj] at h
      rw [List.mem_singleton.mp he, ← h]
    | cons e1 rest' =>
      simp only [pathCap] at h
      rw [Option.map_eq_some'] at h
      obtain ⟨m, hm, hf⟩ := h
      rcases List.mem_cons.mp he with rfl | he
      · rw [← hf]; exact Nat.min_le_left _ _
      · calc pc ≤ m := by rw [← hf]; exact Nat.min_le_right _ _
          _ ≤ _ := IH hm e he

theorem replicate_zero_getD : ∀ (N d : Nat),
    (List.replicate N (0 : Nat)).getD d 0 = 0 := by
  intro N
  induction N with
  | zero => intro d; rfl
  | succ N IH =>
    intro d
    cases d with
    | zero => rfl
    | succ d => exact IH d

theorem newCargo_sum {N j amount : Nat} (hj : j < N) :
    ((List.replicate N (0 : Nat)).set j amount).sum = amount := by
  have h := sum_set_add (List.replicate N 0) j amount
    (by rw [List.length_replicate]; exact hj)
  rw [replicate_zero_getD] at h
  simpa using h

theorem newCargo_getD {N j amount d : Nat} (hj : j < N) :
    ((List.replicate N (0 : Nat)).set j amount).getD d 0 =
      if j = d then amount else 0 := by
  rw [getD_set_nat, List.length_replicate]
  by_cases hc : j = d
  · rw [if_pos ⟨hc, hj⟩, if_pos hc]
  · rw [if_neg (fun hx => hc hx.1), if_neg hc, replicate_zero_getD]

theorem addEdge_spec {cap N : Nat} {edges edges' : List Edge} {i j amount : Nat}
    (h : addEdge cap N edges i j amount = some edges')
    (hi : i < N) (hj : j < N) (hij : i ≠ j) :
    edges' = edges ++ [⟨i, j, (List.replicate N 0).set j amount⟩] ∧
    amount ≤ cap ∧
    (∀ e ∈ edges, WFEdge cap N e → True) ∧
    WFEdge cap N ⟨i, j, (List.replicate N 0).set j amount⟩ ∧
    (∀ d, colSum edges' d =
      colSum edges d + (if d = j then amount else 0)) := by
  unfold addEdge at h
  by_cases hle : amount ≤ cap
  · rw [if_pos hle, Option.some_inj] at h
    refine ⟨h.symm, hle, fun _ _ _ => trivial, ?_, ?_⟩
    · refine ⟨hij, hi, hj, ?_, ?_, ?_⟩
      · rw [List.length_set, List.length_replicate]
      · show ((List.replicate N 0).set j amount).getD i 0 = 0
        rw [newCargo_getD hj, if_neg (fun hx => hij hx.symm)]
      · show ((List.replicate N 0).set j amount).sum ≤ cap
        rw [newCargo_sum hj]
        exact hle
    · intro d
      rw [← h, colSum_append_singleton]
      show colSum edges d + (if j = d then _ else 0) = _
      by_cases hd : d = j
      · rw [if_pos hd.symm, if_pos hd]
        congr 1
        show ((List.replicate N 0).set j amount).getD d 0 = amount
        rw [newCargo_getD hj, if_pos hd.symm]
      · rw [if_neg (fun hx => hd hx.symm), if_neg hd]
  · rw [if_neg hle] at h
    exact Option.noConfusion h

theorem bulkLoop_spec {cap N : Nat} : ∀ (fuel : Nat) (i j : Nat) (st st' : EState),
    bulkLoop cap N fuel i j st = some st' →
    EInv cap N st → i < N → j < N → i ≠ j →
    EInv cap N st' ∧
    st'.cs = st.cs ∧
    (∀ i' j', ¬(i' = i ∧ j' = j) → st'.crates i' j' = st.crates i' j') ∧
    st'.crates i j < cap ∧
    (∀ d, d < N → colSum st'.edges d + origColSum N st'.crates d =
      colSum st.edges d + origColSum N st.crates d) := by
  intro fuel
  induction fuel with
  | zero => intro i j st st' h; exact Option.noConfusion h
  | succ fuel IH =>
    intro i j st st' h hE hi hj hij
    rw [bulkLoop] at h
    by_cases hge : cap ≤ st.crates i j
    · rw [if_pos hge] at h
      simp only [Option.pure_def, Option.bind_eq_bind, Option.bind_eq_some] at h
      obtain ⟨edges1, hadd, hrec⟩ := h
      obtain ⟨heq, _, _, hWFnew, hcol⟩ := addEdge_spec hadd hi hj hij
      have hE1 : EInv cap N (⟨mset st.crates i j (st.crates i j - cap),
          edges1, st.cs⟩ : EState) := by
        refine ⟨?_, hE.2.1, ?_, ?_⟩
        · intro e he
          rw [heq] at he
          rcases List.mem_append.mp he with hx | hx
          · exact hE.1 e hx
          · rw [List.mem_singleton.mp hx]; exact hWFnew
        · intro p hp
          have hb := hE.2.2.1 p hp
          rw [heq]
          show p.1 < (st.edges ++ _).length ∧ p.2 < (st.edges ++ _).length
          rw [List.length_append]
          omega
        · show GoodCS edges1 st.cs
          rw [heq]
          exact GoodCS_append hE.2.2.2 hE.2.2.1
      obtain ⟨hEf, hcsf, hfrf, hltf, hconsf⟩ := IH i j _ st' hrec hE1 hi hj hij
      refine ⟨hEf, hcsf, ?_, hltf, ?_⟩
      · intro i' j' hne
        rw [hfrf i' j' hne]
        exact mset_ne st.crates _ hne
      · intro d hd
        have hA := hconsf d hd
        have hC := hcol d
        have hD := origColSum_mset st.crates i j (st.crates i j - cap) d hi
        simp only at hA hC hD
        by_cases hdj : d = j
        · simp only [if_pos hdj] at hC hD
          omega
        · simp only [if_neg hdj] at hC hD
          omega
    · rw [if_neg hge, Option.some_inj] at h
      subst h
      exact ⟨hE, rfl, fun _ _ _ => rfl, by omega, fun _ _ => rfl⟩

theorem transLoop_spec {cap N : Nat} : ∀ (fuel : Nat) (i j : Nat) (st st' : EState),
    transLoop cap N fuel i j st = some st' →
    EInv cap N st → i < N → j < N → i ≠ j →
    EInv cap N st' ∧
    (∀ i' j', ¬(i' = i ∧ j' = j) → st'.crates i' j' = st.crates i' j') ∧
    st'.crates i j ≤ st.crates i j ∧
    (∀ d, d < N → colSum st'.edges d + origColSum N st'.crates d =
      colSum st.edges d + origColSum N st.crates d) := by
  intro fuel
  induction fuel with
  | zero => intro i j st st' h; exact Option.noConfusion h
  | succ fuel IH =>
    intro i j st st' h hE hi hj hij
    rw [transLoop] at h
    by_cases hpos : 0 < st.crates i j
    · rw [if_pos hpos] at h
      match hfp : findPath cap N st.edges st.cs i j with
      | none => rw [hfp] at h; exact Option.noConfusion h
      | some none =>
        rw [hfp] at h
        rw [Option.some_inj] at h
        subst h
        exact ⟨hE, fun _ _ _ => rfl, Nat.le_refl _, fun _ _ => rfl⟩
      | some (some path) =>
        rw [hfp] at h
        simp only [Option.pure_def, Option.bind_eq_bind, Option.bind_eq_some] at h
        obtain ⟨pc, hpc, h⟩ := h
        obtain ⟨cs1, hcs1, hrec⟩ := h
        have hOK := findPath_some_pathOK hfp
        have hnd : path.Nodup := pathOK_nodup hOK
        have hne : path ≠ [] := pathOK_ne_nil hOK hij
        have hbnd : ∀ k ∈ path, k < st.edges.length := fun k hk => (hOK.2.2.1 k hk).1
        have hget : ∀ k ∈ path, ∃ e, st.edges.get? k = some e := by
          intro k hk
          cases hg : st.edges.get? k with
          | none => exact absurd (List.get?_eq_none.mp hg) (by
              have := hbnd k hk; omega)
          | some e => exact ⟨e, rfl⟩
        have hP : ∀ k ∈ path, ∃ e, st.edges.get? k = some e ∧
            e.cargo.sum + min pc (st.crates i j) ≤ cap ∧ e.i ≠ j := by
          intro k hk
          obtain ⟨e, hg⟩ := hget k hk
          have hgd : st.edges.getD k default = e := getD_of_get? hg
          have hcapk := (hOK.2.2.1 k hk).2
          have hpcle := pathCap_mem_le hpc k hk
          have hni := isPath_src_ne_endpoint hOK.1 hOK.2.1 k hk
          rw [hgd] at hcapk hpcle hni
          refine ⟨e, hg, ?_, hni⟩
          have hm : min pc (st.crates i j) ≤ pc := Nat.min_le_left _ _
          omega
        obtain ⟨hinv1, hb1, hgood1, _⟩ :=
          @commitCs_some_spec st.edges path st.cs cs1 hcs1 hE.2.1
            hE.2.2.1 hE.2.2.2 hbnd (isPath_chain' hOK.1) hnd hOK.2.2.2
        have hE1 : EInv cap N
            (⟨mset st.crates i j (st.crates i j - min pc (st.crates i j)),
              incEdges j (min pc (st.crates i j)) st.edges path, cs1⟩ : EState) := by
          refine ⟨incEdges_WF hE.1 hnd hj hP, hinv1, ?_, GoodCS_incEdges hgood1⟩
          intro p hp
          have hb := hb1 p hp
          show p.1 < (incEdges _ _ _ _).length ∧ p.2 < (incEdges _ _ _ _).length
          rw [incEdges_length]
          exact hb
        obtain ⟨hEf, hfrf, hlef, hconsf⟩ := IH i j _ st' hrec hE1 hi hj hij
        refine ⟨hEf, ?_, ?_, ?_⟩
        · intro i' j' hnex
          rw [hfrf i' j' hnex]
          exact mset_ne st.crates _ hnex
        · have h1 := hlef
          have h2 : mset st.crates i j
              (st.crates i j - min pc (st.crates i j)) i j =
              st.crates i j - min pc (st.crates i j) := mset_same _ _ _ _
          simp only at h1
          rw [h2] at h1
          omega
        · intro d hd
          have hA := hconsf d hd
          have hD := origColSum_mset st.crates i j
            (st.crates i j - min pc (st.crates i j)) d hi
          simp only at hA hD
          by_cases hdj : d = j
          · have hC := incEdges_colSum_eq j (min pc (st.crates i j)) path st.edges
              hnd (by
                intro k hk
                obtain ⟨e, hg⟩ := hget k hk
                refine ⟨e, hg, ?_⟩
                have hWFe := hE.1 e (List.get?_mem hg)
                rw [hWFe.2.2.2.1]
                rw [← hdj]
                exact hd)
            have hcount := pathOK_dest_count hOK hne
            rw [hcount] at hC
            simp only [if_pos hdj] at hD
            rw [hdj] at hA hD ⊢
            have hminle : min pc (st.crates i j) ≤ st.crates i j :=
              Nat.min_le_right _ _
            omega
          · have hC := incEdges_colSum_ne j (min pc (st.crates i j)) d hdj
              path st.edges hbnd
            simp only [if_neg hdj] at hD
            omega
    · rw [if_neg hpos, Option.some_inj] at h
      subst h
      exact ⟨hE, fun _ _ _ => rfl, Nat.le_refl _, fun _ _ => rfl⟩

theorem processPair_spec {cap N : Nat} {st st' : EState} {i j : Nat}
    (h : processPair cap N st i j = some st')
    (hE : EInv cap N st) (hi : i < N) (hj : j < N) (hij : i ≠ j) :
    EInv cap N st' ∧
    (∀ i' j', ¬(i' = i ∧ j' = j) → st'.crates i' j' = st.crates i' j') ∧
    st'.crates i j = 0 ∧
    (∀ d, d < N → colSum st'.edges d + origColSum N st'.crates d =
      colSum st.edges d + origColSum N st.crates d) := by
  unfold processPair at h
  simp only [Option.pure_def, Option.bind_eq_bind, Option.bind_eq_some] at h
  obtain ⟨st1, hbulk, h⟩ := h
  obtain ⟨st2, htrans, h⟩ := h
  obtain ⟨hE1, _, hfr1, hlt1, hcons1⟩ := bulkLoop_spec _ i j st st1 hbulk hE hi hj hij
  obtain ⟨hE2, hfr2, hle2, hcons2⟩ := transLoop_spec _ i j st1 st2 htrans hE1 hi hj hij
  by_cases hpos : 0 < st2.crates i j
  · rw [if_pos hpos] at h
    simp only [Option.pure_def, Option.bind_eq_bind, Option.bind_eq_some] at h
    obtain ⟨edges1, hadd, h⟩ := h
    rw [Option.some_inj] at h
    obtain ⟨heq, _, _, hWFnew, hcol⟩ := addEdge_spec hadd hi hj hij
    refine ⟨?_, ?_, ?_, ?_⟩
    · rw [← h]
      refine ⟨?_, hE2.2.1, ?_, ?_⟩
      · intro e he
        simp only at he
        rw [heq] at he
        rcases List.mem_append.mp he with hx | hx
        · exact hE2.1 e hx
        · rw [List.mem_singleton.mp hx]; exact hWFnew
      · intro p hp
        simp only at hp ⊢
        have hb := hE2.2.2.1 p hp
        rw [heq, List.length_append]
        omega
      · show GoodCS edges1 st2.cs
        rw [heq]
        exact GoodCS_append hE2.2.2.2 hE2.2.2.1
    · intro i' j' hne
      rw [← h]
      show mset st2.crates i j 0 i' j' = st.crates i' j'
      rw [mset_ne st2.crates _ hne, hfr2 i' j' hne, hfr1 i' j' hne]
    · rw [← h]
      exact mset_same _ _ _ _
    · intro d hd
      have hA := hcons1 d hd
      have hB := hcons2 d hd
      have hC := hcol d
      have hD := origColSum_mset st2.crates i j 0 d hi
      rw [← h]
      show colSum edges1 d + origColSum N (mset st2.crates i j 0) d = _
      by_cases hdj : d = j
      · simp only [if_pos hdj] at hC hD
        omega
      · simp only [if_neg hdj] at hC hD
        omega
  · rw [if_neg hpos, Option.some_inj] at h
    subst h
    refine ⟨hE2, ?_, by omega, ?_⟩
    · intro i' j' hne
      rw [hfr2 i' j' hne, hfr1 i' j' hne]
    · intro d hd
      have hA := hcons1 d hd
      have hB := hcons2 d hd
      omega

theorem processPair_zero {cap N : Nat} {st : EState} {i j : Nat}
    (hz : st.crates i j = 0) (hcap : 0 < cap) :
    processPair cap N st i j = some st := by
  unfold processPair
  have hb : bulkLoop cap N (st.crates i j + 1) i j st = some st := by
    rw [hz]
    rw [bulkLoop]
    rw [if_neg (by omega)]
  have ht : transLoop cap N (st.crates i j + 1) i j st = some st := by
    rw [hz]
    rw [transLoop]
    rw [if_neg (by omega)]
  rw [hb]
  simp only [Option.pure_def, Option.bind_eq_bind, Option.some_bind]
  rw [ht]
  simp only [Option.some_bind]
  rw [if_neg (by omega)]

theorem mem_insertDesc {key : Nat × Nat → Nat} {x p : Nat × Nat} :
    ∀ {l : List (Nat × Nat)}, p ∈ insertDesc key x l ↔ p = x ∨ p ∈ l := by
  intro l
  induction l with
  | nil => simp [insertDesc]
  | cons y ys IH =>
    simp only [insertDesc]
    by_cases hk : key x < key y
    · rw [if_pos hk]
      simp only [List.mem_cons, IH]
      tauto
    · rw [if_neg hk]
      simp only [List.mem_cons]

theorem mem_sortDesc {key : Nat × Nat → Nat} {p : Nat × Nat} :
    ∀ {l : List (Nat × Nat)}, p ∈ sortDesc key l ↔ p ∈ l := by
  intro l
  induction l with
  | nil => simp [sortDesc]
  | cons y ys IH =>
    show p ∈ insertDesc key y (sortDesc key ys) ↔ _
    rw [mem_insertDesc]
    simp only [List.mem_cons]
    rw [IH]

theorem mem_allPairs {N : Nat} {p : Nat × Nat} :
    p ∈ allPairs N ↔ p.1 < N ∧ p.2 < N := by
  unfold allPairs
  rw [List.mem_flatten]
  constructor
  · rintro ⟨l, hl, hpl⟩
    rw [List.mem_map] at hl
    obtain ⟨i, hi, hli⟩ := hl
    rw [← hli, List.mem_map] at hpl
    obtain ⟨j, hj, hpj⟩ := hpl
    rw [← hpj]
    exact ⟨List.mem_range.mp hi, List.mem_range.mp hj⟩
  · rintro ⟨h1, h2⟩
    refine ⟨(List.range N).map (fun j => (p.1, j)), ?_, ?_⟩
    · rw [List.mem_map]
      exact ⟨p.1, List.mem_range.mpr h1, rfl⟩
    · rw [List.mem_map]
      exact ⟨p.2, List.mem_range.mpr h2, rfl⟩

theorem mem_ijOrder {N : Nat} {crates : Nat → Nat → Nat} {p : Nat × Nat} :
    p ∈ ijOrder N crates ↔ p.1 < N ∧ p.2 < N := by
  unfold ijOrder
  rw [mem_sortDesc, mem_allPairs]

theorem planFold_spec {cap N : Nat} : ∀ (todo : List (Nat × Nat)) (st st' : EState),
    todo.foldlM (fun st ij => processPair cap N st ij.1 ij.2) st = some st' →
    0 < cap →
    (∀ p ∈ todo, (p : Nat × Nat).1 < N ∧ p.2 < N) →
    (∀ p ∈ todo, (p : Nat × Nat).1 = p.2 → st.crates p.1 p.2 = 0) →
    EInv cap N st →
    EInv cap N st' ∧
    (∀ i' j', (i', j') ∉ todo → st'.crates i' j' = st.crates i' j') ∧
    (∀ p ∈ todo, st'.crates (p : Nat × Nat).1 p.2 = 0) ∧
    (∀ d, d < N → colSum st'.edges d + origColSum N st'.crates d =
      colSum st.edges d + origColSum N st.crates d) := by
  intro todo
  induction todo with
  | nil =>
    intro st st' h _ _ _ hE
    simp only [List.foldlM_nil, Option.pure_def, Option.some_inj] at h
    subst h
    exact ⟨hE, fun _ _ _ => rfl, fun p hp => absurd hp (List.not_mem_nil p),
      fun _ _ => rfl⟩
  | cons q todo IH =>
    obtain ⟨qi, qj⟩ := q
    intro st st' h hcap hrange hdiag hE
    rw [List.foldlM_cons] at h
    simp only [Option.bind_eq_bind, Option.bind_eq_some] at h
    obtain ⟨st1, hq, hrest⟩ := h
    by_cases hqd : qi = qj
    · -- a diagonal pair is processed without effect (its demand is zero)
      have hz : st.crates qi qj = 0 :=
        hdiag (qi, qj) (List.mem_cons_self _ _) hqd
      rw [processPair_zero hz hcap, Option.some_inj] at hq
      subst hq
      obtain ⟨hEf, hfrf, hzf, hconsf⟩ := IH st st' hrest hcap
        (fun p hp => hrange p (List.mem_cons_of_mem _ hp))
        (fun p hp hpd => hdiag p (List.mem_cons_of_mem _ hp) hpd) hE
      refine ⟨hEf, ?_, ?_, hconsf⟩
      · intro i' j' hni
        exact hfrf i' j' (fun hx => hni (List.mem_cons_of_mem _ hx))
      · intro p hp
        rcases List.mem_cons.mp hp with rfl | hp
        · by_cases hmem : (qi, qj) ∈ todo
          · exact hzf (qi, qj) hmem
          · rw [hfrf qi qj hmem]
            exact hz
        · exact hzf p hp
    · obtain ⟨hi, hj⟩ := hrange (qi, qj) (List.mem_cons_self _ _)
      obtain ⟨hE1, hfr1, hz1, hcons1⟩ := processPair_spec hq hE hi hj hqd
      obtain ⟨hEf, hfrf, hzf, hconsf⟩ := IH st1 st' hrest hcap
        (fun p hp => hrange p (List.mem_cons_of_mem _ hp))
        (fun p hp hpd => by
          rw [hfr1 p.1 p.2 (fun hx => hqd (by rw [hx.1] at hpd; rw [hpd, hx.2]))]
          exact hdiag p (List.mem_cons_of_mem _ hp) hpd) hE1
      refine ⟨hEf, ?_, ?_, ?_⟩
      · intro i' j' hni
        rw [hfrf i' j' (fun hx => hni (List.mem_cons_of_mem _ hx))]
        exact hfr1 i' j' (fun hx =>
          hni (by rw [hx.1, hx.2]; exact List.mem_cons_self _ _))
      · intro p hp
        rcases List.mem_cons.mp hp with rfl | hp
        · by_cases hmem : (qi, qj) ∈ todo
          · exact hzf (qi, qj) hmem
          · rw [hfrf qi qj hmem]
            exact hz1
        · exact hzf p hp
      · intro d hd
        have hA := hconsf d hd
        have hB := hcons1 d hd
        omega

theorem planEdges_spec {cap N : Nat} {crates : Nat → Nat → Nat} {st : EState}
    (h : planEdges cap N crates = some st) (hcap : 0 < cap)
    (hWC : WFCrates N crates) :
    EInv cap N st ∧
    (∀ i j, i < N → j < N → st.crates i j = 0) ∧
    (∀ i j, ¬(i < N ∧ j < N) → st.crates i j = crates i j) ∧
    (∀ d, d < N → colSum st.edges d = origColSum N crates d) := by
  unfold planEdges at h
  have hE0 : EInv cap N (⟨crates, [], []⟩ : EState) := by
    refine ⟨fun e he => absurd he (List.not_mem_nil e),
      ⟨fun a b c hab _ => absurd hab (List.not_mem_nil _),
       fun a b hab => absurd hab (List.not_mem_nil _),
       fun a haa => List.not_mem_nil _ haa⟩,
      fun p hp => absurd hp (List.not_mem_nil p),
      fun p c hpc => absurd hpc (List.not_mem_nil _)⟩
  obtain ⟨hEf, hfrf, hzf, hconsf⟩ := planFold_spec (ijOrder N crates) _ st h hcap
    (fun p hp => mem_ijOrder.mp hp)
    (fun p hp hpd => by
      show crates p.1 p.2 = 0
      rw [← hpd]
      exact hWC p.1 (mem_ijOrder.mp hp).1)
    hE0
  have hzero : ∀ i j, i < N → j < N → st.crates i j = 0 := by
    intro i j hi hj
    exact hzf (i, j) (mem_ijOrder.mpr ⟨hi, hj⟩)
  refine ⟨hEf, hzero, ?_, ?_⟩
  · intro i j hx
    exact hfrf i j (fun hm => hx (mem_ijOrder.mp hm))
  · intro d hd
    have hc := hconsf d hd
    have hrem : origColSum N st.crates d = 0 := by
      unfold origColSum
      apply List.sum_eq_zero
      intro x hx
      rw [List.mem_map] at hx
      obtain ⟨i, hi, hxi⟩ := hx
      rw [← hxi]
      exact hzero i d (List.mem_range.mp hi) hd
    have hnil : colSum ([] : List Edge) d = 0 := rfl
    simp only at hc
    omega

theorem exC_diag_zero : WFCrates 2 exC := fun i _ => by
  show (if i = 0 ∧ i = 1 then 15 else 0) = 0
  rw [if_neg (by omega)]

/-- C1.  Conservation: on a well-formed instance (zero-diagonal demand,
positive capacity), for every destination city `d` the cargo bound for `d`
summed over all produced edges with head city `d` equals the total original
demand into `d`. -/
theorem C1_conservation {cap N : Nat} {crates : Nat → Nat → Nat} {st : EState}
    (h : planEdges cap N crates = some st) (hcap : 0 < cap)
    (hWC : WFCrates N crates) :
    ∀ d, d < N → colSum st.edges d = origColSum N crates d :=
  (planEdges_spec h hcap hWC).2.2.2

theorem C1_witness :
    (0 < 30 ∧ WFCrates 2 exC) ∧
    (planEdges 30 2 exC).elim False
      (fun st => colSum st.edges 1 = origColSum 2 exC 1) := by
  refine ⟨⟨by decide, exC_diag_zero⟩, ?_⟩
  obtain ⟨st, hst⟩ : ∃ st, planEdges 30 2 exC = some st := ⟨_, rfl⟩
  rw [hst]
  exact C1_conservation hst (by decide) exC_diag_zero 1 (by decide)

/-- C2.  Every edge produced by `plan_edges` on a well-formed instance is
well formed: source and destination differ, both are city indices, the
cargo vector has length `N`, its entry at the source city is zero, and its
total is at most the capacity — and this holds for the final cargo vectors,
i.e. after every increment a transshipment commit performed. -/
theorem C2_edge_well_formed {cap N : Nat} {crates : Nat → Nat → Nat}
    {st : EState} (h : planEdges cap N crates = some st) (hcap : 0 < cap)
    (hWC : WFCrates N crates) :
    ∀ e ∈ st.edges, e.i ≠ e.j ∧ e.i < N ∧ e.j < N ∧ e.cargo.length = N ∧
      e.cargo.getD e.i 0 = 0 ∧ e.cargo.sum ≤ cap :=
  fun e he => (planEdges_spec h hcap hWC).1.1 e he

theorem C2_witness :
    (0 < 30 ∧ WFCrates 2 exC) ∧
    (planEdges 30 2 exC).elim False
      (fun st => ∀ e ∈ st.edges, e.i ≠ e.j ∧ e.i < 2 ∧ e.j < 2 ∧
        e.cargo.length = 2 ∧ e.cargo.getD e.i 0 = 0 ∧ e.cargo.sum ≤ 30) := by
  refine ⟨⟨by decide, exC_diag_zero⟩, ?_⟩
  obtain ⟨st, hst⟩ : ∃ st, planEdges 30 2 exC = some st := ⟨_, rfl⟩
  rw [hst]
  exact C2_edge_well_formed hst (by decide) exC_diag_zero

/-- C8 (amended).  `plan_edges` consumes the caller's demand matrix in
place: on a well-formed instance every in-range entry of the matrix caught
in the returned state is zero — the caller's matrix is observed fully
decremented, not preserved.  (The original claim, that the matrix is
unchanged, is refuted by the counterexample recorded for this claim.) -/
theorem C8_in_place_consumption {cap N : Nat} {crates : Nat → Nat → Nat}
    {st : EState} (h : planEdges cap N crates = some st) (hcap : 0 < cap)
    (hWC : WFCrates N crates) :
    ∀ i j, i < N → j < N → st.crates i j = 0 :=
  (planEdges_spec h hcap hWC).2.1

theorem C8_witness :
    (0 < 30 ∧ WFCrates 2 exC) ∧
    (planEdges 30 2 exC).elim False
      (fun st => ∀ i j, i < 2 → j < 2 → st.crates i j = 0) := by
  refine ⟨⟨by decide, exC_diag_zero⟩, ?_⟩
  obtain ⟨st, hst⟩ : ∃ st, planEdges 30 2 exC = some st := ⟨_, rfl⟩
  rw [hst]
  exact C8_in_place_consumption hst (by decide) exC_diag_zero

theorem mem_pairGrid {l1 l2 : List Nat} {p : Nat × Nat} :
    p ∈ pairGrid l1 l2 ↔ p.1 ∈ l1 ∧ p.2 ∈ l2 := by
  unfold pairGrid
  rw [List.mem_flatten]
  constructor
  · rintro ⟨l, hl, hpl⟩
    rw [List.mem_map] at hl
    obtain ⟨u, hu, hlu⟩ := hl
    rw [← hlu, List.mem_map] at hpl
    obtain ⟨w, hw, hpw⟩ := hpl
    rw [← hpw]
    exact ⟨hu, hw⟩
  · rintro ⟨h1, h2⟩
    refine ⟨l2.map (fun w => (p.1, w)), ?_, ?_⟩
    · rw [List.mem_map]
      exact ⟨p.1, h1, rfl⟩
    · rw [List.mem_map]
      exact ⟨p.2, h2, rfl⟩

theorem pairGrid_length : ∀ (l1 l2 : List Nat),
    (pairGrid l1 l2).length = l1.length * l2.length := by
  intro l1 l2
  induction l1 with
  | nil => simp [pairGrid]
  | cons u l1 IH =>
    show (l2.map (fun w => (u, w)) ++ pairGrid l1 l2).length = _
    rw [List.length_append, List.length_map, IH, List.length_cons]
    ring

theorem mem_predList {cs : CSet} {a x : Nat} :
    x ∈ predList cs a ↔ (x = a ∨ (x, a) ∈ cs) := by
  unfold predList
  rw [List.mem_cons, List.mem_map]
  constructor
  · rintro (h | ⟨p, hp, hx⟩)
    · exact Or.inl h
    · rw [List.mem_filter, decide_eq_true_eq] at hp
      refine Or.inr ?_
      have hpa : p.2 = a := hp.2
      have : p = (x, a) := by
        obtain ⟨p1, p2⟩ := p
        simp only at hx hpa
        rw [hx, hpa]
      rw [← this]
      exact hp.1
  · rintro (h | h)
    · exact Or.inl h
    · refine Or.inr ⟨(x, a), ?_, rfl⟩
      rw [List.mem_filter, decide_eq_true_eq]
      exact ⟨h, rfl⟩

theorem mem_succList {cs : CSet} {b y : Nat} :
    y ∈ succList cs b ↔ (y = b ∨ (b, y) ∈ cs) := by
  unfold succList
  rw [List.mem_cons, List.mem_map]
  constructor
  · rintro (h | ⟨p, hp, hy⟩)
    · exact Or.inl h
    · rw [List.mem_filter, decide_eq_true_eq] at hp
      refine Or.inr ?_
      have hpb : p.1 = b := hp.2
      have : p = (b, y) := by
        obtain ⟨p1, p2⟩ := p
        simp only at hy hpb
        rw [hy, hpb]
      rw [← this]
      exact hp.1
  · rintro (h | h)
    · exact Or.inl h
    · refine Or.inr ⟨(b, y), ?_, rfl⟩
      rw [List.mem_filter, decide_eq_true_eq]
      exact ⟨h, rfl⟩

theorem length_filter_imp {α : Type} (p q : α → Bool) :
    ∀ (l : List α), (∀ x ∈ l, q x = true → p x = true) →
    (l.filter q).length ≤ (l.filter p).length := by
  intro l
  induction l with
  | nil => intro _; exact Nat.le_refl 0
  | cons x l IH =>
    intro h
    have hIH := IH (fun y hy => h y (List.mem_cons_of_mem x hy))
    rw [List.filter_cons, List.filter_cons]
    cases hq : q x with
    | true =>
      rw [h x (List.mem_cons_self x l) hq]
      simp only [if_true, List.length_cons]
      omega
    | false =>
      cases hp : p x with
      | true => simp only [if_true, if_false, Bool.false_eq_true, List.length_cons]; omega
      | false => simp only [if_false, Bool.false_eq_true]; omega

theorem length_filter_strict {α : Type} (p q : α → Bool) :
    ∀ (l : List α) (x : α), x ∈ l → p x = true → q x = false →
    (∀ y ∈ l, q y = true → p y = true) →
    (l.filter q).length < (l.filter p).length := by
  intro l
  induction l with
  | nil => intro x hx; exact absurd hx (List.not_mem_nil x)
  | cons z l IH =>
    intro x hx hp hq h
    rw [List.filter_cons, List.filter_cons]
    rcases List.mem_cons.mp hx with heq | hx
    · rw [heq] at hp hq
      rw [hp, hq]
      simp only [if_true, if_false, Bool.false_eq_true, List.length_cons]
      have := length_filter_imp p q l (fun y hy => h y (List.mem_cons_of_mem z hy))
      omega
    · have hIH := IH x hx hp hq (fun y hy => h y (List.mem_cons_of_mem z hy))
      cases hqz : q z with
      | true =>
        rw [h z (List.mem_cons_self z l) hqz]
        simp only [if_true, List.length_cons]
        omega
      | false =>
        cases hpz : p z with
        | true => simp only [if_true, if_false, Bool.false_eq_true, List.length_cons]; omega
        | false => simp only [if_false, Bool.false_eq_true]; omega

theorem missing_lt {cs0 : CSet} {a b : Nat} {cs cs' : CSet} {u w : Nat}
    (hu : u ∈ predList cs0 a) (hw : w ∈ succList cs0 b)
    (hnotin : (u, w) ∉ cs) (hin : (u, w) ∈ cs')
    (hsub : ∀ p ∈ cs, p ∈ cs') :
    missing cs0 a b cs' < missing cs0 a b cs := by
  apply length_filter_strict _ _ _ (u, w)
  · exact mem_pairGrid.mpr ⟨hu, hw⟩
  · exact decide_eq_true hnotin
  · exact decide_eq_false (fun hni => hni hin)
  · intro y _ hy
    rw [decide_eq_true_eq] at hy
    exact decide_eq_true (fun hm => hy (hsub y hm))

theorem missing_le {cs0 : CSet} {a b : Nat} {cs : CSet} :
    missing cs0 a b cs ≤ (cs0.length + 1) * (cs0.length + 1) := by
  unfold missing
  calc ((pairGrid (predList cs0 a) (succList cs0 b)).filter _).length
      ≤ (pairGrid (predList cs0 a) (succList cs0 b)).length :=
        List.length_filter_le _ _
    _ = (predList cs0 a).length * (succList cs0 b).length := pairGrid_length _ _
    _ ≤ (cs0.length + 1) * (cs0.length + 1) := by
        apply Nat.mul_le_mul
        · show ((cs0.filter _).map Prod.fst).length + 1 ≤ cs0.length + 1
          rw [List.length_map]
          exact Nat.add_le_add_right (List.length_filter_le _ _) 1
        · show ((cs0.filter _).map Prod.snd).length + 1 ≤ cs0.length + 1
          rw [List.length_map]
          exact Nat.add_le_add_right (List.length_filter_le _ _) 1

theorem ac_success {cs0 : CSet} {a b : Nat} (htc : TransClosed cs0)
    (hba : (b, a) ∉ cs0) (hab : a ≠ b) :
    ∀ (n : Nat), ∀ (fuel : Nat) (cs : CSet) (a' b' : Nat),
      missing cs0 a b cs ≤ n → n + 1 ≤ fuel →
      (a' = a ∨ (a', a) ∈ cs0) → (b' = b ∨ (b, b') ∈ cs0) →
      (∀ p ∈ cs0, p ∈ cs) →
      (∀ p : Nat × Nat, p ∈ cs →
        p ∈ cs0 ∨ ((p.1 = a ∨ (p.1, a) ∈ cs0) ∧ (p.2 = b ∨ (b, p.2) ∈ cs0))) →
      ∃ cs', addConstraint fuel cs a' b' = some cs' := by
  intro n
  induction n using Nat.strong_induction_on with
  | _ n IH =>
  intro fuel cs a' b' hmiss hfuel hUa hWb hsub hT
  have hUW : ∀ z, (z = a ∨ (z, a) ∈ cs0) → (z = b ∨ (b, z) ∈ cs0) → False :=
    ac_factors_disjoint htc hba hab
  have hba' : (b', a') ∉ cs := by
    intro hmem
    rcases hT _ hmem with h0 | ⟨hUb', _⟩
    · have hbb' : (b, a') ∈ cs0 := by
        rcases hWb with he | he
        · rw [← he]; exact h0
        · exact htc b b' a' he h0
      rcases hUa with he | he
      · rw [he] at hbb'; exact hba hbb'
      · exact hba (htc b a' a hbb' he)
    · exact hUW b' hUb' hWb
  have hab' : a' ≠ b' := fun he => hUW a' hUa (he ▸ hWb)
  cases fuel with
  | zero => omega
  | succ f =>
  rw [addConstraint]
  rw [if_neg hba', if_neg hab']
  by_cases hmem : (a', b') ∈ cs
  · rw [if_pos hmem]; exact ⟨cs, rfl⟩
  rw [if_neg hmem]
  have hU' : a' ∈ predList cs0 a := mem_predList.mpr hUa
  have hW' : b' ∈ succList cs0 b := mem_succList.mpr hWb
  have hUclose : ∀ x u, (u = a ∨ (u, a) ∈ cs0) → (x, u) ∈ cs0 →
      (x = a ∨ (x, a) ∈ cs0) := by
    rintro x u (rfl | hu) hxu
    · exact Or.inr hxu
    · exact Or.inr (htc x u a hxu hu)
  have hWclose : ∀ w y, (w = b ∨ (b, w) ∈ cs0) → (w, y) ∈ cs0 →
      (y = b ∨ (b, y) ∈ cs0) := by
    rintro w y (rfl | hw) hwy
    · exact Or.inr hwy
    · exact Or.inr (htc b w y hw hwy)
  have hfold : ∀ (l : List (Nat × Nat)) (s : CSet),
      (∀ p : Nat × Nat, p ∈ l →
        p ∈ cs0 ∨ ((p.1 = a ∨ (p.1, a) ∈ cs0) ∧ (p.2 = b ∨ (b, p.2) ∈ cs0))) →
      (∀ p ∈ cs, p ∈ s) →
      (∀ p : Nat × Nat, p ∈ s →
        p ∈ cs0 ∨ ((p.1 = a ∨ (p.1, a) ∈ cs0) ∧ (p.2 = b ∨ (b, p.2) ∈ cs0))) →
      (a', b') ∈ s →
      ∃ s', l.foldlM (acStep (addConstraint f) a' b') s = some s' := by
    intro l
    induction l with
    | nil => intro s _ _ _ _; exact ⟨s, rfl⟩
    | cons x l IHl =>
      intro s hl hcssub hTs hmems
      have hmeas : missing cs0 a b s < n := by
        have hlt := missing_lt hU' hW' hmem hmems hcssub
        omega
      have hcall1 : ∃ s1,
          (if x.1 = b' then addConstraint f s a' x.2 else some s) = some s1 ∧
          (∀ p ∈ cs, p ∈ s1) ∧
          (∀ p : Nat × Nat, p ∈ s1 →
            p ∈ cs0 ∨ ((p.1 = a ∨ (p.1, a) ∈ cs0) ∧ (p.2 = b ∨ (b, p.2) ∈ cs0))) ∧
          (a', b') ∈ s1 := by
        by_cases h1 : x.1 = b'
        · rw [if_pos h1]
          have hWx2 : x.2 = b ∨ (b, x.2) ∈ cs0 := by
            rcases hl x (List.mem_cons_self x l) with h0 | ⟨_, hw⟩
            · have hx0 : (x.1, x.2) ∈ cs0 := by rw [Prod.mk.eta]; exact h0
              rw [h1] at hx0
              rcases hWb with he | he
              · rw [he] at hx0; exact Or.inr hx0
              · exact Or.inr (htc b b' x.2 he hx0)
            · exact hw
          obtain ⟨s1, hs1⟩ := IH (missing cs0 a b s) hmeas f s a' x.2
            (Nat.le_refl _) (by omega) hUa hWx2
            (fun p hp => hcssub p (hsub p hp)) hTs
          refine ⟨s1, hs1, fun p hp => (ac_mono f s a' x.2 s1 hs1).1 p (hcssub p hp),
            @ac_upper cs0 (fun x => x = a ∨ (x, a) ∈ cs0)
              (fun y => y = b ∨ (b, y) ∈ cs0) hUclose hWclose f s a' x.2 s1
              hUa hWx2 hTs hs1,
            (ac_mono f s a' x.2 s1 hs1).1 _ hmems⟩
        · rw [if_neg h1]
          exact ⟨s, rfl, hcssub, hTs, hmems⟩
      obtain ⟨s1, hif1, hcs1, hT1, hm1⟩ := hcall1
      have hcall2 : ∃ s2,
          (if x.2 = a' then addConstraint f s1 x.1 b' else some s1) = some s2 ∧
          (∀ p ∈ cs, p ∈ s2) ∧
          (∀ p : Nat × Nat, p ∈ s2 →
            p ∈ cs0 ∨ ((p.1 = a ∨ (p.1, a) ∈ cs0) ∧ (p.2 = b ∨ (b, p.2) ∈ cs0))) ∧
          (a', b') ∈ s2 := by
        by_cases h2 : x.2 = a'
        · rw [if_pos h2]
          have hUx1 : x.1 = a ∨ (x.1, a) ∈ cs0 := by
            rcases hl x (List.mem_cons_self x l) with h0 | ⟨hu, _⟩
            · have hx0 : (x.1, x.2) ∈ cs0 := by rw [Prod.mk.eta]; exact h0
              rw [h2] at hx0
              rcases hUa with he | he
              · rw [he] at hx0; exact Or.inr hx0
              · exact Or.inr (htc x.1 a' a hx0 he)
            · exact hu
          have hmeas1 : missing cs0 a b s1 < n := by
            have hlt := missing_lt hU' hW' hmem hm1 hcs1
            omega
          obtain ⟨s2, hs2⟩ := IH (missing cs0 a b s1) hmeas1 f s1 x.1 b'
            (Nat.le_refl _) (by omega) hUx1 hWb
            (fun p hp => hcs1 p (hsub p hp)) hT1
          refine ⟨s2, hs2, fun p hp => (ac_mono f s1 x.1 b' s2 hs2).1 p (hcs1 p hp),
            @ac_upper cs0 (fun x => x = a ∨ (x, a) ∈ cs0)
              (fun y => y = b ∨ (b, y) ∈ cs0) hUclose hWclose f s1 x.1 b' s2
              hUx1 hWb hT1 hs2,
            (ac_mono f s1 x.1 b' s2 hs2).1 _ hm1⟩
        · rw [if_neg h2]
          exact ⟨s1, rfl, hcs1, hT1, hm1⟩
      obtain ⟨s2, hif2, hcs2, hT2, hm2⟩ := hcall2
      obtain ⟨sf, hsf⟩ := IHl s2 (fun p hp => hl p (List.mem_cons_of_mem x hp))
        hcs2 hT2 hm2
      refine ⟨sf, ?_⟩
      rw [List.foldlM_cons]
      have hstep : acStep (addConstraint f) a' b' s x = some s2 := by
        unfold acStep
        simp only [Option.pure_def, Option.bind_eq_bind]
        by_cases h1 : x.1 = b' <;> by_cases h2 : x.2 = a'
        · rw [if_pos h1] at hif1
          rw [if_pos h2] at hif2
          simp only [if_pos h1, if_pos h2, Option.bind_eq_some]
          exact ⟨s1, hif1, hif2⟩
        · rw [if_pos h1] at hif1
          rw [if_neg h2] at hif2
          simp only [if_pos h1, if_neg h2, Option.bind_eq_some]
          exact ⟨s1, hif1, hif2⟩
        · rw [if_neg h1, Option.some_inj] at hif1
          rw [if_pos h2] at hif2
          simp only [if_neg h1, if_pos h2, Option.some_bind]
          rw [hif1]
          exact hif2
        · rw [if_neg h1, Option.some_inj] at hif1
          rw [if_neg h2] at hif2
          simp only [if_neg h1, if_neg h2, Option.some_bind]
          rw [hif1]
          exact hif2
      rw [hstep]
      simp only [Option.bind_eq_bind, Option.some_bind]
      exact hsf
  show ∃ cs', ((a', b') :: cs).foldlM (acStep (addConstraint f) a' b')
    ((a', b') :: cs) = some cs'
  have hTsnap : ∀ p : Nat × Nat, p ∈ (a', b') :: cs →
      p ∈ cs0 ∨ ((p.1 = a ∨ (p.1, a) ∈ cs0) ∧ (p.2 = b ∨ (b, p.2) ∈ cs0)) := by
    intro p hp
    rcases List.mem_cons.mp hp with he | hp
    · rw [he]; exact Or.inr ⟨hUa, hWb⟩
    · exact hT p hp
  exact hfold ((a', b') :: cs) ((a', b') :: cs) hTsnap
    (fun p hp => List.mem_cons_of_mem _ hp) hTsnap (List.mem_cons_self _ _)

theorem ac_total {cs : CSet} {a b : Nat} (hinv : CsInv cs) (hba : (b, a) ∉ cs)
    (hab : a ≠ b) : ∃ cs', addConstraint (acFuel cs) cs a b = some cs' := by
  have hbound : missing cs a b cs + 1 ≤ acFuel cs := by
    have h1 : missing cs a b cs ≤ (cs.length + 1) * (cs.length + 1) := missing_le
    show _ + 1 ≤ (cs.length + 2) * (cs.length + 2)
    nlinarith
  exact ac_success hinv.1 hba hab (missing cs a b cs) (acFuel cs) cs a b
    (Nat.le_refl _) hbound (Or.inl rfl) (Or.inl rfl) (fun p hp => hp)
    (fun p hp => Or.inl hp)

theorem commitCs_total : ∀ (P : List Nat) (cs : CSet), CsInv cs → P.Nodup →
    P.Pairwise (fun x y => (y, x) ∉ cs) →
    ∃ cs', commitCs P cs = some cs' := by
  intro P
  induction P with
  | nil => intro cs _ _ _; exact ⟨cs, rfl⟩
  | cons p rest IH =>
    intro cs hinv hnd hpair
    cases rest with
    | nil => exact ⟨cs, rfl⟩
    | cons q rest' =>
      have hba : (q, p) ∉ cs :=
        (List.pairwise_cons.mp hpair).1 q (List.mem_cons_self q rest')
      have hab : p ≠ q := fun he =>
        (List.nodup_cons.mp hnd).1 (he ▸ List.mem_cons_self q rest')
      obtain ⟨cs1, hadd⟩ := ac_total hinv hba hab
      have hinv1 : CsInv cs1 := csInv_add hinv hadd
      have hspec := ac_spec hinv.1 hadd
      have hpnotin : p ∉ q :: rest' := (List.nodup_cons.mp hnd).1
      have hheadpairs : ∀ y ∈ q :: rest', (y, p) ∉ cs :=
        (List.pairwise_cons.mp hpair).1
      have hpair1 : (q :: rest').Pairwise (fun x y => (y, x) ∉ cs1) := by
        refine List.Pairwise.imp_of_mem ?_ (List.pairwise_cons.mp hpair).2
        intro x y hx hy hR hmem
        rw [hspec] at hmem
        rcases hmem with hmem | ⟨hU, hW⟩
        · exact hR hmem
        · simp only at hU hW
          rcases hU with h1 | h1
          · exact hpnotin (h1 ▸ hy)
          · exact hheadpairs y hy h1
      obtain ⟨cs', hrest⟩ := IH cs1 hinv1 (List.nodup_cons.mp hnd).2 hpair1
      refine ⟨cs', ?_⟩
      rw [commitCs]
      simp only [Option.pure_def, Option.bind_eq_bind, Option.bind_eq_some]
      exact ⟨cs1, hadd, hrest⟩

theorem pathCap_total {cap : Nat} {edges : List Edge} : ∀ {L : List Nat},
    L ≠ [] → (∀ e ∈ L, (edges.getD e default).cargo.sum < cap) →
    ∃ pc, pathCap cap edges L = some pc ∧ 1 ≤ pc := by
  intro L
  induction L with
  | nil => intro h _; exact absurd rfl h
  | cons e0 rest IH =>
    intro _ hlt
    cases rest with
    | nil =>
      refine ⟨cap - (edges.getD e0 default).cargo.sum, rfl, ?_⟩
      have := hlt e0 (List.mem_cons_self e0 [])
      omega
    | cons e1 rest' =>
      obtain ⟨m, hm, hm1⟩ := IH (List.cons_ne_nil e1 rest')
        (fun e he => hlt e (List.mem_cons_of_mem _ he))
      refine ⟨min (cap - (edges.getD e0 default).cargo.sum) m, ?_, ?_⟩
      · simp only [pathCap]
        rw [hm, Option.map_some']
      · have h0 := hlt e0 (List.mem_cons_self e0 _)
        refine Nat.le_min.mpr ⟨by omega, hm1⟩

theorem length_filter_lt {α : Type} (q : α → Bool) :
    ∀ (l : List α) (x : α), x ∈ l → q x = false →
    (l.filter q).length < l.length := by
  intro l
  induction l with
  | nil => intro x hx; exact absurd hx (List.not_mem_nil x)
  | cons z l IH =>
    intro x hx hqx
    rw [List.filter_cons]
    rcases List.mem_cons.mp hx with heq | hx
    · rw [heq] at hqx
      rw [hqx]
      simp only [Bool.false_eq_true, if_false, List.length_cons]
      have := List.length_filter_le q l
      omega
    · have hIH := IH x hx hqx
      cases hqz : q z with
      | true => simp only [if_true, List.length_cons]; omega
      | false => simp only [Bool.false_eq_true, if_false, List.length_cons]; omega

theorem length_filter_update {l : List Nat} {j : Nat} (p q : Nat → Bool) :
    l.Nodup → j ∈ l → p j = true → q j = false →
    (∀ x, x ≠ j → p x = q x) →
    (l.filter q).length + 1 = (l.filter p).length := by
  induction l with
  | nil => intro _ hj; exact absurd hj (List.not_mem_nil j)
  | cons z l IH =>
    intro hnd hj hpj hqj hagree
    rw [List.filter_cons, List.filter_cons]
    rcases List.mem_cons.mp hj with heq | hj'
    · rw [← heq, hpj, hqj]
      simp only [if_true, Bool.false_eq_true, if_false, List.length_cons]
      have hznotin : j ∉ l := heq ▸ (List.nodup_cons.mp hnd).1
      have hcong : l.filter q = l.filter p := by
        apply List.filter_congr
        intro x hx
        exact (hagree x (fun he => hznotin (he ▸ hx))).symm
      rw [hcong]
    · have hzj : z ≠ j := fun he => (List.nodup_cons.mp hnd).1 (he ▸ hj')
      have hIH := IH (List.nodup_cons.mp hnd).2 hj' hpj hqj hagree
      rw [← hagree z hzj]
      cases hpz : p z with
      | true => simp only [if_true, List.length_cons]; omega
      | false => simp only [Bool.false_eq_true, if_false]; omega

theorem unass_update {N j : Nat} {paths : Nat → Option (List Nat)}
    {L : List Nat} (hj : j < N) (hnone : paths j = none) :
    unass N (Function.update paths j (some L)) + 1 = unass N paths := by
  unfold unass
  apply length_filter_update
  · exact List.nodup_range N
  · exact List.mem_range.mpr hj
  · rw [hnone]; rfl
  · rw [Function.update_same]; rfl
  · intro x hx
    rw [Function.update_noteq hx]

theorem fpFold_total {cap : Nat} {cs : CSet} {c : Nat} {pathToC : List Nat}
    {N : Nat} :
    ∀ (l : List (Nat × Edge)) (st st' : (Nat → Option (List Nat)) × List Nat),
      l.foldl (fpTry cap cs c pathToC) st = st' →
      (∀ pe ∈ l, (pe : Nat × Edge).2.j < N) →
      (∀ q ∈ st.2, st.1 q ≠ none) →
      (∀ q ∈ st'.2, st'.1 q ≠ none) ∧
      st'.2.length + unass N st'.1 = st.2.length + unass N st.1 ∧
      (∀ q, st.1 q ≠ none → st'.1 q ≠ none) := by
  intro l
  induction l with
  | nil =>
    intro st st' h _ hq
    rw [List.foldl_nil] at h
    subst h
    exact ⟨hq, rfl, fun _ hqn => hqn⟩
  | cons pe l IH =>
    intro st st' h hlt hq
    rw [List.foldl_cons] at h
    have hstep : (∀ q ∈ (fpTry cap cs c pathToC st pe).2,
          (fpTry cap cs c pathToC st pe).1 q ≠ none) ∧
        (fpTry cap cs c pathToC st pe).2.length +
          unass N (fpTry cap cs c pathToC st pe).1 =
          st.2.length + unass N st.1 ∧
        (∀ q, st.1 q ≠ none → (fpTry cap cs c pathToC st pe).1 q ≠ none) := by
      unfold fpTry
      by_cases hcond : pe.2.i = c ∧ st.1 pe.2.j = none ∧ pe.2.cargo.sum < cap ∧
          (∀ p ∈ pathToC, (pe.1, p) ∉ cs)
      · rw [if_pos hcond]
        have hjN : pe.2.j < N := hlt pe (List.mem_cons_self pe l)
        refine ⟨?_, ?_, ?_⟩
        · intro q hqm
          dsimp only at hqm ⊢
          rcases List.mem_append.mp hqm with hx | hx
          · rw [Function.update_apply]
            by_cases he : q = pe.2.j
            · rw [if_pos he]; exact fun hc => Option.noConfusion hc
            · rw [if_neg he]; exact hq q hx
          · rw [List.mem_singleton.mp hx, Function.update_same]
            exact fun hc => Option.noConfusion hc
        · dsimp only
          rw [List.length_append]
          have hu := unass_update (N := N) (L := pathToC ++ [pe.1]) hjN hcond.2.1
          simp only [List.length_singleton]
          omega
        · intro q hqn
          dsimp only
          rw [Function.update_apply]
          by_cases he : q = pe.2.j
          · rw [if_pos he]; exact fun hc => Option.noConfusion hc
          · rw [if_neg he]; exact hqn
      · rw [if_neg hcond]
        exact ⟨hq, rfl, fun _ hqn => hqn⟩
    obtain ⟨h1, h2, h3⟩ := hstep
    obtain ⟨g1, g2, g3⟩ := IH _ st' h
      (fun pe' hpe' => hlt pe' (List.mem_cons_of_mem _ hpe')) h1
    exact ⟨g1, by omega, fun q hqn => g3 q (h3 q hqn)⟩

theorem fpLoop_total {cap : Nat} {edges : List Edge} {cs : CSet} {N : Nat}
    (hedge : ∀ e ∈ edges, e.j < N) :
    ∀ (fuel : Nat) (paths : Nat → Option (List Nat)) (queue : List Nat),
      (∀ q ∈ queue, paths q ≠ none) →
      queue.length + unass N paths < fuel →
      ∃ paths', fpLoop cap edges cs fuel paths queue = some paths' := by
  intro fuel
  induction fuel with
  | zero =>
    intro paths queue hq hF
    cases queue with
    | nil => exact ⟨paths, rfl⟩
    | cons c queue' => simp only [List.length_cons] at hF; omega
  | succ f IH =>
    intro paths queue hq hF
    cases queue with
    | nil => exact ⟨paths, rfl⟩
    | cons c queue' =>
      rw [fpLoop]
      match hc : paths c with
      | none => exact absurd hc (hq c (List.mem_cons_self c queue'))
      | some pathToC =>
        obtain ⟨h1, h2, h3⟩ := fpFold_total (N := N) edges.enum (paths, queue')
          (edges.enum.foldl (fpTry cap cs c pathToC) (paths, queue')) rfl
          (fun pe hpe => hedge pe.2
            (List.get?_mem (List.mem_enum_iff_get?.mp hpe)))
          (fun q hqm => hq q (List.mem_cons_of_mem _ hqm))
        have hF' : (edges.enum.foldl (fpTry cap cs c pathToC)
            (paths, queue')).2.length +
            unass N (edges.enum.foldl (fpTry cap cs c pathToC)
              (paths, queue')).1 < f := by
          simp only at h2
          simp only [List.length_cons] at hF
          omega
        obtain ⟨paths', hp'⟩ := IH _ _ h1 hF'
        exact ⟨paths', hp'⟩

theorem findPath_total {cap N : Nat} {edges : List Edge} {cs : CSet} {a b : Nat}
    (ha : a < N) (hedge : ∀ e ∈ edges, e.j < N) :
    ∃ r, findPath cap N edges cs a b = some r := by
  unfold findPath
  have hinit : ∀ q ∈ [a],
      (fun c => if c = a then some ([] : List Nat) else none) q ≠ none := by
    intro q hqm
    rw [List.mem_singleton.mp hqm]
    dsimp only
    rw [if_pos rfl]
    exact fun hc => Option.noConfusion hc
  have hu : unass N (fun c => if c = a then some ([] : List Nat) else none) < N := by
    unfold unass
    have h := length_filter_lt
      (fun c => ((fun c => if c = a then some ([] : List Nat) else none) c).isNone)
      (List.range N) a (List.mem_range.mpr ha)
      (by dsimp only; rw [if_pos rfl]; rfl)
    rw [List.length_range] at h
    exact h
  obtain ⟨paths', hp'⟩ := fpLoop_total hedge (N + 1) _ [a] hinit
    (by simp only [List.length_singleton]; omega)
  refine ⟨paths' b, ?_⟩
  rw [hp', Option.map_some']

theorem bulkLoop_total {cap N : Nat} (hcap : 0 < cap) :
    ∀ (fuel i j : Nat) (st : EState), st.crates i j < fuel →
    ∃ st', bulkLoop cap N fuel i j st = some st' := by
  intro fuel
  induction fuel with
  | zero => intro i j st h; omega
  | succ f IH =>
    intro i j st h
    rw [bulkLoop]
    by_cases hge : cap ≤ st.crates i j
    · rw [if_pos hge]
      have hadd : addEdge cap N st.edges i j cap =
          some (st.edges ++ [⟨i, j, (List.replicate N 0).set j cap⟩]) := by
        unfold addEdge
        rw [if_pos (Nat.le_refl cap)]
      obtain ⟨st', hst'⟩ := IH i j
        (⟨mset st.crates i j (st.crates i j - cap),
          st.edges ++ [⟨i, j, (List.replicate N 0).set j cap⟩], st.cs⟩ : EState)
        (by
          show mset st.crates i j (st.crates i j - cap) i j < f
          rw [mset_same]
          omega)
      refine ⟨st', ?_⟩
      simp only [Option.pure_def, Option.bind_eq_bind, Option.bind_eq_some]
      exact ⟨_, hadd, hst'⟩
    · rw [if_neg hge]
      exact ⟨st, rfl⟩

theorem transLoop_total {cap N : Nat} : ∀ (fuel i j : Nat) (st : EState),
    st.crates i j < fuel → EInv cap N st → i < N → j < N → i ≠ j →
    ∃ st', transLoop cap N fuel i j st = some st' := by
  intro fuel
  induction fuel with
  | zero => intro i j st h _ _ _ _; omega
  | succ f IH =>
    intro i j st h hE hi hj hij
    rw [transLoop]
    by_cases hpos : 0 < st.crates i j
    · rw [if_pos hpos]
      have hedge : ∀ e ∈ st.edges, e.j < N := fun e he => (hE.1 e he).2.2.1
      obtain ⟨r, hr⟩ := @findPath_total cap N st.edges st.cs i j hi hedge
      cases r with
      | none =>
        rw [hr]
        exact ⟨st, rfl⟩
      | some path =>
        rw [hr]
        have hOK := findPath_some_pathOK hr
        have hne : path ≠ [] := pathOK_ne_nil hOK hij
        have hnd : path.Nodup := pathOK_nodup hOK
        have hbnd : ∀ k ∈ path, k < st.edges.length :=
          fun k hk => (hOK.2.2.1 k hk).1
        obtain ⟨pc, hpc, hpc1⟩ := pathCap_total hne
          (fun e he => (hOK.2.2.1 e he).2)
        obtain ⟨cs1, hcs1⟩ := commitCs_total path st.cs hE.2.1 hnd hOK.2.2.2
        have hget : ∀ k ∈ path, ∃ e, st.edges.get? k = some e := by
          intro k hk
          cases hg : st.edges.get? k with
          | none => exact absurd (List.get?_eq_none.mp hg) (by
              have := hbnd k hk; omega)
          | some e => exact ⟨e, rfl⟩
        have hP : ∀ k ∈ path, ∃ e, st.edges.get? k = some e ∧
            e.cargo.sum + min pc (st.crates i j) ≤ cap ∧ e.i ≠ j := by
          intro k hk
          obtain ⟨e, hg⟩ := hget k hk
          have hgd : st.edges.getD k default = e := getD_of_get? hg
          have hcapk := (hOK.2.2.1 k hk).2
          have hpcle := pathCap_mem_le hpc k hk
          have hni := isPath_src_ne_endpoint hOK.1 hOK.2.1 k hk
          rw [hgd] at hcapk hpcle hni
          refine ⟨e, hg, ?_, hni⟩
          have hm : min pc (st.crates i j) ≤ pc := Nat.min_le_left _ _
          omega
        obtain ⟨hinv1, hb1, hgood1, _⟩ :=
          @commitCs_some_spec st.edges path st.cs cs1 hcs1 hE.2.1
            hE.2.2.1 hE.2.2.2 hbnd (isPath_chain' hOK.1) hnd hOK.2.2.2
        have hE1 : EInv cap N
            (⟨mset st.crates i j (st.crates i j - min pc (st.crates i j)),
              incEdges j (min pc (st.crates i j)) st.edges path, cs1⟩ : EState) := by
          refine ⟨incEdges_WF hE.1 hnd hj hP, hinv1, ?_, GoodCS_incEdges hgood1⟩
          intro p hp
          have hb := hb1 p hp
          show p.1 < (incEdges _ _ _ _).length ∧ p.2 < (incEdges _ _ _ _).length
          rw [incEdges_length]
          exact hb
        obtain ⟨st', hst'⟩ := IH i j
          (⟨mset st.crates i j (st.crates i j - min pc (st.crates i j)),
            incEdges j (min pc (st.crates i j)) st.edges path, cs1⟩ : EState)
          (by
            show mset st.crates i j
              (st.crates i j - min pc (st.crates i j)) i j < f
            rw [mset_same]
            have hm2 : 1 ≤ min pc (st.crates i j) :=
              Nat.le_min.mpr ⟨hpc1, hpos⟩
            omega)
          hE1 hi hj hij
        refine ⟨st', ?_⟩
        simp only [Option.pure_def, Option.bind_eq_bind, Option.bind_eq_some]
        exact ⟨pc, hpc, cs1, hcs1, hst'⟩
    · rw [if_neg hpos]
      exact ⟨st, rfl⟩

theorem einv_init {cap N : Nat} {crates : Nat → Nat → Nat} :
    EInv cap N (⟨crates, [], []⟩ : EState) := by
  refine ⟨fun e he => absurd he (List.not_mem_nil e),
    ⟨fun a b c hab _ => absurd hab (List.not_mem_nil _),
     fun a b hab => absurd hab (List.not_mem_nil _),
     fun a haa => List.not_mem_nil _ haa⟩,
    fun p hp => absurd hp (List.not_mem_nil p),
    fun p c hpc => absurd hpc (List.not_mem_nil _)⟩

theorem processPair_total {cap N : Nat} {st : EState} {i j : Nat}
    (hcap : 0 < cap) (hE : EInv cap N st) (hi : i < N) (hj : j < N)
    (hij : i ≠ j) : ∃ st', processPair cap N st i j = some st' := by
  obtain ⟨st1, hbulk⟩ :=
    bulkLoop_total (N := N) hcap (st.crates i j + 1) i j st (by omega)
  obtain ⟨hE1, _, _, hlt1, _⟩ :=
    bulkLoop_spec _ i j st st1 hbulk hE hi hj hij
  obtain ⟨st2, htrans⟩ :=
    transLoop_total (st1.crates i j + 1) i j st1 (by omega) hE1 hi hj hij
  obtain ⟨hE2, _, hle2, _⟩ :=
    transLoop_spec _ i j st1 st2 htrans hE1 hi hj hij
  unfold processPair
  simp only [Option.pure_def, Option.bind_eq_bind, Option.bind_eq_some]
  by_cases hpos : 0 < st2.crates i j
  · have hadd : addEdge cap N st2.edges i j (st2.crates i j) =
        some (st2.edges ++
          [⟨i, j, (List.replicate N 0).set j (st2.crates i j)⟩]) := by
      unfold addEdge
      rw [if_pos (by omega)]
    refine ⟨⟨mset st2.crates i j 0,
      st2.edges ++ [⟨i, j, (List.replicate N 0).set j (st2.crates i j)⟩],
      st2.cs⟩, st1, hbulk, st2, htrans, ?_⟩
    rw [if_pos hpos]
    simp only [Option.pure_def, Option.bind_eq_bind, Option.bind_eq_some]
    exact ⟨_, hadd, rfl⟩
  · refine ⟨st2, st1, hbulk, st2, htrans, ?_⟩
    rw [if_neg hpos]

theorem planFold_total {cap N : Nat} (hcap : 0 < cap) :
    ∀ (todo : List (Nat × Nat)) (st : EState), EInv cap N st →
    (∀ p ∈ todo, (p : Nat × Nat).1 < N ∧ p.2 < N) →
    (∀ p ∈ todo, (p : Nat × Nat).1 = p.2 → st.crates p.1 p.2 = 0) →
    ∃ st', todo.foldlM (fun st ij => processPair cap N st ij.1 ij.2) st =
      some st' := by
  intro todo
  induction todo with
  | nil => intro st _ _ _; exact ⟨st, rfl⟩
  | cons q todo IH =>
    obtain ⟨qi, qj⟩ := q
    intro st hE hrange hdiag
    by_cases hqd : qi = qj
    · have hz : st.crates qi qj = 0 :=
        hdiag (qi, qj) (List.mem_cons_self _ _) hqd
      have hq : processPair cap N st qi qj = some st := processPair_zero hz hcap
      obtain ⟨st', hrest⟩ := IH st hE
        (fun p hp => hrange p (List.mem_cons_of_mem _ hp))
        (fun p hp hpd => hdiag p (List.mem_cons_of_mem _ hp) hpd)
      refine ⟨st', ?_⟩
      rw [List.foldlM_cons]
      simp only [Option.bind_eq_bind, Option.bind_eq_some]
      exact ⟨st, hq, hrest⟩
    · have hr := hrange (qi, qj) (List.mem_cons_self _ _)
      have hi : qi < N := hr.1
      have hj : qj < N := hr.2
      obtain ⟨st1, hq⟩ := processPair_total hcap hE hi hj hqd
      obtain ⟨hE1, hfr1, _, _⟩ := processPair_spec hq hE hi hj hqd
      obtain ⟨st', hrest⟩ := IH st1 hE1
        (fun p hp => hrange p (List.mem_cons_of_mem _ hp))
        (fun p hp hpd => by
          rw [hfr1 p.1 p.2 (fun hx => hqd (by rw [hx.1] at hpd; rw [hpd, hx.2]))]
          exact hdiag p (List.mem_cons_of_mem _ hp) hpd)
      refine ⟨st', ?_⟩
      rw [List.foldlM_cons]
      simp only [Option.bind_eq_bind, Option.bind_eq_some]
      exact ⟨st1, hq, hrest⟩

/-- C7.  On every well-formed instance (zero-diagonal demand matrix,
positive capacity) `plan_edges` is total: no assertion fires.  In
particular the forward-only guard of `find_path` is sufficient: every
`add_constraint(prev, next)` raised while committing a discovered path
succeeds — its cycle assertion, that `(next, prev)` is not already
present, never fails — and the bulk, transshipment and closure loops all
terminate. -/
theorem C7_totality {cap N : Nat} {crates : Nat → Nat → Nat} (hcap : 0 < cap)
    (hWC : WFCrates N crates) : ∃ st, planEdges cap N crates = some st := by
  unfold planEdges
  exact planFold_total hcap (ijOrder N crates) ⟨crates, [], []⟩ einv_init
    (fun p hp => mem_ijOrder.mp hp)
    (fun p hp hpd => by
      show crates p.1 p.2 = 0
      rw [← hpd]
      exact hWC p.1 (mem_ijOrder.mp hp).1)

theorem C7_witness :
    (0 < 30 ∧ WFCrates 2 exC) ∧ ∃ st, planEdges 30 2 exC = some st :=
  ⟨⟨by decide, exC_diag_zero⟩, C7_totality (by decide) exC_diag_zero⟩

theorem nodup_bounded_length {l : List Nat} {L : Nat} (hnd : l.Nodup)
    (hlt : ∀ x ∈ l, x < L) : l.length ≤ L := by
  have h1 : l.toFinset.card = l.length := List.toFinset_card_of_nodup hnd
  have h2 : l.toFinset ⊆ Finset.range L := by
    intro x hx
    rw [List.mem_toFinset] at hx
    exact Finset.mem_range.mpr (hlt x hx)
  have h3 := Finset.card_le_card h2
  rw [Finset.card_range] at h3
  omega

theorem visitEdge_closed {edges : List Edge} {cs : CSet} {st : PState}
    {idx c0 : Nat} {st' : PState}
    (hval : ∀ c u, u ∈ st.availOut c → ∃ e, edges.get? u = some e ∧ e.i = c ∧
      u ∉ st.visited ∧ isAvail cs st.visited u)
    (hclosed : ∀ a b : Nat, (a, b) ∈ cs → b ∈ st.visited → a ∈ st.visited)
    (hidx : idx ∈ st.availOut c0)
    (h : visitEdge edges cs st idx = some st') :
    ∀ a b : Nat, (a, b) ∈ cs → b ∈ st'.visited → a ∈ st'.visited := by
  obtain ⟨e, hget, hvis', _, _, _⟩ := visitEdge_frame h
  obtain ⟨_, _, _, _, hidxav⟩ := hval c0 idx hidx
  rw [hvis']
  intro a b hab hb
  rcases List.mem_append.mp hb with hb | hb
  · exact List.mem_append_left _ (hclosed a b hab hb)
  · have hbidx : b = idx := List.mem_singleton.mp hb
    exact List.mem_append_left _ (hidxav (a, b) hab (by rw [hbidx]))

theorem visitEdge_light {edges : List Edge} {cs : CSet} {st : PState}
    {idx c0 : Nat} {st' : PState}
    (hL : PLight edges cs st) (hgood : GoodCS edges cs)
    (hidx : idx ∈ st.availOut c0)
    (h : visitEdge edges cs st idx = some st') :
    PLight edges cs st' ∧ st'.visited = st.visited ++ [idx] ∧
      idx ∉ st.visited ∧ idx < edges.length ∧
      st'.trace = st.trace ∧ st'.pos = st.pos ∧ st'.ctr = st.ctr := by
  obtain ⟨e, hget, hvis', htr', hpos', hctr'⟩ := visitEdge_frame h
  obtain ⟨e0, hget0, _, hidxnv, _⟩ := hL.avail_valid c0 idx hidx
  have hidxlt : idx < edges.length := (List.get?_eq_some.mp hget0).1
  obtain ⟨hval', hnodup'⟩ := visitEdge_valid hL.avail_valid hL.avail_nodup h
  have hclosed' := visitEdge_closed hL.avail_valid hL.visited_closed hidx h
  have hcomp' := visitEdge_comp hL.avail_valid hL.avail_nodup hL.visited_closed
    ⟨hL.comp, hL.visited_lt⟩ hgood hidx h
  refine ⟨⟨hval', hnodup', ?_, hclosed', hcomp'.complete, hcomp'.visited_lt⟩,
    hvis', hidxnv, hidxlt, htr', hpos', hctr'⟩
  rw [hvis']
  exact nodup_concat hL.visited_nodup hidxnv

theorem extendJourney_total_light {edges : List Edge} {cs : CSet}
    {rand : Nat → Nat} {p : Nat} (hgood : GoodCS edges cs) :
    ∀ (fuel : Nat) (st : PState) (i : Nat) (ext : Bool),
      PLight edges cs st →
      edges.length + 1 - st.visited.length ≤ fuel →
      ∃ r, extendJourney edges cs rand fuel st p i ext = some r ∧
        PLight edges cs r.1 ∧
        (∀ v ∈ st.visited, v ∈ r.1.visited) ∧
        st.visited.length ≤ r.1.visited.length ∧
        (r.2 = ext ∨ st.visited.length < r.1.visited.length) ∧
        (0 < (st.availOut i).length → st.visited.length < r.1.visited.length) ∧
        ((st.availOut i).length = 0 →
          r = ({ st with pos := Function.update st.pos p i }, ext)) := by
  intro fuel
  induction fuel with
  | zero =>
    intro st i ext hL hfuel
    have hvle := nodup_bounded_length hL.visited_nodup hL.visited_lt
    omega
  | succ f IH =>
    intro st i ext hL hfuel
    rw [extendJourney]
    by_cases hlen : 0 < (st.availOut i).length
    · rw [if_pos hlen]
      set idx := (st.availOut i).getD (rand st.ctr % (st.availOut i).length) 0
        with hidxdef
      have hidxmem : idx ∈ st.availOut i := getD_mem_of_lt (Nat.mod_lt _ hlen)
      have hLc : PLight edges cs ({ st with ctr := st.ctr + 1 } : PState) :=
        ⟨hL.avail_valid, hL.avail_nodup, hL.visited_nodup, hL.visited_closed,
          hL.comp, hL.visited_lt⟩
      obtain ⟨e0, hget0, _, _, _⟩ := hL.avail_valid i idx hidxmem
      have hgd : edges.getD idx default = e0 := getD_of_get? hget0
      obtain ⟨st1, hvisit⟩ : ∃ st1,
          visitEdge edges cs { st with ctr := st.ctr + 1 } idx = some st1 := by
        unfold visitEdge
        rw [hget0]
        exact ⟨_, rfl⟩
      obtain ⟨hL1, hvis1, hidxnv, hidxlt, htr1, hpos1, hctr1⟩ :=
        visitEdge_light hLc hgood hidxmem hvisit
      have hL2 : PLight edges cs
          ({ st1 with trace := st1.trace ++ [PEvent.fly p idx] } : PState) :=
        ⟨hL1.avail_valid, hL1.avail_nodup, hL1.visited_nodup, hL1.visited_closed,
          hL1.comp, hL1.visited_lt⟩
      have hv2 : ({ st1 with trace := st1.trace ++ [PEvent.fly p idx] } :
          PState).visited = st.visited ++ [idx] := hvis1
      have hlen2 : ({ st1 with trace := st1.trace ++ [PEvent.fly p idx] } :
          PState).visited.length = st.visited.length + 1 := by
        rw [hv2, List.length_append, List.length_singleton]
      obtain ⟨r, hrec, hLr, hmono, hge, _, _, _⟩ :=
        IH { st1 with trace := st1.trace ++ [PEvent.fly p idx] } e0.j true hL2
          (by rw [hlen2]; omega)
      refine ⟨r, ?_, hLr, ?_, ?_, ?_, ?_, ?_⟩
      · simp only [Option.pure_def, Option.bind_eq_bind, Option.bind_eq_some]
        refine ⟨st1, hvisit, ?_⟩
        rw [hgd]
        exact hrec
      · intro v hv
        refine hmono v ?_
        rw [hv2]
        exact List.mem_append_left _ hv
      · omega
      · refine Or.inr ?_
        omega
      · intro _
        omega
      · intro h0
        omega
    · rw [if_neg hlen]
      refine ⟨({ st with pos := Function.update st.pos p i }, ext), rfl,
        ⟨hL.avail_valid, hL.avail_nodup, hL.visited_nodup, hL.visited_closed,
          hL.comp, hL.visited_lt⟩,
        fun v hv => hv, Nat.le_refl _, Or.inl rfl, ?_, fun _ => rfl⟩
      intro h0
      omega

theorem passFold_total_light {edges : List Edge} {cs : CSet} {rand : Nat → Nat}
    (hgood : GoodCS edges cs) :
    ∀ (l : List Nat) (s : PState) (b : Bool),
      PLight edges cs s →
      ∃ r, l.foldlM (fun sb p => do
          let r ← extendJourney edges cs rand (edges.length + 1) sb.1 p
            (sb.1.pos p) false
          some (r.1, sb.2 || r.2)) (s, b) = some r ∧
        PLight edges cs r.1 ∧
        (∀ v ∈ s.visited, v ∈ r.1.visited) ∧
        s.visited.length ≤ r.1.visited.length ∧
        (r.2 = b ∨ s.visited.length < r.1.visited.length) ∧
        ((∃ p ∈ l, 0 < (s.availOut (s.pos p)).length) →
          s.visited.length < r.1.visited.length) := by
  intro l
  induction l with
  | nil =>
    intro s b hL
    refine ⟨(s, b), rfl, hL, fun v hv => hv, Nat.le_refl _, Or.inl rfl, ?_⟩
    rintro ⟨p, hp, _⟩
    exact absurd hp (List.not_mem_nil p)
  | cons p l IH =>
    intro s b hL
    obtain ⟨r0, hEJ, hL0, hmono0, hge0, hext0, hgrow0, hempty0⟩ :=
      extendJourney_total_light hgood (edges.length + 1) s (s.pos p) false hL
        (by omega)
    by_cases hgrew : s.visited.length < r0.1.visited.length
    · obtain ⟨r, hfold, hLr, hmono, hge, _, _⟩ := IH r0.1 (b || r0.2) hL0
      refine ⟨r, ?_, hLr, fun v hv => hmono v (hmono0 v hv), by omega,
        Or.inr (by omega), fun _ => by omega⟩
      simp only [List.foldlM_cons, Option.pure_def, Option.bind_eq_bind,
        Option.bind_eq_some, Option.some_inj]
      exact ⟨(r0.1, b || r0.2), ⟨r0, hEJ, rfl⟩, hfold⟩
    · have hb0 : r0.2 = false := by
        rcases hext0 with h | h
        · exact h
        · omega
      have hempty : (s.availOut (s.pos p)).length = 0 := by
        by_contra hcon
        exact hgrew (hgrow0 (by omega))
      have hr0 : r0 = ({ s with pos := Function.update s.pos p (s.pos p) },
          false) := hempty0 hempty
      have hr0s : r0.1 = s := by
        rw [hr0]
        show ({ s with pos := Function.update s.pos p (s.pos p) } : PState) = s
        rw [Function.update_eq_self]
      obtain ⟨r, hfold, hLr, hmono, hge, hext, hexist⟩ := IH r0.1 (b || r0.2) hL0
      rw [hr0s] at hmono hge hext hexist
      rw [hb0, Bool.or_false] at hext
      refine ⟨r, ?_, hLr, hmono, hge, hext, ?_⟩
      · simp only [List.foldlM_cons, Option.pure_def, Option.bind_eq_bind,
          Option.bind_eq_some, Option.some_inj]
        exact ⟨(r0.1, b || r0.2), ⟨r0, hEJ, rfl⟩, hfold⟩
      · rintro ⟨q, hq, hqlen⟩
        rcases List.mem_cons.mp hq with heq | hq
        · rw [heq] at hqlen
          omega
        · exact hexist ⟨q, hq, hqlen⟩

theorem extendPass_total_light {edges : List Edge} {cs : CSet}
    {rand : Nat → Nat} {planeCount : Nat} {st : PState}
    (hgood : GoodCS edges cs) (hL : PLight edges cs st) :
    ∃ r, extendPass edges cs rand planeCount st = some r ∧
      PLight edges cs r.1 ∧
      (∀ v ∈ st.visited, v ∈ r.1.visited) ∧
      st.visited.length ≤ r.1.visited.length ∧
      (r.2 = true → st.visited.length < r.1.visited.length) ∧
      ((∃ p, p < planeCount ∧ 0 < (st.availOut (st.pos p)).length) →
        st.visited.length < r.1.visited.length) := by
  obtain ⟨r, hfold, hLr, hmono, hge, hext, hexist⟩ :=
    passFold_total_light hgood (List.range planeCount) st false hL
  refine ⟨r, hfold, hLr, hmono, hge, ?_, ?_⟩
  · intro htrue
    rcases hext with h | h
    · rw [htrue] at h
      exact absurd h.symm Bool.false_ne_true
    · exact h
  · rintro ⟨p, hp, hplen⟩
    exact hexist ⟨p, List.mem_range.mpr hp, hplen⟩

theorem extendPhase_total_light {edges : List Edge} {cs : CSet}
    {rand : Nat → Nat} {planeCount : Nat} (hgood : GoodCS edges cs) :
    ∀ (fuel : Nat) (st : PState), PLight edges cs st →
      edges.length + 2 - st.visited.length ≤ fuel →
      ∃ st1, extendPhase edges cs rand planeCount fuel st = some st1 ∧
        PLight edges cs st1 ∧
        (∀ v ∈ st.visited, v ∈ st1.visited) ∧
        st.visited.length ≤ st1.visited.length ∧
        ((∃ p, p < planeCount ∧ 0 < (st.availOut (st.pos p)).length) →
          st.visited.length < st1.visited.length) := by
  intro fuel
  induction fuel with
  | zero =>
    intro st hL hfuel
    have hvle := nodup_bounded_length hL.visited_nodup hL.visited_lt
    omega
  | succ f IH =>
    intro st hL hfuel
    rw [extendPhase]
    obtain ⟨r, hpass, hLr, hmono, hge, hext, hexist⟩ :=
      @extendPass_total_light edges cs rand planeCount st hgood hL
    cases hr2 : r.2 with
    | true =>
      have hgrow := hext hr2
      obtain ⟨st1, hrec, hL1, hmono1, hge1, _⟩ := IH r.1 hLr (by omega)
      refine ⟨st1, ?_, hL1, fun v hv => hmono1 v (hmono v hv), by omega,
        fun _ => by omega⟩
      simp only [Option.pure_def, Option.bind_eq_bind, Option.bind_eq_some]
      refine ⟨r, hpass, ?_⟩
      rw [hr2, if_pos rfl]
      exact hrec
    | false =>
      refine ⟨r.1, ?_, hLr, hmono, hge, hexist⟩
      simp only [Option.pure_def, Option.bind_eq_bind, Option.bind_eq_some]
      refine ⟨r, hpass, ?_⟩
      rw [hr2, if_neg Bool.false_ne_true]

theorem exists_cs_minimal {cs : CSet} (htc : TransClosed cs) (hirr : IrreflCS cs)
    {L : Nat} (P : Nat → Bool) (hPlt : ∀ v, P v = true → v < L) :
    ∀ (n : Nat) (u : Nat), P u = true →
      ((List.range L).filter (fun v => P v && decide ((v, u) ∈ cs))).length ≤ n →
      ∃ u', P u' = true ∧ ∀ v, P v = true → (v, u') ∉ cs := by
  intro n
  induction n with
  | zero =>
    intro u hPu hc
    by_cases huniv : ∀ v, P v = true → (v, u) ∉ cs
    · exact ⟨u, hPu, huniv⟩
    · push_neg at huniv
      obtain ⟨v, hPv, hvu⟩ := huniv
      have hvmem : v ∈ (List.range L).filter
          (fun v => P v && decide ((v, u) ∈ cs)) := by
        rw [List.mem_filter]
        refine ⟨List.mem_range.mpr (hPlt v hPv), ?_⟩
        show (P v && decide ((v, u) ∈ cs)) = true
        rw [hPv, decide_eq_true hvu]
        rfl
      have := List.length_pos_of_mem hvmem
      omega
  | succ n IH =>
    intro u hPu hc
    by_cases huniv : ∀ v, P v = true → (v, u) ∉ cs
    · exact ⟨u, hPu, huniv⟩
    · push_neg at huniv
      obtain ⟨v, hPv, hvu⟩ := huniv
      have hlt := length_filter_strict
        (fun x => P x && decide ((x, u) ∈ cs))
        (fun x => P x && decide ((x, v) ∈ cs))
        (List.range L) v (List.mem_range.mpr (hPlt v hPv))
        (by
          show (P v && decide ((v, u) ∈ cs)) = true
          rw [hPv, decide_eq_true hvu]; rfl)
        (by
          show (P v && decide ((v, v) ∈ cs)) = false
          rw [hPv, decide_eq_false (hirr v)]; rfl)
        (by
          intro y _ hy
          simp only [Bool.and_eq_true, decide_eq_true_eq] at hy ⊢
          exact ⟨hy.1, htc y v u hy.2 hvu⟩)
      exact IH v hPv (by omega)

theorem stuck_coverage {edges : List Edge} {cs : CSet} {N : Nat} {st : PState}
    (hL : PLight edges cs st) (hinv : CsInv cs)
    (hb : ∀ p ∈ cs, (p : Nat × Nat).1 < edges.length ∧ p.2 < edges.length)
    (hiN : ∀ e ∈ edges, e.i < N)
    (hempty : (List.range N).filter (fun j => 0 < (st.availOut j).length) = []) :
    ∀ k, k < edges.length → k ∈ st.visited := by
  intro k hk
  by_contra hkv
  have hPlt : ∀ v, (decide (v < edges.length) && decide (v ∉ st.visited)) =
      true → v < edges.length := by
    intro v hv
    simp only [Bool.and_eq_true, decide_eq_true_eq] at hv
    exact hv.1
  have hPk : (decide (k < edges.length) && decide (k ∉ st.visited)) = true := by
    simp only [Bool.and_eq_true, decide_eq_true_eq]
    exact ⟨hk, hkv⟩
  obtain ⟨u, hPu, hmin⟩ := exists_cs_minimal hinv.1 hinv.2.2
    (fun v => decide (v < edges.length) && decide (v ∉ st.visited)) hPlt
    _ k hPk (Nat.le_refl _)
  have hu : u < edges.length ∧ u ∉ st.visited := by
    simpa only [Bool.and_eq_true, decide_eq_true_eq] using hPu
  have hav : isAvail cs st.visited u := by
    intro pq hpq he
    by_contra hnv
    have hP1 : (decide (pq.1 < edges.length) && decide (pq.1 ∉ st.visited)) =
        true := by
      simp only [Bool.and_eq_true, decide_eq_true_eq]
      exact ⟨(hb pq hpq).1, hnv⟩
    refine hmin pq.1 hP1 ?_
    rw [← he, Prod.mk.eta]
    exact hpq
  have hmem := hL.comp u hu.1 hu.2 hav
  obtain ⟨e, hget⟩ : ∃ e, edges.get? u = some e := by
    cases hg : edges.get? u with
    | none => exact absurd (List.get?_eq_none.mp hg) (by omega)
    | some e => exact ⟨e, rfl⟩
  have hgd : edges.getD u default = e := getD_of_get? hget
  have heiN : e.i < N := hiN e (List.get?_mem hget)
  have hfm : e.i ∈ (List.range N).filter
      (fun j => 0 < (st.availOut j).length) := by
    rw [List.mem_filter]
    refine ⟨List.mem_range.mpr heiN, ?_⟩
    rw [hgd] at hmem
    exact decide_eq_true (List.length_pos_of_mem hmem)
  rw [hempty] at hfm
  exact absurd hfm (List.not_mem_nil _)

theorem argmaxFirst_some {key : Nat → Int} {l : List Nat} (h : l ≠ []) :
    ∃ x, argmaxFirst key l = some x := by
  cases l with
  | nil => exact absurd rfl h
  | cons y ys => exact ⟨_, rfl⟩

theorem argminFirst_some {key : Nat × Nat → Nat} {l : List (Nat × Nat)}
    (h : l ≠ []) : ∃ x, argminFirst key l = some x := by
  cases l with
  | nil => exact absurd rfl h
  | cons y ys => exact ⟨_, rfl⟩

theorem mainLoop_total_light {N : Nat} {edges : List Edge} {cs : CSet}
    {rand : Nat → Nat} {planeCount : Nat}
    (hgood : GoodCS edges cs) (hinv : CsInv cs)
    (hb : ∀ p ∈ cs, (p : Nat × Nat).1 < edges.length ∧ p.2 < edges.length)
    (hiN : ∀ e ∈ edges, e.i < N) (hpc : 0 < planeCount) :
    ∀ (fuel : Nat) (st : PState), PLight edges cs st →
      (2 * (edges.length - st.visited.length) + 2 ≤ fuel ∨
        (2 * (edges.length - st.visited.length) + 1 ≤ fuel ∧
          ∃ p, p < planeCount ∧ 0 < (st.availOut (st.pos p)).length)) →
      ∃ st', mainLoop N edges cs rand planeCount fuel st = some st' ∧
        PLight edges cs st' ∧ (∀ k, k < edges.length → k ∈ st'.visited) := by
  intro fuel
  induction fuel with
  | zero =>
    intro st hL hf
    rcases hf with hf | ⟨hf, _⟩ <;> omega
  | succ f IH =>
    intro st hL hf
    rw [mainLoop]
    obtain ⟨st1, hphase, hL1, hmono1, hge1, hexist1⟩ :=
      extendPhase_total_light hgood (edges.length + 2) st hL (by omega)
    by_cases hempty :
        (List.range N).filter (fun j => 0 < (st1.availOut j).length) = []
    · refine ⟨st1, ?_, hL1, stuck_coverage hL1 hinv hb hiN hempty⟩
      simp only [Option.pure_def, Option.bind_eq_bind, Option.bind_eq_some]
      refine ⟨st1, hphase, ?_⟩
      rw [if_pos hempty]
    · obtain ⟨jj, hjj⟩ := @argmaxFirst_some
        (fun j => ((st1.availOut j).length : Int) -
          ((st1.availIn j).length : Int)) _ hempty
      obtain ⟨pi_, hpi⟩ := @argminFirst_some
        (fun pr =>
          ((allOut edges pr.2).filter (fun u => u ∉ st1.visited)).length)
        ((List.range planeCount).map (fun p => (p, st1.pos p)))
        (by
          intro hnil
          rw [List.map_eq_nil] at hnil
          rw [List.range_eq_nil] at hnil
          omega)
      have hjjmem := argmaxFirst_mem hjj
      rw [List.mem_filter] at hjjmem
      have hjjpos : 0 < (st1.availOut jj).length := of_decide_eq_true hjjmem.2
      have hpimem := argminFirst_mem hpi
      rw [List.mem_map] at hpimem
      obtain ⟨p0, hp0, hp0eq⟩ := hpimem
      have hp0lt : p0 < planeCount := List.mem_range.mp hp0
      have hpi1 : pi_.1 = p0 := by rw [← hp0eq]
      have hL2 : PLight edges cs
          ({ st1 with pos := Function.update st1.pos pi_.1 jj,
                      trace := st1.trace ++ [PEvent.jump pi_.1 pi_.2 jj] } :
            PState) :=
        ⟨hL1.avail_valid, hL1.avail_nodup, hL1.visited_nodup,
          hL1.visited_closed, hL1.comp, hL1.visited_lt⟩
      have hex2 : ∃ p, p < planeCount ∧
          0 < (st1.availOut (Function.update st1.pos pi_.1 jj p)).length := by
        refine ⟨pi_.1, by rw [hpi1]; exact hp0lt, ?_⟩
        rw [Function.update_same]
        exact hjjpos
      have hvle1 := nodup_bounded_length hL1.visited_nodup hL1.visited_lt
      have hfuel2 : 2 * (edges.length - st1.visited.length) + 1 ≤ f := by
        rcases hf with hfA | ⟨hfB, hex⟩
        · omega
        · have hgrow := hexist1 hex
          omega
      obtain ⟨st', hrec, hL', hcov⟩ := IH _ hL2 (Or.inr ⟨hfuel2, hex2⟩)
      refine ⟨st', ?_, hL', hcov⟩
      simp only [Option.pure_def, Option.bind_eq_bind, Option.bind_eq_some]
      refine ⟨st1, hphase, ?_⟩
      rw [if_neg hempty]
      simp only [Option.bind_eq_some]
      exact ⟨jj, hjj, pi_, hpi, hrec⟩

theorem initFold_mono {edges : List Edge} {cs : CSet} :
    ∀ (l : List (Nat × Edge)) (ai : (Nat → List Nat) × (Nat → List Nat))
      (c u : Nat), u ∈ ai.1 c →
      u ∈ (l.foldl (fun ai pe =>
        if isAvail cs [] pe.1 then mkAvail edges ai.1 ai.2 pe.1 else ai) ai).1 c := by
  intro l
  induction l with
  | nil => intro ai c u hu; exact hu
  | cons pe l IH =>
    intro ai c u hu
    rw [List.foldl_cons]
    apply IH
    by_cases hg : isAvail cs [] pe.1
    · rw [if_pos hg]
      simp only [mkAvail, Function.update_apply]
      by_cases hc : c = (edges.getD pe.1 default).i
      · rw [if_pos hc]
        refine List.mem_append_left _ ?_
        rw [← hc]
        exact hu
      · rw [if_neg hc]
        exact hu
    · rw [if_neg hg]
      exact hu

theorem initFold_complete {edges : List Edge} {cs : CSet} :
    ∀ (l : List (Nat × Edge)) (ai : (Nat → List Nat) × (Nat → List Nat))
      (idx : Nat) (e : Edge), (idx, e) ∈ l → edges.get? idx = some e →
      isAvail cs [] idx →
      idx ∈ (l.foldl (fun ai pe =>
        if isAvail cs [] pe.1 then mkAvail edges ai.1 ai.2 pe.1 else ai)
          ai).1 e.i := by
  intro l
  induction l with
  | nil => intro ai idx e hm; exact absurd hm (List.not_mem_nil _)
  | cons pe l IH =>
    intro ai idx e hm hget hav
    rw [List.foldl_cons]
    rcases List.mem_cons.mp hm with heq | hm
    · rw [← heq]
      rw [if_pos (show isAvail cs [] (idx, e).1 from hav)]
      apply initFold_mono
      simp only [mkAvail, getD_of_get? hget, Function.update_same]
      exact List.mem_append_right _ (List.mem_singleton.mpr rfl)
    · exact IH _ idx e hm hget hav

theorem PLight_init {edges : List Edge} {cs : CSet} {planes : List Nat} :
    PLight edges cs ⟨(initAvail edges cs).1, (initAvail edges cs).2, [],
      fun p => planes.getD p 0, [], 0⟩ := by
  obtain ⟨hval, hnodup⟩ := @initAvail_valid edges cs
  refine ⟨?_, hnodup, List.nodup_nil, ?_, ?_, ?_⟩
  · intro c u hu
    obtain ⟨e, hget, hei, hav⟩ := hval c u hu
    exact ⟨e, hget, hei, List.not_mem_nil u, hav⟩
  · intro a b _ hb
    exact absurd hb (List.not_mem_nil b)
  · intro idx hidx _ hav
    obtain ⟨e, hget⟩ : ∃ e, edges.get? idx = some e := by
      cases hg : edges.get? idx with
      | none => exact absurd (List.get?_eq_none.mp hg) (by omega)
      | some e => exact ⟨e, rfl⟩
    rw [getD_of_get? hget]
    show idx ∈ (initAvail edges cs).1 e.i
    unfold initAvail
    exact initFold_complete edges.enum _ idx e
      (List.mem_enum_iff_get?.mpr hget) hget hav
  · intro v hv
    exact absurd hv (List.not_mem_nil v)

/-- C5.  On a well-formed instance (consistent, in-range, chained constraint
store and in-range edge sources) with at least one plane, `plan_planes`
terminates successfully — in particular its final assertion that the
visited set equals the full edge-index range holds — and every edge index
appears exactly once among the non-repositioning flights of the output
trace (so the multiset of non-repositioning flights equals the multiset of
edges; the flight emitted for index `k` carries `edges[k]`'s source,
destination and cargo by construction of the trace). -/
theorem C5_edge_coverage {N : Nat} {edges : List Edge} {cs : CSet}
    {planes : List Nat} {rand : Nat → Nat}
    (hinv : CsInv cs) (hgood : GoodCS edges cs)
    (hb : ∀ p ∈ cs, (p : Nat × Nat).1 < edges.length ∧ p.2 < edges.length)
    (hiN : ∀ e ∈ edges, e.i < N)
    (hplanes : planes ≠ []) :
    ∃ st, planPlanes N edges cs planes rand = some st ∧
      (∀ k, k < edges.length → (flyIndices st.trace).count k = 1) ∧
      (∀ k ∈ flyIndices st.trace, k < edges.length) := by
  have hpc : 0 < planes.length := List.length_pos.mpr hplanes
  obtain ⟨st1, hmain, hL1, hcov⟩ := mainLoop_total_light hgood hinv hb hiN hpc
    (2 * edges.length + 2)
    ⟨(initAvail edges cs).1, (initAvail edges cs).2, [],
      fun p => planes.getD p 0, [], 0⟩
    PLight_init (Or.inl (by simp only [List.length_nil]; omega))
  have hassert : (∀ k < edges.length, k ∈ st1.visited) ∧
      (∀ v ∈ st1.visited, v < edges.length) := ⟨hcov, hL1.visited_lt⟩
  have hplan : planPlanes N edges cs planes rand = some st1 := by
    unfold planPlanes
    simp only [Option.pure_def, Option.bind_eq_bind, Option.bind_eq_some]
    refine ⟨st1, hmain, ?_⟩
    rw [if_pos hassert]
  have hinvP := planPlanes_inv hplan
  refine ⟨st1, hplan, ?_, ?_⟩
  · intro k hk
    rw [hinvP.trace_visited]
    exact List.count_eq_one_of_mem hinvP.visited_nodup (hcov k hk)
  · intro k hkm
    rw [hinvP.trace_visited] at hkm
    exact hL1.visited_lt k hkm

theorem C5_witness :
    (CsInv exCs ∧ GoodCS exEdges exCs ∧
      (∀ p ∈ exCs, (p : Nat × Nat).1 < exEdges.length ∧
        p.2 < exEdges.length) ∧
      (∀ e ∈ exEdges, e.i < 3) ∧ ([2] : List Nat) ≠ []) ∧
    ∃ st, planPlanes 3 exEdges exCs [2] (fun _ => 0) = some st ∧
      (∀ k, k < exEdges.length → (flyIndices st.trace).count k = 1) ∧
      (∀ k ∈ flyIndices st.trace, k < exEdges.length) := by
  have hinv : CsInv exCs := by
    refine ⟨?_, ?_, ?_⟩
    · intro a b c hab hbc
      simp only [exCs, List.mem_singleton, Prod.mk.injEq] at hab hbc
      omega
    · intro a b hab hba
      simp only [exCs, List.mem_singleton, Prod.mk.injEq] at hab hba
      omega
    · intro a ha
      simp only [exCs, List.mem_singleton, Prod.mk.injEq] at ha
      omega
  have hgood : GoodCS exEdges exCs := by
    intro p c hpc
    simp only [exCs, List.mem_singleton, Prod.mk.injEq] at hpc
    refine ⟨0, ?_, ?_, Or.inl hpc.1⟩
    · rw [hpc.2]
      exact List.mem_singleton.mpr rfl
    · rw [hpc.2]
      rfl
  exact ⟨⟨hinv, hgood, by decide, by decide, by decide⟩,
    C5_edge_coverage hinv hgood (by decide) (by decide) (by decide)⟩

end Logistics
